import Mathlib

/-!
Verification of the memory-to-register promotion pass (`Mem2Reg.cpp`).

The C++ source operates on LLVM IR.  We shallow-embed the fragment of the IR
that the pass manipulates: a function is a list of basic blocks, a basic block
is an ordered list of numbered instructions whose last element is the
terminator, and values are either instruction results (`vreg`), arguments,
constants, or the `undef` / `poison` markers (in LLVM, `PoisonValue` is a
subclass of `UndefValue`, which we reflect in `isUndefValue`).

External collaborators that the pass consumes (the dominator tree and the
iterated-dominance-frontier calculator) are parameters of the embedding, as
the specification declares them out of scope ("assumed provided").

Stateful C++ is embedded as explicit state passing; loops whose termination
is not structural take a fuel argument and return `Option` (`none` models
both fuel exhaustion and C++ undefined behaviour such as a failing `cast<>`
or a violated `assert`).
-/

namespace M2R

abbrev BId := Nat
abbrev IId := Nat

/-- Types.  LLVM uses opaque pointers, so every pointer has the single type
`ptr`; other (first-class) types are abstracted as numbered base types. -/
inductive Ty where
  | base : Nat → Ty
  | ptr : Ty
  deriving DecidableEq, Repr

/-- Values.  `vreg i` is the result of the instruction numbered `i`.
`UndefValue::get` and `PoisonValue::get` return one object per type, so
structural equality on `vundef` / `vpoison` matches C++ pointer equality. -/
inductive Val where
  | vreg : IId → Val
  | varg : Nat → Ty → Val
  | vconst : Int → Ty → Val
  | vundef : Ty → Val
  | vpoison : Ty → Val
  deriving DecidableEq, Repr

/-- Instructions.  A `load ty p` produces a value of type `ty` from pointer
`p`; a `store v p` writes `v` through `p`; a `phi ty inc` carries its list of
(value, predecessor-block) incoming pairs; `other` is any further
non-terminator instruction; `term ops succs` is a terminator with value
operands `ops` and successor-block slots `succs` (a switch with duplicate
targets lists the same block several times). -/
inductive Instr where
  | alloca : Ty → Instr
  | load : Ty → Val → Instr
  | store : Val → Val → Instr
  | phi : Ty → List (Val × BId) → Instr
  | other : Ty → List Val → Instr
  | term : List Val → List BId → Instr
  deriving DecidableEq, Repr

def Instr.isTerm : Instr → Bool
  | .term _ _ => true
  | _ => false

def Instr.isPhi : Instr → Bool
  | .phi _ _ => true
  | _ => false

/-- The value operands of an instruction (the uses it holds).  For a phi
these are the incoming values; successor blocks of a terminator are not value
operands. -/
def Instr.operands : Instr → List Val
  | .alloca _ => []
  | .load _ p => [p]
  | .store v p => [v, p]
  | .phi _ inc => inc.map (fun vb => vb.1)
  | .other _ ops => ops
  | .term ops _ => ops

/-- Map a function over every value operand, leaving structure (including a
terminator's successor slots and a phi's incoming blocks) unchanged. -/
def Instr.mapOps (f : Val → Val) : Instr → Instr
  | .alloca ty => .alloca ty
  | .load ty p => .load ty (f p)
  | .store v p => .store (f v) (f p)
  | .phi ty inc => .phi ty (inc.map (fun vb => (f vb.1, vb.2)))
  | .other ty ops => .other ty (ops.map f)
  | .term ops ss => .term (ops.map f) ss

/-- The result type of an instruction, when it produces a value
(`Value::getType`; stores and terminators produce none). An `alloca` produces
a pointer. -/
def Instr.resultTy : Instr → Option Ty
  | .alloca _ => some Ty.ptr
  | .load ty _ => some ty
  | .phi ty _ => some ty
  | .other ty _ => some ty
  | .store _ _ => none
  | .term _ _ => none

structure Block where
  bid : BId
  insts : List (IId × Instr)
  deriving DecidableEq, Repr

/-- A function: its blocks in layout order (the first is the entry block)
plus a fresh-id counter used when the pass creates phi nodes. -/
structure Func where
  blocks : List Block
  nextId : IId
  deriving DecidableEq, Repr

def Func.instrs (F : Func) : List (IId × BId × Instr) :=
  (F.blocks.map (fun b => b.insts.map (fun p => (p.1, b.bid, p.2)))).flatten

def Func.findInstr (F : Func) (i : IId) : Option Instr :=
  (F.instrs.find? (fun t => t.1 == i)).map (fun t => t.2.2)

def Func.parentOf (F : Func) (i : IId) : Option BId :=
  (F.instrs.find? (fun t => t.1 == i)).map (fun t => t.2.1)

def Func.ids (F : Func) : List IId :=
  F.instrs.map (fun t => t.1)

def Func.blockInsts (F : Func) (b : BId) : List (IId × Instr) :=
  match F.blocks.find? (fun blk => blk.bid == b) with
  | some blk => blk.insts
  | none => []

/-- The users of a value: every instruction holding it as an operand, in
layout order.  LLVM iterates the use list (one visit per use); for the
allocas this pass handles every user holds the alloca exactly once, and any
instruction using it twice is rejected by the promotability filter, so the
per-instruction view is equivalent. -/
def Func.usersOf (F : Func) (v : Val) : List (IId × BId × Instr) :=
  F.instrs.filter (fun t => t.2.2.operands.contains v)

/-- `Instruction::eraseFromParent`: remove the instruction from its block. -/
def Func.eraseInstr (F : Func) (i : IId) : Func :=
  { F with blocks := F.blocks.map (fun b =>
      { b with insts := b.insts.filter (fun p => p.1 != i) }) }

def substVal (old new v : Val) : Val := if v = old then new else v

/-- `Value::replaceAllUsesWith`: rewrite every operand equal to `old`. -/
def Func.rauw (F : Func) (old new : Val) : Func :=
  { F with blocks := F.blocks.map (fun b =>
      { b with insts := b.insts.map (fun p => (p.1, p.2.mapOps (substVal old new))) }) }

/-- Overwrite the instruction numbered `i` (models in-place mutation such as
`PHINode::addIncoming`). -/
def Func.setInstr (F : Func) (i : IId) (ins : Instr) : Func :=
  { F with blocks := F.blocks.map (fun b =>
      { b with insts := b.insts.map (fun p => if p.1 == i then (p.1, ins) else p) }) }

/-- Successor slots of a block: the successor list of its terminator (the
last instruction). -/
def Block.termSuccs (b : Block) : List BId :=
  match b.insts.getLast? with
  | some (_, .term _ ss) => ss
  | _ => []

def Func.succsOf (F : Func) (b : BId) : List BId :=
  match F.blocks.find? (fun blk => blk.bid == b) with
  | some blk => blk.termSuccs
  | none => []

/-- `predecessors(BB)`: one entry per successor slot targeting `b`, so a
terminator listing `b` twice contributes `b`'s predecessor twice, exactly as
LLVM's use-list based predecessor iterator does. -/
def Func.predsOf (F : Func) (b : BId) : List BId :=
  (F.blocks.map (fun blk =>
    (blk.termSuccs.filter (fun s => s == b)).map (fun _ => blk.bid))).flatten

/-- `pred_size` / the memoised `getNumPreds` (the pass never changes the CFG,
so the memoisation is transparent). -/
def Func.numPreds (F : Func) (b : BId) : Nat :=
  (F.predsOf b).length

def Func.isAllocaId (F : Func) (a : IId) : Bool :=
  match F.findInstr a with
  | some (.alloca _) => true
  | _ => false

def Func.allocatedTy (F : Func) (a : IId) : Option Ty :=
  match F.findInstr a with
  | some (.alloca ty) => some ty
  | _ => none

/-- `SimplifyQuery::isUndefValue`: true for `UndefValue`, of which
`PoisonValue` is a subclass. -/
def isUndefValue : Val → Bool
  | .vundef _ => true
  | .vpoison _ => true
  | _ => false

/-- The type of a value as seen through `Value::getType` (`none` for a
`vreg` whose instruction is absent or produces no value). -/
def Func.valTy (F : Func) (v : Val) : Option Ty :=
  match v with
  | .vreg i => match F.findInstr i with
    | some ins => ins.resultTy
    | none => none
  | .varg _ ty => some ty
  | .vconst _ ty => some ty
  | .vundef ty => some ty
  | .vpoison ty => some ty

/-- `isAllocaPromotable`: every user must be a direct load producing the
allocated type, or a store whose value operand is not the alloca itself and
has the allocated type. -/
def isAllocaPromotable (F : Func) (aid : IId) : Bool :=
  match F.findInstr aid with
  | some (.alloca aty) =>
    (F.usersOf (Val.vreg aid)).all (fun t =>
      match t.2.2 with
      | .load lty _ => lty == aty
      | .store v _ =>
        !(v == Val.vreg aid) && (F.valTy v == some aty)
      | _ => false)
  | _ => false

structure AllocaInfo where
  DefiningBlocks : List BId
  UsingBlocks : List BId
  OnlyStore : Option IId
  OnlyBlock : Option BId
  OnlyUsedInOneBlock : Bool
  deriving DecidableEq, Repr

def AllocaInfo.clear : AllocaInfo :=
  ⟨[], [], none, none, true⟩

/-- One step of `AllocaInfo::AnalyzeAlloca`'s user loop.  A user that is
neither a store nor a load fails the C++ `cast<LoadInst>` (undefined
behaviour), modelled by `none`. -/
def analyzeStep (info : AllocaInfo) (u : IId × BId × Instr) : Option AllocaInfo := do
  let info ←
    match u.2.2 with
    | .store _ _ =>
      some { info with
             DefiningBlocks := info.DefiningBlocks ++ [u.2.1]
             OnlyStore := some u.1 }
    | .load _ _ =>
      some { info with UsingBlocks := info.UsingBlocks ++ [u.2.1] }
    | _ => none
  if info.OnlyUsedInOneBlock then
    match info.OnlyBlock with
    | none => some { info with OnlyBlock := some u.2.1 }
    | some b =>
      if b == u.2.1 then some info
      else some { info with OnlyUsedInOneBlock := false }
  else
    some info

/-- `AllocaInfo::AnalyzeAlloca`: scan the users of the alloca. -/
def AnalyzeAlloca (F : Func) (aid : IId) : Option AllocaInfo :=
  (F.usersOf (Val.vreg aid)).foldlM analyzeStep AllocaInfo.clear

/-- `LargeBlockInfo::isInterestingInstruction`: loads from and stores to an
alloca. -/
def isInterestingInstruction (F : Func) : Instr → Bool
  | .load _ (.vreg a) => F.isAllocaId a
  | .store _ (.vreg a) => F.isAllocaId a
  | _ => false

/-- The `LargeBlockInfo` cache: instruction id to index.  A rescan prepends a
fresh numbering of a whole block, shadowing stale entries, and
`deleteValue` removes every entry of an id. -/
abbrev LBI := List (IId × Nat)

def lbiScanGo (F : Func) : List (IId × Instr) → Nat → List (IId × Nat)
  | [], _ => []
  | (i, ins) :: rest, n =>
    if isInterestingInstruction F ins then (i, n) :: lbiScanGo F rest (n + 1)
    else lbiScanGo F rest n

def lbiScanBlock (F : Func) (b : BId) : List (IId × Nat) :=
  lbiScanGo F (F.blockInsts b) 0

def lbiDelete (lbi : LBI) (i : IId) : LBI :=
  lbi.filter (fun p => p.1 != i)

/-- `LargeBlockInfo::getInstructionIndex`.  The entry `assert` requires an
interesting instruction; a miss scans the instruction's whole block and
caches a fresh numbering of all its interesting instructions. -/
def getInstructionIndex (F : Func) (lbi : LBI) (i : IId) : Option (Nat × LBI) := do
  let ins ← F.findInstr i
  if !isInterestingInstruction F ins then none
  else
    match lbi.lookup i with
    | some n => some (n, lbi)
    | none => do
      let b ← F.parentOf i
      let lbi' := lbiScanBlock F b ++ lbi
      let n ← lbi'.lookup i
      some (n, lbi')

/-- The shared tail of `rewriteSingleStoreAlloca`'s load loop: re-read the
store's current value operand, substitute poison if it is the load itself
(unreachable code), replace all uses of the load and erase it. -/
def rssaRewrite (osId uid : IId) (lty : Ty) (F : Func) (lbi : LBI) :
    Option (Func × LBI) := do
  let sv ← match F.findInstr osId with
    | some (.store sv _) => some sv
    | _ => none
  let repl := if sv == Val.vreg uid then Val.vpoison lty else sv
  some ((F.rauw (Val.vreg uid) repl).eraseInstr uid, lbiDelete lbi uid)

/-- The user loop of `rewriteSingleStoreAlloca`, iterating over a snapshot of
the alloca's users (`make_early_inc_range`; the loop erases only the user
being visited, so the snapshot matches the live iteration).  The running
`Option Nat` is the lazily initialised `int StoreIndex = -1`. -/
def rssaLoop (domB : BId → BId → Bool) (osId : IId) (storingGlobalVal : Bool)
    (storeBB : BId) :
    List (IId × BId × Instr) → Func → AllocaInfo → LBI → Option Nat →
    Option (Func × AllocaInfo × LBI × Option Nat)
  | [], F, info, lbi, si => some (F, info, lbi, si)
  | u :: rest, F, info, lbi, si =>
    if u.1 == osId then rssaLoop domB osId storingGlobalVal storeBB rest F info lbi si
    else do
      let lty ← match F.findInstr u.1 with
        | some (.load lty _) => some lty
        | _ => none
      if storingGlobalVal then do
        let (F', lbi') ← rssaRewrite osId u.1 lty F lbi
        rssaLoop domB osId storingGlobalVal storeBB rest F' info lbi' si
      else do
        let lbPar ← F.parentOf u.1
        if lbPar == storeBB then do
          let (siVal, lbi1) ←
            match si with
            | some n => some (n, lbi)
            | none => getInstructionIndex F lbi osId
          let (li, lbi2) ← getInstructionIndex F lbi1 u.1
          if siVal > li then
            rssaLoop domB osId storingGlobalVal storeBB rest F
              { info with UsingBlocks := info.UsingBlocks ++ [storeBB] } lbi2 (some siVal)
          else do
            let (F', lbi') ← rssaRewrite osId u.1 lty F lbi2
            rssaLoop domB osId storingGlobalVal storeBB rest F' info lbi' (some siVal)
        else if !(domB storeBB lbPar) then
          rssaLoop domB osId storingGlobalVal storeBB rest F
            { info with UsingBlocks := info.UsingBlocks ++ [lbPar] } lbi si
        else do
          let (F', lbi') ← rssaRewrite osId u.1 lty F lbi
          rssaLoop domB osId storingGlobalVal storeBB rest F' info lbi' si

/-- `rewriteSingleStoreAlloca`: with a single store, replace every load
dominated by it with the stored value.  Returns `true` (with the store and
the alloca erased) iff no load had to be skipped. -/
def rewriteSingleStoreAlloca (domB : BId → BId → Bool) (F : Func) (aid : IId)
    (info : AllocaInfo) (lbi : LBI) : Option (Func × AllocaInfo × LBI × Bool) := do
  let osId ← info.OnlyStore
  let sv0 ← match F.findInstr osId with
    | some (.store sv _) => some sv
    | _ => none
  let storingGlobalVal := match sv0 with
    | .vreg _ => false
    | _ => true
  let storeBB ← F.parentOf osId
  let info1 := { info with UsingBlocks := [] }
  let (F1, info2, lbi1, _) ← rssaLoop domB osId storingGlobalVal storeBB
      (F.usersOf (Val.vreg aid)) F info1 lbi none
  if !info2.UsingBlocks.isEmpty then
    some (F1, info2, lbi1, false)
  else
    some (((F1.eraseInstr osId).eraseInstr aid), info2, lbiDelete lbi1 osId, true)

/-- Sorted insertion for `(index, store)` pairs, ordering by index
(`llvm::sort(..., less_first())`; indices within one block are distinct). -/
def insertByIdx (p : Nat × IId) : List (Nat × IId) → List (Nat × IId)
  | [] => [p]
  | q :: rest => if p.1 < q.1 then p :: q :: rest else q :: insertByIdx p rest

def sortByIdx : List (Nat × IId) → List (Nat × IId)
  | [] => []
  | p :: rest => insertByIdx p (sortByIdx rest)

/-- First phase of `promoteSingleBlockAlloca`: collect `(index, store)` pairs
for every store user. -/
def psbaCollectStores (F : Func) :
    List (IId × BId × Instr) → LBI → List (Nat × IId) →
    Option (List (Nat × IId) × LBI)
  | [], lbi, acc => some (acc, lbi)
  | u :: rest, lbi, acc =>
    match u.2.2 with
    | .store _ _ => do
      let (n, lbi') ← getInstructionIndex F lbi u.1
      psbaCollectStores F rest lbi' (acc ++ [(n, u.1)])
    | _ => psbaCollectStores F rest lbi acc

/-- The load loop of `promoteSingleBlockAlloca`.  `stores` is sorted
ascending by index; `lower_bound` for the load's index leaves, before the
returned position, exactly the stores of smaller index.  Result `false`
means the C++ `return false` (a load preceded by no store while stores
exist); mutations already performed are kept. -/
def psbaLoadsLoop (stores : List (Nat × IId)) :
    List (IId × BId × Instr) → Func → LBI → Option (Bool × Func × LBI)
  | [], F, lbi => some (true, F, lbi)
  | u :: rest, F, lbi =>
    match u.2.2 with
    | .load _ _ => do
      let lty ← match F.findInstr u.1 with
        | some (.load lty _) => some lty
        | _ => none
      let (li, lbi1) ← getInstructionIndex F lbi u.1
      let before := stores.filter (fun p => p.1 < li)
      if before.isEmpty then
        if stores.isEmpty then do
          let repl0 := Val.vundef lty
          let repl := if repl0 == Val.vreg u.1 then Val.vpoison lty else repl0
          let F' := (F.rauw (Val.vreg u.1) repl).eraseInstr u.1
          psbaLoadsLoop stores rest F' (lbiDelete lbi1 u.1)
        else
          some (false, F, lbi1)
      else do
        let pr ← before.getLast?
        let sv ← match F.findInstr pr.2 with
          | some (.store sv _) => some sv
          | _ => none
        let repl := if sv == Val.vreg u.1 then Val.vpoison lty else sv
        let F' := (F.rauw (Val.vreg u.1) repl).eraseInstr u.1
        psbaLoadsLoop stores rest F' (lbiDelete lbi1 u.1)
    | _ => psbaLoadsLoop stores rest F lbi

/-- The `while (!AI->use_empty())` loop erasing the remaining (store) users;
a remaining non-store user fails the C++ `cast<StoreInst>`. -/
def eraseStoreUsers : Nat → Func → LBI → IId → Option (Func × LBI)
  | 0, F, lbi, aid =>
    if (F.usersOf (Val.vreg aid)).isEmpty then some (F, lbi) else none
  | fuel + 1, F, lbi, aid =>
    match (F.usersOf (Val.vreg aid)).getLast? with
    | none => some (F, lbi)
    | some u =>
      match u.2.2 with
      | .store _ _ => eraseStoreUsers fuel (F.eraseInstr u.1) (lbiDelete lbi u.1) aid
      | _ => none

/-- `promoteSingleBlockAlloca`: replace each load with the value of the
nearest store above it.  (The C++ signature also receives `Info` and `DT`,
which its body does not use.) -/
def promoteSingleBlockAlloca (F : Func) (aid : IId) (lbi : LBI) :
    Option (Func × LBI × Bool) := do
  let us := F.usersOf (Val.vreg aid)
  let (stores0, lbi1) ← psbaCollectStores F us lbi []
  let stores := sortByIdx stores0
  let (ok, F1, lbi2) ← psbaLoadsLoop stores us F lbi1
  if !ok then
    some (F1, lbi2, false)
  else do
    let (F2, lbi3) ← eraseStoreUsers (F1.usersOf (Val.vreg aid)).length F1 lbi2 aid
    some (F2.eraseInstr aid, lbi3, true)

/-- `valueDominatesPHI`.  The pass always supplies a dominator tree (the
`SimplifyQuery` is built with `&DT`), so the precise instruction-level test
runs; non-instructions dominate everything. -/
def valueDominatesPHI (domI : IId → IId → Bool) (v : Val) (pid : IId) : Bool :=
  match v with
  | .vreg i => domI i pid
  | _ => true

/-- The scan of `simplifyPHINode` over the incoming values.  The state is
`(CommonValue, HasUndefInput)`; the result `none` models the early
`return nullptr` on two distinct non-undef incoming values (a "cannot fold"
result, not undefined behaviour). -/
def simplifyPHILoop (pid : IId) :
    List Val → Option Val → Bool → Option (Option Val × Bool)
  | [], cv, hu => some (cv, hu)
  | v :: rest, cv, hu =>
    if v == Val.vreg pid then simplifyPHILoop pid rest cv hu
    else if isUndefValue v then simplifyPHILoop pid rest cv true
    else match cv with
      | some c => if v == c then simplifyPHILoop pid rest cv hu else none
      | none => simplifyPHILoop pid rest (some v) hu

/-- `simplifyPHINode`: `some v` means the phi folds to `v`; `none` means it
is left alone. -/
def simplifyPHINode (domI : IId → IId → Bool) (pid : IId) (ty : Ty)
    (inc : List (Val × BId)) : Option Val :=
  match simplifyPHILoop pid (inc.map (fun vb => vb.1)) none false with
  | none => none
  | some (none, _) => some (Val.vundef ty)
  | some (some c, hu) =>
    if hu then
      if valueDominatesPHI domI c pid then some c else none
    else some c

/-- The block scan inside `ComputeLiveInBlocks` deciding whether the first
access to the alloca in a block that both uses and defines it is a store
(`some true`, not live-in) or a load (`some false`, live-in).  The C++ `for`
has no exit condition; running past the end (impossible for the pass's
inputs) is undefined behaviour, modelled by `none`. -/
def scanFirstAccess (aid : IId) : List (IId × Instr) → Option Bool
  | [] => none
  | (_, ins) :: rest =>
    match ins with
    | .store _ p => if p == Val.vreg aid then some true else scanFirstAccess aid rest
    | .load _ p => if p == Val.vreg aid then some false else scanFirstAccess aid rest
    | _ => scanFirstAccess aid rest

/-- `wl[i] = wl.back(); wl.pop_back()`. -/
def swapRemoveAt (l : List Nat) (i : Nat) : List Nat :=
  (l.set i ((l.getLast?).getD 0)).dropLast

/-- The first loop of `ComputeLiveInBlocks`: drop worklist blocks whose
first access is a store (with the C++ swap-remove-and-revisit index
juggling). -/
def liveInFilter (F : Func) (aid : IId) (defBlocks : List BId) :
    Nat → Nat → List BId → Option (List BId)
  | 0, i, wl => if wl.length ≤ i then some wl else none
  | fuel + 1, i, wl =>
    match wl.get? i with
    | none => some wl
    | some b =>
      if !(defBlocks.contains b) then liveInFilter F aid defBlocks fuel (i + 1) wl
      else match scanFirstAccess aid (F.blockInsts b) with
        | none => none
        | some true => liveInFilter F aid defBlocks fuel i (swapRemoveAt wl i)
        | some false => liveInFilter F aid defBlocks fuel (i + 1) wl

/-- The flooding loop of `ComputeLiveInBlocks`: insert each popped block and
enqueue its non-defining predecessors.  The worklist's head is the stack top
(`pop_back_val`), so freshly pushed predecessors are prepended reversed. -/
def liveInFlood (defBlocks : List BId) (preds : BId → List BId) :
    Nat → List BId → List BId → Option (List BId)
  | 0, wl, live => if wl.isEmpty then some live else none
  | fuel + 1, wl, live =>
    match wl with
    | [] => some live
    | b :: rest =>
      if live.contains b then liveInFlood defBlocks preds fuel rest live
      else
        liveInFlood defBlocks preds fuel
          (((preds b).filter (fun p => !(defBlocks.contains p))).reverse ++ rest)
          (live ++ [b])

/-- `PromoteMem2Reg::ComputeLiveInBlocks`. -/
def ComputeLiveInBlocks (F : Func) (aid : IId) (info : AllocaInfo)
    (defBlocks : List BId) (fuel : Nat) : Option (List BId) := do
  let wl1 ← liveInFilter F aid defBlocks fuel 0 info.UsingBlocks
  liveInFlood defBlocks (fun b => F.predsOf b) fuel wl1.reverse []

/-- The stable block numbering (`BBNumbers`): index by layout order. -/
def computeBBNumbers (F : Func) : List (BId × Nat) :=
  F.blocks.enum.map (fun p => (p.2.bid, p.1))

def bbNumOf (nums : List (BId × Nat)) (b : BId) : Nat :=
  (nums.lookup b).getD 0

/-- Sorted insertion of blocks by their stable number (`CompareBBNumbers`).
All sort call sites order lists whose equal-number elements are equal blocks,
so any correct sort yields the same list. -/
def insertByNum (nums : List (BId × Nat)) (b : BId) : List BId → List BId
  | [] => [b]
  | c :: rest =>
    if bbNumOf nums b < bbNumOf nums c then b :: c :: rest
    else c :: insertByNum nums b rest

def sortByNum (nums : List (BId × Nat)) : List BId → List BId
  | [] => []
  | b :: rest => insertByNum nums b (sortByNum nums rest)

/-- The mutable members of `PromoteMem2Reg`.  `NewPhiNodes` is kept in
insertion order (the C++ `DenseMap` iteration order is unspecified but fixed
within a run; the code relies only on it being deterministic). -/
structure St where
  F : Func
  Allocas : List IId
  AllocaLookup : List (IId × Nat)
  NewPhiNodes : List ((Nat × Nat) × IId)
  PhiToAllocaMap : List (IId × Nat)
  Visited : List BId
  BBNumbers : List (BId × Nat)
  deriving DecidableEq, Repr

/-- `PHINode::Create` + `insertBefore(BB->begin())`: a fresh phi with no
incoming values yet, placed at the head of the block. -/
def insertPhiAtHead (F : Func) (b : BId) (pid : IId) (ty : Ty) : Func :=
  { blocks := F.blocks.map (fun blk =>
      if blk.bid == b then { blk with insts := (pid, Instr.phi ty []) :: blk.insts }
      else blk),
    nextId := F.nextId + 1 }

/-- `PromoteMem2Reg::QueuePhiNode`.  The phi's textual name (the per-cell
`Version` counter) is not part of the model. -/
def QueuePhiNode (s : St) (b : BId) (allocaNo : Nat) : Option (St × Bool) := do
  let key := (bbNumOf s.BBNumbers b, allocaNo)
  match s.NewPhiNodes.lookup key with
  | some _ => some (s, false)
  | none => do
    let aid ← s.Allocas.get? allocaNo
    let ty ← s.F.allocatedTy aid
    let pid := s.F.nextId
    some ({ s with
            F := insertPhiAtHead s.F b pid ty
            NewPhiNodes := s.NewPhiNodes ++ [(key, pid)]
            PhiToAllocaMap := s.PhiToAllocaMap ++ [(pid, allocaNo)] }, true)

def dedupKeepFirstGo : List Nat → List Nat → List Nat
  | _, [] => []
  | seen, b :: rest =>
    if seen.contains b then dedupKeepFirstGo seen rest
    else b :: dedupKeepFirstGo (b :: seen) rest

def dedupKeepFirst (l : List Nat) : List Nat := dedupKeepFirstGo [] l

/-- Outcome of one iteration of the per-alloca loop in
`PromoteMem2Reg::run`: the alloca was fully handled and swap-removed from
the list (`removed`, the loop index stays), or it is left for the general
SSA construction (`kept`, the loop index advances). -/
inductive StepRes where
  | removed : St → LBI → StepRes
  | kept : St → LBI → StepRes

/-- One iteration of the per-alloca loop of `PromoteMem2Reg::run` (lines
459–533): the `isAllocaPromotable` assert, the no-user fast exit, the two
fast paths, then live-in analysis, IDF-based phi placement and registration. -/
def processAllocaStep (domB : BId → BId → Bool)
    (idf : List BId → List BId → List BId) (fuel : Nat)
    (s : St) (lbi : LBI) (i : Nat) : Option StepRes := do
  let aid ← s.Allocas.get? i
  if !(isAllocaPromotable s.F aid) then none
  else if (s.F.usersOf (Val.vreg aid)).isEmpty then
    some (.removed { s with
                     F := s.F.eraseInstr aid
                     Allocas := swapRemoveAt s.Allocas i } lbi)
  else do
    let info ← AnalyzeAlloca s.F aid
    let (F1, info1, lbi1, ssDone) ←
      if info.DefiningBlocks.length == 1 then
        rewriteSingleStoreAlloca domB s.F aid info lbi
      else
        some (s.F, info, lbi, false)
    if ssDone then
      some (.removed { s with F := F1, Allocas := swapRemoveAt s.Allocas i } lbi1)
    else do
      let (F2, lbi2, sbDone) ←
        if info1.OnlyUsedInOneBlock then
          promoteSingleBlockAlloca F1 aid lbi1
        else
          some (F1, lbi1, false)
      if sbDone then
        some (.removed { s with F := F2, Allocas := swapRemoveAt s.Allocas i } lbi2)
      else do
        let nums := if s.BBNumbers.isEmpty then computeBBNumbers F2 else s.BBNumbers
        let s1 := { s with
                    F := F2
                    BBNumbers := nums
                    AllocaLookup := s.AllocaLookup ++ [(aid, i)] }
        let defBlocks := dedupKeepFirst info1.DefiningBlocks
        let live ← ComputeLiveInBlocks F2 aid info1 defBlocks fuel
        let phiBlocks := sortByNum nums (idf defBlocks live)
        let s2 ← phiBlocks.foldlM (fun st b => (QueuePhiNode st b i).map (fun r => r.1)) s1
        some (.kept s2 lbi2)

/-- The per-alloca loop of `PromoteMem2Reg::run`. -/
def processAllocas (domB : BId → BId → Bool)
    (idf : List BId → List BId → List BId) :
    Nat → St → LBI → Nat → Option (St × LBI)
  | fuel, s, lbi, i =>
    if s.Allocas.length ≤ i then some (s, lbi)
    else match fuel with
      | 0 => none
      | fuel + 1 => do
        match ← processAllocaStep domB idf fuel s lbi i with
        | .removed s' lbi' => processAllocas domB idf fuel s' lbi' i
        | .kept s' lbi' => processAllocas domB idf fuel s' lbi' (i + 1)

/-- A `RenamePassData` worklist entry: block to visit, predecessor the edge
comes from (`none` only for the initial entry-block visit), and the per-cell
incoming values. -/
structure RPD where
  bb : BId
  pred : Option BId
  vals : List Val
  deriving DecidableEq, Repr

/-- The do-while loop updating the phis inserted in `bb` (RenamePass lines
793–813), walking the block head while each phi's operand count equals the
shared pre-visit count `n0`.  `PhiToAllocaMap` is read with the C++
`operator[]` default of `0` for an absent key. -/
def phiUpdateLoop (ptam : List (IId × Nat)) (numEdges : Nat) (predBB : BId) :
    List (IId × Instr) → Func → List Val → Nat → Func × List Val
  | [], F, vals, _ => (F, vals)
  | (pid, ins) :: rest, F, vals, n0 =>
    match ins with
    | .phi ty inc =>
      if inc.length == n0 then
        let aNo := (ptam.lookup pid).getD 0
        let v := vals.getD aNo (Val.vundef ty)
        let F' := F.setInstr pid (Instr.phi ty (inc ++ List.replicate numEdges (v, predBB)))
        phiUpdateLoop ptam numEdges predBB rest F' (vals.set aNo (Val.vreg pid)) n0
      else (F, vals)
    | _ => (F, vals)

/-- Step 1 of a `RenamePass` visit: if the block head is a phi this pass
inserted, append `NumEdges` incoming entries to every phi in the
equal-operand-count run.  A registered head phi reached with no predecessor
(only possible for the entry block) would evaluate `successors(nullptr)` in
the C++ — undefined behaviour, modelled by `none` — and the `assert(NumEdges)`
is modelled the same way. -/
def renamePhiUpdate (F : Func) (ptam : List (IId × Nat)) (bb : BId)
    (pred : Option BId) (vals : List Val) : Option (Func × List Val) :=
  match F.blockInsts bb with
  | (pid, .phi _ inc) :: _ =>
    if (ptam.lookup pid).isSome then
      match pred with
      | some p =>
        let ne := (F.succsOf p).count bb
        if ne == 0 then none
        else some (phiUpdateLoop ptam ne p (F.blockInsts bb) F vals inc.length)
      | none => none
    else some (F, vals)
  | _ => some (F, vals)

/-- Step 3 of a `RenamePass` visit: walk the block's instructions up to the
terminator, replacing loads from promoted allocas with the current value and
recording stored values, erasing both.  The id list is the snapshot at loop
entry; the loop erases only the instruction being visited, and each
instruction's current form is re-read from `F`. -/
def bodyLoop (alkp : List (IId × Nat)) : List IId → Func → List Val → Func × List Val
  | [], F, vals => (F, vals)
  | iid :: rest, F, vals =>
    match F.findInstr iid with
    | none => bodyLoop alkp rest F vals
    | some ins =>
      if ins.isTerm then (F, vals)
      else
        match ins with
        | .load _ (.vreg src) =>
          if F.isAllocaId src then
            match alkp.lookup src with
            | some idx =>
              let v := vals.getD idx (Val.vundef Ty.ptr)
              bodyLoop alkp rest ((F.rauw (Val.vreg iid) v).eraseInstr iid) vals
            | none => bodyLoop alkp rest F vals
          else bodyLoop alkp rest F vals
        | .store sv (.vreg dst) =>
          if F.isAllocaId dst then
            match alkp.lookup dst with
            | some idx =>
              bodyLoop alkp rest (F.eraseInstr iid) (vals.set idx sv)
            | none => bodyLoop alkp rest F vals
          else bodyLoop alkp rest F vals
        | _ => bodyLoop alkp rest F vals

/-- One arrival of `RenamePass` at a block along one CFG edge.  The C++
handles the first successor by `goto NextIteration` and pushes the others;
on a LIFO worklist whose top is the list head this equals returning
`[first] ++ reverse others` to be prepended. -/
def renameStep (s : St) (r : RPD) : Option (St × List RPD) := do
  let (F1, vals1) ← renamePhiUpdate s.F s.PhiToAllocaMap r.bb r.pred r.vals
  if s.Visited.contains r.bb then
    some ({ s with F := F1 }, [])
  else
    let s1 := { s with F := F1, Visited := r.bb :: s.Visited }
    let ids := (F1.blockInsts r.bb).map (fun p => p.1)
    let (F2, vals2) := bodyLoop s1.AllocaLookup ids F1 vals1
    let s2 := { s1 with F := F2 }
    match dedupKeepFirst (F2.succsOf r.bb) with
    | [] => some (s2, [])
    | s1b :: others =>
      some (s2, RPD.mk s1b (some r.bb) vals2 ::
        (others.map (fun so => RPD.mk so (some r.bb) vals2)).reverse)

/-- The worklist loop driving `RenamePass` (lines 549–556). -/
def renameLoop : Nat → St → List RPD → Option St
  | _, s, [] => some s
  | 0, _, _ :: _ => none
  | fuel + 1, s, r :: rest => do
    let (s', es) ← renameStep s r
    renameLoop fuel s' (es ++ rest)

/-- Lines 561–569 of `PromoteMem2Reg::run`: replace any users left in
unreachable code with poison (of the alloca's pointer type) and erase each
promoted alloca. -/
def eraseAllocasLoop : List IId → Func → Func
  | [], F => F
  | a :: rest, F =>
    let F1 := if (F.usersOf (Val.vreg a)).isEmpty then F
              else F.rauw (Val.vreg a) (Val.vpoison Ty.ptr)
    eraseAllocasLoop rest (F1.eraseInstr a)

/-- One sweep of the trivial-phi elimination loop over the registered phis
(lines 583–598): simplified phis are replaced, erased, and dropped from the
registry; `kept` accumulates the surviving entries in order. -/
def simplifySweep (domI : IId → IId → Bool) :
    List ((Nat × Nat) × IId) → Func → List ((Nat × Nat) × IId) → Bool →
    Option (Func × List ((Nat × Nat) × IId) × Bool)
  | [], F, kept, elim => some (F, kept, elim)
  | (key, pid) :: rest, F, kept, elim => do
    let (ty, inc) ← match F.findInstr pid with
      | some (.phi ty inc) => some (ty, inc)
      | _ => none
    match simplifyPHINode domI pid ty inc with
    | some v =>
      simplifySweep domI rest ((F.rauw (Val.vreg pid) v).eraseInstr pid) kept true
    | none => simplifySweep domI rest F (kept ++ [(key, pid)]) elim

/-- The `while (EliminatedAPHI)` fixpoint (lines 575–599). -/
def simplifyLoop (domI : IId → IId → Bool) :
    Nat → Func → List ((Nat × Nat) × IId) → Option (Func × List ((Nat × Nat) × IId))
  | 0, _, _ => none
  | fuel + 1, F, entries => do
    let (F', entries', elim) ← simplifySweep domI entries F [] false
    if elim then simplifyLoop domI fuel F' entries' else some (F', entries')

/-- Remove one occurrence of `b` from a sorted predecessor list (the C++
`lower_bound` + `erase`; the `assert` that the entry exists is `none`). -/
def removeOneSorted (b : BId) : List BId → Option (List BId)
  | [] => none
  | c :: rest =>
    if c == b then some rest
    else (removeOneSorted b rest).map (fun r => c :: r)

def removeAllIncoming : List BId → List BId → Option (List BId)
  | preds, [] => some preds
  | preds, b :: rest => do
    let preds' ← removeOneSorted b preds
    removeAllIncoming preds' rest

/-- Lines 652–659: append `(poison, pred)` for every missing predecessor to
each phi in the block-head run whose incoming count equals `nbad`. -/
def fillPhiRun (missing : List BId) (nbad : Nat) :
    List (IId × Instr) → Func → Func
  | [], F => F
  | (pid, ins) :: rest, F =>
    match ins with
    | .phi ty inc =>
      if inc.length == nbad then
        fillPhiRun missing nbad rest
          (F.setInstr pid (Instr.phi ty (inc ++ missing.map (fun p => (Val.vpoison ty, p)))))
      else F
    | _ => F

/-- Processing of one registry entry by the poison-fill loop (lines
606–660): act only when the phi is its block's first instruction and is
missing incoming values. -/
def poisonFillEntry (nums : List (BId × Nat)) (F : Func) (pid : IId) : Option Func := do
  let (_ty, inc) ← match F.findInstr pid with
    | some (.phi ty inc) => some (ty, inc)
    | _ => none
  let bb ← F.parentOf pid
  match F.blockInsts bb with
  | (firstId, _) :: _ =>
    if firstId != pid then some F
    else if inc.length == F.numPreds bb then some F
    else do
      let preds := sortByNum nums (F.predsOf bb)
      let missing ← removeAllIncoming preds (inc.map (fun vb => vb.2))
      some (fillPhiRun missing inc.length (F.blockInsts bb) F)
  | [] => some F

def poisonFillLoop (nums : List (BId × Nat)) :
    List ((Nat × Nat) × IId) → Func → Option Func
  | [], F => some F
  | (_, pid) :: rest, F => do
    let F' ← poisonFillEntry nums F pid
    poisonFillLoop nums rest F'

/-- `PromoteMem2Reg::run`: the per-alloca loop, the renaming walk from the
entry block, erasure of the promoted allocas, trivial-phi elimination, and
the poison fill for unreachable predecessors. -/
def runPass (domB : BId → BId → Bool) (domI : IId → IId → Bool)
    (idf : List BId → List BId → List BId) (fuel : Nat)
    (F0 : Func) (allocaList : List IId) : Option St := do
  let s0 : St := ⟨F0, allocaList, [], [], [], [], []⟩
  let (s1, _lbi) ← processAllocas domB idf fuel s0 [] 0
  if s1.Allocas.isEmpty then
    some s1
  else do
    let vals ← s1.Allocas.mapM (fun a => (s1.F.allocatedTy a).map (fun ty => Val.vundef ty))
    let entryB ← (s1.F.blocks.head?).map (fun b => b.bid)
    let s2 ← renameLoop fuel s1 [⟨entryB, none, vals⟩]
    let s3 := { s2 with Visited := [] }
    let F4 := eraseAllocasLoop s3.Allocas s3.F
    let (F5, entries5) ← simplifyLoop domI fuel F4 s3.NewPhiNodes
    let F6 ← poisonFillLoop s3.BBNumbers entries5 F5
    some { s3 with F := F6, NewPhiNodes := [] }

/-- `PromoteMemToReg`: bail out on an empty list, else run the promoter. -/
def PromoteMemToReg (domB : BId → BId → Bool) (domI : IId → IId → Bool)
    (idf : List BId → List BId → List BId) (fuel : Nat)
    (F : Func) (allocas : List IId) : Option Func :=
  if allocas.isEmpty then some F
  else (runPass domB domI idf fuel F allocas).map (fun s => s.F)

/-- The entry-block scan of `promoteMemoryToRegister` (lines 900–903): all
promotable allocas among the entry block's instructions, the last excluded
(`E = --BB.end()`). -/
def promotableEntryAllocas (F : Func) : List IId :=
  match F.blocks.head? with
  | none => []
  | some b =>
    ((b.insts.dropLast).filter (fun p =>
      match p.2 with
      | .alloca _ => isAllocaPromotable F p.1
      | _ => false)).map (fun p => p.1)

/-- `promoteMemoryToRegister`: promote entry-block allocas until a scan
finds none. -/
def promoteMemoryToRegister (domB : BId → BId → Bool) (domI : IId → IId → Bool)
    (idf : List BId → List BId → List BId) :
    Nat → Func → Option (Func × Bool)
  | fuel, F =>
    let as := promotableEntryAllocas F
    if as.isEmpty then some (F, false)
    else match fuel with
      | 0 => none
      | fuel + 1 => do
        let F' ← PromoteMemToReg domB domI idf (fuel + 1) F as
        let r ← promoteMemoryToRegister domB domI idf fuel F'
        some (r.1, true)

/-- The incoming values of a phi with the self-references dropped (the
operands `simplifyPHINode` ignores). -/
def phiNonSelf (pid : IId) (inc : List (Val × BId)) : List Val :=
  (inc.map (fun vb => vb.1)).filter (fun v => v != Val.vreg pid)

/-- The non-self, non-undef incoming values of a phi. -/
def phiNonUndef (pid : IId) (inc : List (Val × BId)) : List Val :=
  (phiNonSelf pid inc).filter (fun v => !isUndefValue v)

/-- Substitute the result of any of the listed instructions by `new`. -/
def multiSubst (ids : List IId) (new : Val) (v : Val) : Val :=
  match v with
  | Val.vreg a => if ids.contains a then new else v
  | _ => v

/-- Normal form of the mutations the fast paths perform: erase the
instructions listed in `D` and map every remaining operand by `σ`. -/
def normForm (F : Func) (D : List IId) (σ : Val → Val) : Func :=
  Func.mk
    (F.blocks.map (fun b =>
      Block.mk b.bid
        ((b.insts.filter (fun p => !(D.contains p.1))).map
          (fun p => (p.1, p.2.mapOps σ)))))
    F.nextId

/-- The decision `rewriteSingleStoreAlloca` takes for a load user `u`:
`true` means the load is skipped (the store does not dominate it).  A
non-instruction stored value dominates everything; a load in the store's
block is decided by the intra-block index; otherwise block dominance
decides.  The index lookups always succeed when the procedure completes. -/
def rssaSkip (domB : BId → BId → Bool) (F : Func) (sv : Val) (osId : IId)
    (storeBB : BId) (u : IId × BId × Instr) : Bool :=
  match sv with
  | Val.vreg _ =>
    if u.2.1 == storeBB then
      match (lbiScanBlock F storeBB).lookup osId, (lbiScanBlock F storeBB).lookup u.1 with
      | some si, some li => decide (li < si)
      | _, _ => true
    else !(domB storeBB u.2.1)
  | _ => false

/-- The ids of the loads the single-store rewrite eliminates. -/
def rssaRewrittenIds (domB : BId → BId → Bool) (F : Func) (sv : Val)
    (osId : IId) (storeBB : BId) (us : List (IId × BId × Instr)) : List IId :=
  (us.filter (fun u => u.1 != osId && !(rssaSkip domB F sv osId storeBB u))).map
    (fun u => u.1)

/-- The blocks of the loads the single-store rewrite skips, in user order
(the reconstructed `UsingBlocks`). -/
def rssaSkippedBlocks (domB : BId → BId → Bool) (F : Func) (sv : Val)
    (osId : IId) (storeBB : BId) (us : List (IId × BId × Instr)) : List BId :=
  (us.filter (fun u => u.1 != osId && rssaSkip domB F sv osId storeBB u)).map
    (fun u => u.2.1)

/-- State invariant of `rewriteSingleStoreAlloca`'s user loop relating the
`LargeBlockInfo` cache and the lazily initialised store index to the
original function: either the store's block has not been scanned yet (and
then no load of that block has been processed), or both index variables
reflect the one scan of the store's block. -/
def rssaInv (domB : BId → BId → Bool) (F : Func) (sv : Val) (osId : IId)
    (storeBB : BId) (done : List (IId × BId × Instr)) (lbi : LBI)
    (si : Option Nat) : Prop :=
  match sv with
  | Val.vreg _ =>
    (si = none ∧ lbi = [] ∧ ∀ u ∈ done, u.1 ≠ osId → u.2.1 ≠ storeBB) ∨
    (∃ s0, si = some s0 ∧ (lbiScanBlock F storeBB).lookup osId = some s0 ∧
      ∀ id, (rssaRewrittenIds domB F sv osId storeBB done).contains id = false →
        lbi.lookup id = (lbiScanBlock F storeBB).lookup id)
  | _ => si = none ∧ lbi = []

/-! Concrete programs used to instantiate the theorems. -/

def exTy : Ty := Ty.base 32

/-- Scenario S1: one block, a single store of a constant, one load. -/
def exS1 : Func :=
  ⟨[⟨0, [(1, .alloca exTy), (2, .store (.vconst 42 exTy) (.vreg 1)),
     (3, .load exTy (.vreg 1)), (4, .term [.vreg 3] [])]⟩], 10⟩

/-- The image of `exS1` under the pass: the cell, store and load are gone
and the return operand is the constant. -/
def exS1res : Func := ⟨[⟨0, [(4, .term [.vconst 42 exTy] [])]⟩], 10⟩

/-- A dead cell next to a live one: the alloca numbered 5 has no users. -/
def exDead : Func :=
  ⟨[⟨0, [(5, .alloca exTy), (1, .alloca exTy),
     (2, .store (.vconst 7 exTy) (.vreg 1)),
     (3, .load exTy (.vreg 1)), (4, .term [.vreg 3] [])]⟩], 10⟩

/-- Single store of an instruction value (`%8`): the store in block 0
dominates the load in block 1 but not the load in block 2. -/
def exSS : Func :=
  ⟨[⟨0, [(8, .other exTy []), (1, .alloca exTy),
     (2, .store (.vreg 8) (.vreg 1)), (3, .term [] [1, 2])]⟩,
    ⟨1, [(4, .load exTy (.vreg 1)), (5, .term [.vreg 4] [])]⟩,
    ⟨2, [(6, .load exTy (.vreg 1)), (7, .term [.vreg 6] [])]⟩], 10⟩

/-- Block dominance for `exSS`: block 0 strictly dominates block 1 only. -/
def exSSdom : BId → BId → Bool := fun a b => a == 0 && b == 1

/-- The analyzer summary for the cell `%1` of `exSS`. -/
def infoSS : AllocaInfo := ⟨[0], [1, 2], some 2, some 0, false⟩

/-- A store whose stored value is the very load that follows it (possible in
unreachable code): the rewrite substitutes poison for the load. -/
def exPoison : Func :=
  ⟨[⟨0, [(1, .alloca exTy), (2, .store (.vreg 3) (.vreg 1)),
     (3, .load exTy (.vreg 1)), (4, .term [.vreg 3] [])]⟩], 10⟩

/-- The image of `exPoison` under the single-store rewrite. -/
def exPoisonRes : Func := ⟨[⟨0, [(4, .term [.vpoison exTy] [])]⟩], 10⟩

/-- The analyzer summary for the cell `%1` of `exPoison`. -/
def infoP : AllocaInfo := ⟨[0], [0], some 2, some 0, true⟩

/-- A single block with a load of a cell that has no store at all. -/
def exSB0 : Func :=
  ⟨[⟨0, [(1, .alloca exTy), (2, .load exTy (.vreg 1)),
     (3, .term [.vreg 2] [])]⟩], 10⟩

/-- A single block with two stores and two loads, each load preceded by a
store. -/
def exSB : Func :=
  ⟨[⟨0, [(1, .alloca exTy), (2, .store (.vconst 5 exTy) (.vreg 1)),
     (3, .load exTy (.vreg 1)), (4, .store (.vconst 6 exTy) (.vreg 1)),
     (5, .load exTy (.vreg 1)),
     (6, .term [.vreg 3, .vreg 5] [])]⟩], 10⟩

/-- `exSB` after the load loop and the store-erasing loop: only the cell and
the terminator remain, the loads folded to the stored constants. -/
def exSB2 : Func :=
  ⟨[⟨0, [(1, .alloca exTy),
     (6, .term [.vconst 5 exTy, .vconst 6 exTy] [])]⟩], 10⟩

/-- A single block where a load precedes the only store: the single-block
rewrite aborts. -/
def exAb : Func :=
  ⟨[⟨0, [(1, .alloca exTy), (2, .load exTy (.vreg 1)),
     (3, .store (.vconst 5 exTy) (.vreg 1)), (4, .term [.vreg 2] [])]⟩], 10⟩

/-- The successor slots an instruction contributes to the CFG (only a
terminator has any). -/
def Instr.succList : Instr → List BId
  | .term _ ss => ss
  | _ => []

/-- The CFG edge list: one `(source, target)` pair per terminator successor
slot, in layout order. -/
def Func.edges (F : Func) : List (BId × BId) :=
  (F.instrs.map (fun t => t.2.2.succList.map (fun s => (t.2.1, s)))).flatten

def Func.bids (F : Func) : List BId := F.blocks.map (fun b => b.bid)

/-- Well-formed numbering: distinct instruction ids below the id counter,
and distinct block labels. -/
def wfF (F : Func) : Prop :=
  F.ids.Nodup ∧ (∀ i ∈ F.ids, i < F.nextId) ∧ F.bids.Nodup

/-- `G` has the same control-flow graph as `F`: same block label list and
same edge list. -/
def sameCFG (F G : Func) : Prop := G.bids = F.bids ∧ G.edges = F.edges

/-- Every instruction numbered `i` contributes no successor slots (it is not
a terminator). -/
def nonTermId (F : Func) (i : IId) : Prop :=
  ∀ t ∈ F.instrs, t.1 = i → t.2.2.succList = []

/-- One mutation step of the pass seen from the CFG: well-formedness and the
CFG are preserved, the id counter does not decrease, and ids free of
successor slots stay that way. -/
def skelStep (F G : Func) : Prop :=
  wfF F → wfF G ∧ sameCFG F G ∧ F.nextId ≤ G.nextId ∧
    ∀ i, nonTermId F i → nonTermId G i

/-- The state carried by either outcome of one per-alloca iteration. -/
def StepRes.st : StepRes → St
  | .removed s _ => s
  | .kept s _ => s


/-- The prefix of a block-head snapshot that the phi-update do-while of
`RenamePass` processes: the leading run of phis whose incoming count equals
the shared pre-visit count `n0`. -/
def phiRun (n0 : Nat) (l : List (IId × Instr)) : List (IId × Instr) :=
  l.takeWhile (fun t => match t.2 with
    | Instr.phi _ inc => inc.length == n0
    | _ => false)

/-- Scenario Sw: block 0 ends in a switch-like terminator with two
successor slots both targeting block 1, whose head is an inserted phi. -/
def exSw : Func :=
  ⟨[⟨0, [(1, .term [] [1, 1])]⟩,
    ⟨1, [(2, .phi exTy []), (3, .term [] [])]⟩], 10⟩

/-- The image of `exSw` under one phi-update arrival from block 0: the phi
lists the incoming entry twice, one per duplicate edge. -/
def exSwRes : Func :=
  ⟨[⟨0, [(1, .term [] [1, 1])]⟩,
    ⟨1, [(2, .phi exTy [(.vconst 7 exTy, 0), (.vconst 7 exTy, 0)]),
         (3, .term [] [])]⟩], 10⟩

/-- Scenario Unr: block 1 is unreachable; the phi in block 2 was reached
only along the edge from block 0, so one incoming entry is missing. -/
def exUnr : Func :=
  ⟨[⟨0, [(1, .term [] [2])]⟩,
    ⟨1, [(2, .term [] [2])]⟩,
    ⟨2, [(3, .phi exTy [(.vconst 1 exTy, 0)]), (4, .term [] [])]⟩], 10⟩

/-- The image of `exUnr` under the poison fill: the missing predecessor 1
is filled in with a poison entry. -/
def exUnrRes : Func :=
  ⟨[⟨0, [(1, .term [] [2])]⟩,
    ⟨1, [(2, .term [] [2])]⟩,
    ⟨2, [(3, .phi exTy [(.vconst 1 exTy, 0), (.vpoison exTy, 1)]),
         (4, .term [] [])]⟩], 10⟩

/-- The promoted cell `a` is gone from `F`: its instruction is erased and no
instruction of the function holds `%a` as an operand (so in particular no
load from and no store to the cell remains). -/
def CellGone (a : IId) (F : Func) : Prop :=
  F.findInstr a = none ∧ F.usersOf (Val.vreg a) = []

/-- Whether a per-alloca iteration fully handled its cell. -/
def StepRes.isRemoved : StepRes → Bool
  | .removed _ _ => true
  | .kept _ _ => false

/-! ## Theorems -/

section FuncKit

theorem map_filter_triples (bid : BId) (i : IId) (l : List (IId × Instr)) :
    (l.filter (fun p => p.1 != i)).map (fun p => (p.1, bid, p.2)) =
      (l.map (fun p => (p.1, bid, p.2))).filter (fun t => t.1 != i) := by
  induction l with
  | nil => rfl
  | cons p rest ih =>
    by_cases hp : (p.1 != i) = true
    · simp [List.filter_cons, hp, ih]
    · simp [List.filter_cons, hp, ih]

/-- `eraseInstr` acts on the instruction list as a filter on ids. -/
theorem instrs_eraseInstr (F : Func) (i : IId) :
    (F.eraseInstr i).instrs = F.instrs.filter (fun t => t.1 != i) := by
  unfold Func.instrs Func.eraseInstr
  simp only [List.map_map]
  induction F.blocks with
  | nil => rfl
  | cons b rest ih =>
    simp only [List.map_cons, List.flatten_cons, List.filter_append, ih]
    rw [Function.comp, map_filter_triples]

/-- `rauw` acts on the instruction list as a map over the instruction
component. -/
theorem instrs_rauw (F : Func) (old new : Val) :
    (F.rauw old new).instrs =
      F.instrs.map (fun t => (t.1, t.2.1, t.2.2.mapOps (substVal old new))) := by
  unfold Func.instrs Func.rauw
  simp only [List.map_map]
  induction F.blocks with
  | nil => rfl
  | cons b rest ih =>
    simp only [List.map_cons, List.flatten_cons, List.map_append, ih]
    congr 1
    simp [Function.comp, List.map_map]

/-- `setInstr` acts on the instruction list pointwise. -/
theorem instrs_setInstr (F : Func) (i : IId) (ins : Instr) :
    (F.setInstr i ins).instrs =
      F.instrs.map (fun t => if t.1 == i then (t.1, t.2.1, ins) else t) := by
  unfold Func.instrs Func.setInstr
  simp only [List.map_map]
  induction F.blocks with
  | nil => rfl
  | cons b rest ih =>
    simp only [List.map_cons, List.flatten_cons, List.map_append, ih]
    congr 1
    simp only [Function.comp, List.map_map]
    apply List.map_congr_left
    intro p _
    by_cases hp : p.1 = i
    · simp [hp]
    · simp [hp]

theorem mem_instrs_eraseInstr {F : Func} {i : IId} {t : IId × BId × Instr}
    (h : t ∈ (F.eraseInstr i).instrs) : t ∈ F.instrs ∧ t.1 ≠ i := by
  rw [instrs_eraseInstr] at h
  have := List.mem_filter.mp h
  exact ⟨this.1, by simpa using this.2⟩

theorem findInstr_eraseInstr_self (F : Func) (i : IId) :
    (F.eraseInstr i).findInstr i = none := by
  unfold Func.findInstr
  rw [Option.map_eq_none', List.find?_eq_none]
  intro t ht
  have := (mem_instrs_eraseInstr ht).2
  simpa using this

theorem mem_instrs_rauw {F : Func} {old new : Val} {t : IId × BId × Instr}
    (h : t ∈ (F.rauw old new).instrs) :
    ∃ ins₀, (t.1, t.2.1, ins₀) ∈ F.instrs ∧ t.2.2 = ins₀.mapOps (substVal old new) := by
  rw [instrs_rauw] at h
  obtain ⟨t₀, ht₀, heq⟩ := List.mem_map.mp h
  refine ⟨t₀.2.2, ?_, ?_⟩
  · rw [← heq]
    exact ht₀
  · rw [← heq]

theorem substVal_ne {old new v : Val} (h : old ≠ new) :
    substVal old new v ≠ old := by
  unfold substVal
  by_cases hv : v = old
  · simp only [hv, if_pos rfl]
    exact fun hne => h hne.symm
  · simp only [if_neg hv]
    exact hv

theorem mapOps_operands (f : Val → Val) (ins : Instr) :
    (ins.mapOps f).operands = ins.operands.map f := by
  cases ins <;> simp [Instr.mapOps, Instr.operands, List.map_map]

theorem not_operand_mapOps {old new : Val} (h : old ≠ new) (ins : Instr) :
    old ∉ (ins.mapOps (substVal old new)).operands := by
  rw [mapOps_operands]
  intro hmem
  obtain ⟨v, _, hv⟩ := List.mem_map.mp hmem
  exact substVal_ne h hv

/-- After `replaceAllUsesWith old new` (with `new ≠ old`) no instruction
holds `old` as an operand. -/
theorem rauw_clears_operand {F : Func} {old new : Val} (h : old ≠ new)
    {t : IId × BId × Instr} (ht : t ∈ (F.rauw old new).instrs) :
    old ∉ t.2.2.operands := by
  obtain ⟨ins₀, _, heq⟩ := mem_instrs_rauw ht
  rw [heq]
  exact not_operand_mapOps h ins₀

end FuncKit

section NormForm

theorem filter_map_comm {α β : Type} (f : α → β) (p : β → Bool) (l : List α) :
    (l.map f).filter p = (l.filter (fun a => p (f a))).map f := by
  induction l with
  | nil => rfl
  | cons x rest ih =>
    by_cases hx : p (f x) = true
    · simp [List.filter_cons, hx, ih]
    · simp [List.filter_cons, hx, ih]

theorem mapOps_comp (f g : Val → Val) (ins : Instr) :
    (ins.mapOps f).mapOps g = ins.mapOps (fun v => g (f v)) := by
  cases ins <;> simp [Instr.mapOps, List.map_map]

theorem mapOps_id (ins : Instr) : ins.mapOps (fun v => v) = ins := by
  cases ins <;> simp [Instr.mapOps]

theorem multiSubst_nil (new : Val) : multiSubst [] new = fun v => v := by
  funext v
  cases v <;> simp [multiSubst]

theorem multiSubst_congr (D1 D2 : List IId) (new : Val)
    (h : ∀ id, D1.contains id = D2.contains id) :
    multiSubst D1 new = multiSubst D2 new := by
  funext v
  cases v with
  | vreg a => simp only [multiSubst]; rw [h]
  | varg n ty => rfl
  | vconst n ty => rfl
  | vundef ty => rfl
  | vpoison ty => rfl

theorem normForm_congr (F : Func) (D1 D2 : List IId) (σ : Val → Val)
    (h : ∀ id, D1.contains id = D2.contains id) :
    normForm F D1 σ = normForm F D2 σ := by
  unfold normForm
  congr 1
  apply List.map_congr_left
  intro b _
  congr 1
  apply congrArg
  apply List.filter_congr
  intro p _
  rw [h]

theorem normForm_nil (F : Func) : normForm F [] (fun v => v) = F := by
  cases F with
  | mk bs n =>
    simp only [normForm, Func.mk.injEq, and_true]
    conv_rhs => rw [← List.map_id bs]
    apply List.map_congr_left
    intro b _
    cases b with
    | mk bid insts =>
      simp only [id_eq, Block.mk.injEq, true_and]
      have h1 : insts.filter (fun p => !(([] : List IId).contains p.1)) = insts := by
        simp
      rw [h1]
      conv_rhs => rw [← List.map_id insts]
      apply List.map_congr_left
      intro p _
      simp [mapOps_id]

theorem normForm_rauw (F : Func) (D : List IId) (σ : Val → Val) (old new : Val) :
    (normForm F D σ).rauw old new =
      normForm F D (fun v => substVal old new (σ v)) := by
  simp only [normForm, Func.rauw, List.map_map]
  congr 1
  apply List.map_congr_left
  intro b _
  simp only [Function.comp, List.map_map]
  congr 1
  apply List.map_congr_left
  intro p _
  simp [mapOps_comp]

theorem normForm_erase (F : Func) (D : List IId) (σ : Val → Val) (i : IId) :
    (normForm F D σ).eraseInstr i = normForm F (i :: D) σ := by
  simp only [normForm, Func.eraseInstr, List.map_map]
  congr 1
  apply List.map_congr_left
  intro b _
  simp only [Function.comp]
  congr 1
  rw [filter_map_comm, List.filter_filter]
  congr 1
  apply List.filter_congr
  intro p _
  simp only [List.contains_cons, Bool.not_or, Bool.and_comm]
  rfl

theorem instrs_normForm (F : Func) (D : List IId) (σ : Val → Val) :
    (normForm F D σ).instrs =
      (F.instrs.filter (fun t => !(D.contains t.1))).map
        (fun t => (t.1, t.2.1, t.2.2.mapOps σ)) := by
  unfold Func.instrs normForm
  simp only [List.map_map]
  induction F.blocks with
  | nil => rfl
  | cons b rest ih =>
    simp only [List.map_cons, List.flatten_cons, List.filter_append,
      List.map_append, ih]
    congr 1
    simp only [Function.comp]
    rw [filter_map_comm, List.map_map, List.map_map]
    rfl

theorem find_map_filter_instr (D : List IId) (j : IId) (σ : Val → Val)
    (hj : D.contains j = false) (l : List (IId × BId × Instr)) :
    ((l.filter (fun t => !(D.contains t.1))).map
        (fun t => (t.1, t.2.1, t.2.2.mapOps σ))).find? (fun t => t.1 == j) =
      (l.find? (fun t => t.1 == j)).map
        (fun t => (t.1, t.2.1, t.2.2.mapOps σ)) := by
  have hjm : j ∉ D := by simpa using hj
  induction l with
  | nil => rfl
  | cons t rest ih =>
    by_cases htD : t.1 ∈ D
    · have hfd : (!(D.contains t.1)) = false := by simpa using htD
      have hne : (t.1 == j) = false := by
        simp only [beq_eq_false_iff_ne, ne_eq]
        intro he
        rw [he] at htD
        exact hjm htD
      rw [List.filter_cons, hfd]
      simp only [Bool.false_eq_true, if_false]
      rw [List.find?_cons, hne]
      exact ih
    · have hfd : (!(D.contains t.1)) = true := by simpa using htD
      rw [List.filter_cons, hfd]
      simp only [if_true]
      rw [List.map_cons]
      simp only [List.find?_cons]
      cases hbeq : (t.1 == j) with
      | true => simp [hbeq]
      | false => simpa [hbeq] using ih

theorem normForm_findInstr (F : Func) (D : List IId) (σ : Val → Val) (j : IId) :
    (normForm F D σ).findInstr j =
      if D.contains j then none
      else (F.findInstr j).map (fun ins => ins.mapOps σ) := by
  unfold Func.findInstr
  rw [instrs_normForm]
  by_cases hj : D.contains j = true
  · rw [if_pos hj, Option.map_eq_none', List.find?_eq_none]
    intro t ht
    obtain ⟨t₀, ht₀, rfl⟩ := List.mem_map.mp ht
    have hnc := (List.mem_filter.mp ht₀).2
    simp only [Bool.not_eq_true'] at hnc
    intro he
    have heq : t₀.1 = j := by simpa using he
    rw [heq] at hnc
    rw [hnc] at hj
    cases hj
  · simp only [Bool.not_eq_true] at hj
    rw [if_neg (by rw [hj]; exact Bool.false_ne_true)]
    rw [find_map_filter_instr D j σ hj]
    cases F.instrs.find? (fun t => t.1 == j) <;> rfl

theorem normForm_parentOf (F : Func) (D : List IId) (σ : Val → Val) (j : IId)
    (hj : D.contains j = false) :
    (normForm F D σ).parentOf j = F.parentOf j := by
  unfold Func.parentOf
  rw [instrs_normForm]
  rw [find_map_filter_instr D j σ hj]
  cases F.instrs.find? (fun t => t.1 == j) <;> rfl

theorem find_map_blocks (b : BId) (g : Block → Block)
    (hg : ∀ blk, (g blk).bid = blk.bid) (bs : List Block) :
    (bs.map g).find? (fun blk => blk.bid == b) =
      (bs.find? (fun blk => blk.bid == b)).map g := by
  induction bs with
  | nil => rfl
  | cons blk rest ih =>
    by_cases hb : blk.bid = b
    · have h1 : ((g blk).bid == b) = true := by rw [hg]; simpa using hb
      simp [List.find?_cons, h1, hb]
    · have h1 : ((g blk).bid == b) = false := by rw [hg]; simpa using hb
      have h2 : (blk.bid == b) = false := by simpa using hb
      simp [List.find?_cons, h1, h2, ih]

theorem normForm_blockInsts (F : Func) (D : List IId) (σ : Val → Val) (b : BId) :
    (normForm F D σ).blockInsts b =
      ((F.blockInsts b).filter (fun p => !(D.contains p.1))).map
        (fun p => (p.1, p.2.mapOps σ)) := by
  unfold Func.blockInsts normForm
  rw [find_map_blocks b (fun blk => Block.mk blk.bid
      ((blk.insts.filter (fun p => !(D.contains p.1))).map
        (fun p => (p.1, p.2.mapOps σ)))) (fun blk => rfl)]
  cases F.blocks.find? (fun blk => blk.bid == b) <;> rfl

end NormForm

section NodupKit

theorem find_eq_of_nodup_ids :
    ∀ (l : List (IId × BId × Instr)), (l.map (fun t => t.1)).Nodup →
      ∀ t ∈ l, l.find? (fun x => x.1 == t.1) = some t := by
  intro l
  induction l with
  | nil => intro _ t ht; cases ht
  | cons h rest ih =>
    intro hnd t ht
    rcases List.mem_cons.mp ht with rfl | htr
    · simp [List.find?_cons]
    · have hne : (h.1 == t.1) = false := by
        simp only [beq_eq_false_iff_ne, ne_eq]
        intro he
        have hmem : t.1 ∈ rest.map (fun t => t.1) := List.mem_map_of_mem _ htr
        rw [← he] at hmem
        exact (List.nodup_cons.mp (by simpa using hnd)).1 hmem
      simp only [List.find?_cons, hne, Bool.false_eq_true, if_false]
      exact ih (List.nodup_cons.mp (by simpa using hnd)).2 t htr

theorem findInstr_of_mem {F : Func} (hnd : F.ids.Nodup)
    {t : IId × BId × Instr} (ht : t ∈ F.instrs) :
    F.findInstr t.1 = some t.2.2 ∧ F.parentOf t.1 = some t.2.1 := by
  unfold Func.findInstr Func.parentOf
  rw [find_eq_of_nodup_ids F.instrs hnd t ht]
  exact ⟨rfl, rfl⟩

theorem usersOf_mem_instrs {F : Func} {v : Val} {u : IId × BId × Instr}
    (hu : u ∈ F.usersOf v) : u ∈ F.instrs :=
  (List.mem_filter.mp hu).1

theorem usersOf_ids_nodup {F : Func} (hnd : F.ids.Nodup) (v : Val) :
    ((F.usersOf v).map (fun t => t.1)).Nodup := by
  unfold Func.usersOf
  exact hnd.sublist (List.Sublist.map _ (List.filter_sublist _))

theorem mem_blockInsts_mem_instrs {F : Func} {b : BId} {p : IId × Instr}
    (hp : p ∈ F.blockInsts b) : (p.1, b, p.2) ∈ F.instrs := by
  unfold Func.blockInsts at hp
  cases hfind : F.blocks.find? (fun blk => blk.bid == b) with
  | none => rw [hfind] at hp; cases hp
  | some blk =>
    rw [hfind] at hp
    have hmem := List.mem_of_find?_eq_some hfind
    have hbid : blk.bid = b := by
      have := List.find?_some hfind
      simpa using this
    unfold Func.instrs
    rw [List.mem_flatten]
    refine ⟨blk.insts.map (fun q => (q.1, blk.bid, q.2)), ?_, ?_⟩
    · exact List.mem_map_of_mem _ hmem
    · rw [hbid]
      exact List.mem_map_of_mem _ hp

theorem parentOf_of_mem_blockInsts {F : Func} (hnd : F.ids.Nodup) {b : BId}
    {p : IId × Instr} (hp : p ∈ F.blockInsts b) :
    F.parentOf p.1 = some b :=
  (findInstr_of_mem hnd (mem_blockInsts_mem_instrs hp)).2

end NodupKit

section Interestingness

theorem isAllocaId_of_load {F : Func} {a : IId} {lty : Ty} {p : Val}
    (h : F.findInstr a = some (Instr.load lty p)) : F.isAllocaId a = false := by
  unfold Func.isAllocaId
  rw [h]

theorem isAllocaId_normForm (F : Func) (D : List IId) (σ : Val → Val) (a : IId)
    (hD : ∀ d ∈ D, ∃ lty p, F.findInstr d = some (Instr.load lty p)) :
    (normForm F D σ).isAllocaId a = F.isAllocaId a := by
  unfold Func.isAllocaId
  rw [normForm_findInstr]
  by_cases ha : D.contains a = true
  · rw [if_pos ha]
    obtain ⟨lty, p, hl⟩ := hD a (by simpa using ha)
    rw [hl]
  · simp only [Bool.not_eq_true] at ha
    rw [if_neg (by rw [ha]; exact Bool.false_ne_true)]
    cases hfa : F.findInstr a with
    | none => rfl
    | some ins => cases ins <;> rfl

theorem isInteresting_normForm (F : Func) (D : List IId) (sv : Val)
    (hD : ∀ d ∈ D, ∃ lty p, F.findInstr d = some (Instr.load lty p))
    (hsvA : ∀ a2, sv = Val.vreg a2 → F.isAllocaId a2 = false)
    (ins : Instr) :
    isInterestingInstruction (normForm F D (multiSubst D sv))
        (ins.mapOps (multiSubst D sv)) =
      isInterestingInstruction F ins := by
  have hA : ∀ a, (normForm F D (multiSubst D sv)).isAllocaId a = F.isAllocaId a :=
    fun a => isAllocaId_normForm F D _ a hD
  cases ins with
  | load ty p =>
    cases p with
    | vreg a =>
      simp only [Instr.mapOps]
      by_cases haD : D.contains a = true
      · have hptr : multiSubst D sv (Val.vreg a) = sv := by
          simp only [multiSubst]
          rw [if_pos haD]
        rw [hptr]
        have hra : F.isAllocaId a = false := by
          obtain ⟨lty, q, hl⟩ := hD a (by simpa using haD)
          exact isAllocaId_of_load hl
        have hlhs : isInterestingInstruction (normForm F D (multiSubst D sv))
            (Instr.load ty sv) = false := by
          cases sv with
          | vreg a2 =>
            simp only [isInterestingInstruction]
            rw [hA, hsvA a2 rfl]
          | varg n t2 => rfl
          | vconst n t2 => rfl
          | vundef t2 => rfl
          | vpoison t2 => rfl
        rw [hlhs]
        simp only [isInterestingInstruction]
        rw [hra]
      · have hptr : multiSubst D sv (Val.vreg a) = Val.vreg a := by
          simp only [Bool.not_eq_true] at haD
          simp only [multiSubst]
          rw [if_neg (by rw [haD]; exact Bool.false_ne_true)]
        rw [hptr]
        simp only [isInterestingInstruction]
        rw [hA]
    | varg n t2 => rfl
    | vconst n t2 => rfl
    | vundef t2 => rfl
    | vpoison t2 => rfl
  | store v p =>
    cases p with
    | vreg a =>
      simp only [Instr.mapOps]
      by_cases haD : D.contains a = true
      · have hptr : multiSubst D sv (Val.vreg a) = sv := by
          simp only [multiSubst]
          rw [if_pos haD]
        rw [hptr]
        have hra : F.isAllocaId a = false := by
          obtain ⟨lty, q, hl⟩ := hD a (by simpa using haD)
          exact isAllocaId_of_load hl
        have hlhs : isInterestingInstruction (normForm F D (multiSubst D sv))
            (Instr.store (multiSubst D sv v) sv) = false := by
          cases sv with
          | vreg a2 =>
            simp only [isInterestingInstruction]
            rw [hA, hsvA a2 rfl]
          | varg n t2 => rfl
          | vconst n t2 => rfl
          | vundef t2 => rfl
          | vpoison t2 => rfl
        rw [hlhs]
        simp only [isInterestingInstruction]
        rw [hra]
      · have hptr : multiSubst D sv (Val.vreg a) = Val.vreg a := by
          simp only [Bool.not_eq_true] at haD
          simp only [multiSubst]
          rw [if_neg (by rw [haD]; exact Bool.false_ne_true)]
        rw [hptr]
        simp only [isInterestingInstruction]
        rw [hA]
    | varg n t2 => rfl
    | vconst n t2 => rfl
    | vundef t2 => rfl
    | vpoison t2 => rfl
  | alloca ty => rfl
  | phi ty inc => rfl
  | other ty ops => rfl
  | term ops ss => rfl

theorem lbiScanGo_normForm (F : Func) (D : List IId) (sv : Val)
    (hD : ∀ d ∈ D, ∃ lty p, F.findInstr d = some (Instr.load lty p))
    (hsvA : ∀ a2, sv = Val.vreg a2 → F.isAllocaId a2 = false) :
    ∀ (l : List (IId × Instr)) (n : Nat),
      lbiScanGo (normForm F D (multiSubst D sv))
        (l.map (fun p => (p.1, p.2.mapOps (multiSubst D sv)))) n =
      lbiScanGo F l n := by
  intro l
  induction l with
  | nil => intro n; rfl
  | cons p rest ih =>
    intro n
    simp only [List.map_cons, lbiScanGo]
    rw [isInteresting_normForm F D sv hD hsvA p.2]
    by_cases hi : isInterestingInstruction F p.2 = true
    · rw [if_pos hi, if_pos hi, ih]
    · rw [if_neg hi, if_neg hi, ih]

theorem lbiScanBlock_normForm (F : Func) (D : List IId) (sv : Val) (b : BId)
    (hD : ∀ d ∈ D, ∃ lty p, F.findInstr d = some (Instr.load lty p))
    (hsvA : ∀ a2, sv = Val.vreg a2 → F.isAllocaId a2 = false)
    (hDb : ∀ p ∈ F.blockInsts b, D.contains p.1 = false) :
    lbiScanBlock (normForm F D (multiSubst D sv)) b = lbiScanBlock F b := by
  unfold lbiScanBlock
  rw [normForm_blockInsts]
  have hfilter : (F.blockInsts b).filter (fun p => !(D.contains p.1)) =
      F.blockInsts b :=
    List.filter_eq_self.mpr (fun p hp => by rw [hDb p hp]; rfl)
  rw [hfilter, lbiScanGo_normForm F D sv hD hsvA]

theorem lbiScanGo_lookup_mem (F : Func) :
    ∀ (l : List (IId × Instr)) (n : Nat) (i : IId) (ins : Instr),
      (i, ins) ∈ l → isInterestingInstruction F ins = true →
      ∃ m, (lbiScanGo F l n).lookup i = some m := by
  intro l
  induction l with
  | nil => intro n i ins h; cases h
  | cons p rest ih =>
    intro n i ins hmem hint
    rcases List.mem_cons.mp hmem with heq | hmem'
    · rw [← heq]
      simp only [lbiScanGo, hint, if_true]
      exact ⟨n, by simp [List.lookup]⟩
    · simp only [lbiScanGo]
      by_cases hp : isInterestingInstruction F p.2 = true
      · rw [if_pos hp]
        by_cases hip : i = p.1
        · exact ⟨n, by simp [List.lookup, hip]⟩
        · obtain ⟨m, hm⟩ := ih (n + 1) i ins hmem' hint
          refine ⟨m, ?_⟩
          have hb : (i == p.1) = false := by simpa using hip
          simp only [List.lookup, hb]
          exact hm
      · rw [if_neg hp]
        exact ih n i ins hmem' hint

end Interestingness

section SingleStoreKit

theorem lookup_filter_ne {β : Type} (j : IId) :
    ∀ (l : List (IId × β)) (i : IId), i ≠ j →
      (l.filter (fun p => p.1 != j)).lookup i = l.lookup i := by
  intro l
  induction l with
  | nil => intro i _; rfl
  | cons p rest ih =>
    intro i hij
    by_cases hpj : p.1 = j
    · have hp : (p.1 != j) = false := by simpa using hpj
      have hip : (i == p.1) = false := by
        simp only [beq_eq_false_iff_ne, ne_eq]
        intro he
        rw [he] at hij
        exact hij hpj
      rw [List.filter_cons, hp]
      simp only [Bool.false_eq_true, if_false]
      rw [ih i hij]
      simp only [List.lookup, hip]
    · have hp : (p.1 != j) = true := by simpa using hpj
      rw [List.filter_cons, hp]
      simp only [if_true]
      simp only [List.lookup]
      cases hb : (i == p.1) with
      | true => rfl
      | false => exact ih i hij

theorem lbiDelete_lookup_ne {lbi : LBI} {i j : IId} (hij : i ≠ j) :
    (lbiDelete lbi j).lookup i = lbi.lookup i :=
  lookup_filter_ne j lbi i hij

theorem mem_instrs_mem_blockInsts {F : Func}
    (hbnd : (F.blocks.map (fun b => b.bid)).Nodup)
    {i : IId} {b : BId} {ins : Instr} (h : (i, b, ins) ∈ F.instrs) :
    (i, ins) ∈ F.blockInsts b := by
  unfold Func.instrs at h
  rw [List.mem_flatten] at h
  obtain ⟨l, hl, hmem⟩ := h
  rw [List.mem_map] at hl
  obtain ⟨blk, hblk, rfl⟩ := hl
  rw [List.mem_map] at hmem
  obtain ⟨p, hp, hpe⟩ := hmem
  have hb : blk.bid = b := congrArg (fun t => t.2.1) hpe
  have hpi : p.1 = i := congrArg (fun t => t.1) hpe
  have hpins : p.2 = ins := congrArg (fun t => t.2.2) hpe
  unfold Func.blockInsts
  cases hfind : F.blocks.find? (fun blk2 => blk2.bid == b) with
  | none =>
    rw [List.find?_eq_none] at hfind
    exact absurd (by simpa using hb) (by simpa using hfind blk hblk)
  | some blk2 =>
    have hmem2 := List.mem_of_find?_eq_some hfind
    have hb2 : blk2.bid = b := by simpa using List.find?_some hfind
    have heqb : blk = blk2 := by
      by_contra hne
      have h1 : F.blocks.Nodup := List.Nodup.of_map _ hbnd
      have hinj := List.inj_on_of_nodup_map hbnd
      exact hne (hinj hblk hmem2 (by rw [hb, hb2]))
    rw [← heqb]
    rw [← hpi, ← hpins]
    exact hp

theorem rewr_append (domB : BId → BId → Bool) (F : Func) (sv : Val)
    (osId : IId) (storeBB : BId) (l1 l2 : List (IId × BId × Instr)) :
    rssaRewrittenIds domB F sv osId storeBB (l1 ++ l2) =
      rssaRewrittenIds domB F sv osId storeBB l1 ++
        rssaRewrittenIds domB F sv osId storeBB l2 := by
  simp [rssaRewrittenIds, List.filter_append]

theorem skipb_append (domB : BId → BId → Bool) (F : Func) (sv : Val)
    (osId : IId) (storeBB : BId) (l1 l2 : List (IId × BId × Instr)) :
    rssaSkippedBlocks domB F sv osId storeBB (l1 ++ l2) =
      rssaSkippedBlocks domB F sv osId storeBB l1 ++
        rssaSkippedBlocks domB F sv osId storeBB l2 := by
  simp [rssaSkippedBlocks, List.filter_append]

theorem contains_snoc_comm (l : List IId) (a id : IId) :
    (l ++ [a]).contains id = (a :: l).contains id := by
  simp
  exact Bool.or_comm _ _

theorem multiSubst_snoc (D : List IId) (sv : Val) (L : IId)
    (hL : sv ≠ Val.vreg L) :
    (fun v => substVal (Val.vreg L) sv (multiSubst D sv v)) =
      multiSubst (D ++ [L]) sv := by
  funext v
  cases v with
  | vreg a =>
    simp only [multiSubst, substVal]
    by_cases haD : a ∈ D
    · simp [haD, hL]
    · by_cases haL : a = L
      · simp [haD, haL]
        intro h1 _ h3
        exact absurd h1 h3
      · simp [haD, haL]
  | varg n ty => simp [multiSubst, substVal]
  | vconst n ty => simp [multiSubst, substVal]
  | vundef ty => simp [multiSubst, substVal]
  | vpoison ty => simp [multiSubst, substVal]

theorem rewr_mem {domB : BId → BId → Bool} {F : Func} {sv : Val} {osId : IId}
    {storeBB : BId} {l : List (IId × BId × Instr)} {d : IId}
    (h : d ∈ rssaRewrittenIds domB F sv osId storeBB l) :
    ∃ w ∈ l, w.1 = d ∧ w.1 ≠ osId ∧ rssaSkip domB F sv osId storeBB w = false := by
  unfold rssaRewrittenIds at h
  obtain ⟨w, hw, rfl⟩ := List.mem_map.mp h
  have hf := List.mem_filter.mp hw
  have hc := hf.2
  simp only [Bool.and_eq_true, bne_iff_ne, ne_eq, Bool.not_eq_true'] at hc
  exact ⟨w, hf.1, rfl, hc.1, hc.2⟩

theorem rewr_snoc_store {domB : BId → BId → Bool} {F : Func} {sv : Val}
    {osId : IId} {storeBB : BId} {l : List (IId × BId × Instr)}
    {u : IId × BId × Instr} (h : u.1 = osId) :
    rssaRewrittenIds domB F sv osId storeBB (l ++ [u]) =
      rssaRewrittenIds domB F sv osId storeBB l := by
  rw [rewr_append]
  have h1 : rssaRewrittenIds domB F sv osId storeBB [u] = [] := by
    unfold rssaRewrittenIds
    simp [List.filter_cons, h]
  rw [h1, List.append_nil]

theorem rewr_snoc_skip {domB : BId → BId → Bool} {F : Func} {sv : Val}
    {osId : IId} {storeBB : BId} {l : List (IId × BId × Instr)}
    {u : IId × BId × Instr} (h : rssaSkip domB F sv osId storeBB u = true) :
    rssaRewrittenIds domB F sv osId storeBB (l ++ [u]) =
      rssaRewrittenIds domB F sv osId storeBB l := by
  rw [rewr_append]
  have h1 : rssaRewrittenIds domB F sv osId storeBB [u] = [] := by
    unfold rssaRewrittenIds
    simp [List.filter_cons, h]
  rw [h1, List.append_nil]

theorem rewr_snoc_rw {domB : BId → BId → Bool} {F : Func} {sv : Val}
    {osId : IId} {storeBB : BId} {l : List (IId × BId × Instr)}
    {u : IId × BId × Instr} (huid : u.1 ≠ osId)
    (h : rssaSkip domB F sv osId storeBB u = false) :
    rssaRewrittenIds domB F sv osId storeBB (l ++ [u]) =
      rssaRewrittenIds domB F sv osId storeBB l ++ [u.1] := by
  rw [rewr_append]
  have h1 : rssaRewrittenIds domB F sv osId storeBB [u] = [u.1] := by
    unfold rssaRewrittenIds
    simp [List.filter_cons, huid, h]
  rw [h1]

theorem skipb_cons_not {domB : BId → BId → Bool} {F : Func} {sv : Val}
    {osId : IId} {storeBB : BId} {l : List (IId × BId × Instr)}
    {u : IId × BId × Instr}
    (h : u.1 = osId ∨ rssaSkip domB F sv osId storeBB u = false) :
    rssaSkippedBlocks domB F sv osId storeBB (u :: l) =
      rssaSkippedBlocks domB F sv osId storeBB l := by
  unfold rssaSkippedBlocks
  rcases h with h | h
  · simp [List.filter_cons, h]
  · simp [List.filter_cons, h]

theorem skipb_cons_skip {domB : BId → BId → Bool} {F : Func} {sv : Val}
    {osId : IId} {storeBB : BId} {l : List (IId × BId × Instr)}
    {u : IId × BId × Instr} (huid : u.1 ≠ osId)
    (h : rssaSkip domB F sv osId storeBB u = true) :
    rssaSkippedBlocks domB F sv osId storeBB (u :: l) =
      u.2.1 :: rssaSkippedBlocks domB F sv osId storeBB l := by
  unfold rssaSkippedBlocks
  simp [List.filter_cons, huid, h]

/-- One successful load rewrite inside `rewriteSingleStoreAlloca`, expressed
on the normal form: re-reading the store yields the original stored value,
the poison test fails, and the replace-and-erase extends the normal form. -/
theorem rssaRewrite_step (domB : BId → BId → Bool) (F : Func) (aid osId : IId)
    (aty : Ty) (sv : Val) (storeBB : BId)
    (hnd : F.ids.Nodup)
    (halloca : F.findInstr aid = some (Instr.alloca aty))
    (hstoreF : F.findInstr osId = some (Instr.store sv (Val.vreg aid)))
    (hloads : ∀ u ∈ F.usersOf (Val.vreg aid), u.1 ≠ osId →
      ∃ lty, u.2.2 = Instr.load lty (Val.vreg aid))
    (hsv : ∀ u ∈ F.usersOf (Val.vreg aid), sv ≠ Val.vreg u.1)
    (D : List IId)
    (hD : ∀ d ∈ D, ∃ w ∈ F.usersOf (Val.vreg aid), w.1 = d ∧ w.1 ≠ osId)
    (uid : IId) (lty : Ty)
    (hu : ∃ w ∈ F.usersOf (Val.vreg aid), w.1 = uid ∧ w.1 ≠ osId)
    (lbi : LBI) :
    rssaRewrite osId uid lty (normForm F D (multiSubst D sv)) lbi =
      some (normForm F (D ++ [uid]) (multiSubst (D ++ [uid]) sv),
        lbiDelete lbi uid) := by
  obtain ⟨w, hwmem, hwid, hwos⟩ := hu
  have hsvu : sv ≠ Val.vreg uid := by
    rw [← hwid]
    exact hsv w hwmem
  have hosD : D.contains osId = false := by
    by_contra hcon
    simp only [Bool.not_eq_false] at hcon
    obtain ⟨w2, _, hw2, hw2os⟩ := hD osId (by simpa using hcon)
    exact hw2os hw2
  have haidD : D.contains aid = false := by
    by_contra hcon
    simp only [Bool.not_eq_false] at hcon
    obtain ⟨w2, hw2mem, hw2, hw2os⟩ := hD aid (by simpa using hcon)
    obtain ⟨lty2, hw2l⟩ := hloads w2 hw2mem hw2os
    have hfi := (findInstr_of_mem hnd (usersOf_mem_instrs hw2mem)).1
    rw [hw2l, hw2] at hfi
    rw [hfi] at halloca
    cases halloca
  have hsvD : multiSubst D sv sv = sv := by
    cases hsveq : sv with
    | vreg x =>
      have hxD : D.contains x = false := by
        by_contra hcon
        simp only [Bool.not_eq_false] at hcon
        obtain ⟨w2, hw2mem, hw2, _⟩ := hD x (by simpa using hcon)
        have := hsv w2 hw2mem
        rw [hsveq, hw2] at this
        exact this rfl
      simp only [multiSubst]
      rw [if_neg (by rw [hxD]; exact Bool.false_ne_true)]
    | varg n ty => rfl
    | vconst n ty => rfl
    | vundef ty => rfl
    | vpoison ty => rfl
  have haidfix : multiSubst D sv (Val.vreg aid) = Val.vreg aid := by
    simp only [multiSubst]
    rw [if_neg (by rw [haidD]; exact Bool.false_ne_true)]
  unfold rssaRewrite
  rw [normForm_findInstr, if_neg (by rw [hosD]; exact Bool.false_ne_true),
    hstoreF]
  simp only [Option.map_some', Instr.mapOps, hsvD, haidfix,
    Option.bind_eq_bind, Option.some_bind]
  rw [show (sv == Val.vreg uid) = false from by simpa using hsvu]
  simp only [Bool.false_eq_true, if_false]
  rw [normForm_rauw, multiSubst_snoc D sv uid hsvu, normForm_erase]
  have hc : ∀ id, (uid :: D).contains id = (D ++ [uid]).contains id := by
    intro id
    rw [contains_snoc_comm]
  rw [normForm_congr F (uid :: D) (D ++ [uid]) _ hc]

theorem rewr_hD {domB : BId → BId → Bool} {F : Func} {sv : Val} {osId : IId}
    {storeBB : BId} {l us : List (IId × BId × Instr)}
    (hsub : ∀ w ∈ l, w ∈ us) :
    ∀ d ∈ rssaRewrittenIds domB F sv osId storeBB l,
      ∃ w ∈ us, w.1 = d ∧ w.1 ≠ osId := by
  intro d hd
  obtain ⟨w, hw, hwid, hwos, _⟩ := rewr_mem hd
  exact ⟨w, hsub w hw, hwid, hwos⟩

theorem rewr_aid_contains_false {domB : BId → BId → Bool} {F : Func}
    {aid : IId} {aty : Ty} {sv : Val} {osId : IId} {storeBB : BId}
    (hnd : F.ids.Nodup)
    (halloca : F.findInstr aid = some (Instr.alloca aty))
    (hloads : ∀ u ∈ F.usersOf (Val.vreg aid), u.1 ≠ osId →
      ∃ lty, u.2.2 = Instr.load lty (Val.vreg aid))
    {l : List (IId × BId × Instr)} (hsub : ∀ w ∈ l, w ∈ F.usersOf (Val.vreg aid)) :
    (rssaRewrittenIds domB F sv osId storeBB l).contains aid = false := by
  by_contra hcon
  simp only [Bool.not_eq_false] at hcon
  obtain ⟨w, hwmem, hwid, hwos⟩ := rewr_hD hsub aid (by simpa using hcon)
  obtain ⟨lty, hwl⟩ := hloads w hwmem hwos
  have hfi := (findInstr_of_mem hnd (usersOf_mem_instrs hwmem)).1
  rw [hwl, hwid] at hfi
  rw [hfi] at halloca
  cases halloca

theorem rewr_loads {domB : BId → BId → Bool} {F : Func} {aid : IId} {sv : Val}
    {osId : IId} {storeBB : BId} (hnd : F.ids.Nodup)
    (hloads : ∀ u ∈ F.usersOf (Val.vreg aid), u.1 ≠ osId →
      ∃ lty, u.2.2 = Instr.load lty (Val.vreg aid))
    {l : List (IId × BId × Instr)} (hsub : ∀ w ∈ l, w ∈ F.usersOf (Val.vreg aid)) :
    ∀ d ∈ rssaRewrittenIds domB F sv osId storeBB l,
      ∃ lty p, F.findInstr d = some (Instr.load lty p) := by
  intro d hd
  obtain ⟨w, hwmem, hwid, hwos⟩ := rewr_hD hsub d hd
  obtain ⟨lty, hwl⟩ := hloads w hwmem hwos
  have hfi := (findInstr_of_mem hnd (usersOf_mem_instrs hwmem)).1
  rw [hwl, hwid] at hfi
  exact ⟨lty, Val.vreg aid, hfi⟩

theorem done_ids_ne_uid {F : Func} {aid : IId} (hnd : F.ids.Nodup)
    {done rem' : List (IId × BId × Instr)} {u : IId × BId × Instr}
    (husers : F.usersOf (Val.vreg aid) = done ++ u :: rem') :
    ∀ w ∈ done, w.1 ≠ u.1 := by
  intro w hw
  have husN := usersOf_ids_nodup hnd (Val.vreg aid)
  rw [husers, List.map_append, List.nodup_append] at husN
  intro he
  apply husN.2.2 (List.mem_map_of_mem _ hw)
  rw [he]
  exact List.mem_map_of_mem _ (List.mem_cons_self u rem')

theorem rewr_uid_contains_false {domB : BId → BId → Bool} {F : Func}
    {aid : IId} {sv : Val} {osId : IId} {storeBB : BId} (hnd : F.ids.Nodup)
    {done rem' : List (IId × BId × Instr)} {u : IId × BId × Instr}
    (husers : F.usersOf (Val.vreg aid) = done ++ u :: rem') :
    (rssaRewrittenIds domB F sv osId storeBB done).contains u.1 = false := by
  by_contra hcon
  simp only [Bool.not_eq_false] at hcon
  obtain ⟨w, hw, hwid, _, _⟩ := rewr_mem (show u.1 ∈ _ from by simpa using hcon)
  exact done_ids_ne_uid hnd husers w hw hwid

theorem normForm_findInstr_load {domB : BId → BId → Bool} {F : Func}
    {aid : IId} {aty : Ty} {sv : Val} {osId : IId} {storeBB : BId}
    (hnd : F.ids.Nodup)
    (halloca : F.findInstr aid = some (Instr.alloca aty))
    (hloads : ∀ u ∈ F.usersOf (Val.vreg aid), u.1 ≠ osId →
      ∃ lty, u.2.2 = Instr.load lty (Val.vreg aid))
    {l : List (IId × BId × Instr)} (hsub : ∀ w ∈ l, w ∈ F.usersOf (Val.vreg aid))
    {u : IId × BId × Instr} (humem : u ∈ F.usersOf (Val.vreg aid))
    {lty : Ty} (hul : u.2.2 = Instr.load lty (Val.vreg aid))
    (huD : (rssaRewrittenIds domB F sv osId storeBB l).contains u.1 = false) :
    (normForm F (rssaRewrittenIds domB F sv osId storeBB l)
        (multiSubst (rssaRewrittenIds domB F sv osId storeBB l) sv)).findInstr u.1 =
      some (Instr.load lty (Val.vreg aid)) := by
  rw [normForm_findInstr, if_neg (by rw [huD]; exact Bool.false_ne_true)]
  have hfi := (findInstr_of_mem hnd (usersOf_mem_instrs humem)).1
  rw [hul] at hfi
  rw [hfi]
  simp only [Option.map_some', Instr.mapOps]
  have haidfix : multiSubst (rssaRewrittenIds domB F sv osId storeBB l) sv
      (Val.vreg aid) = Val.vreg aid := by
    simp only [multiSubst]
    rw [if_neg (by
      rw [rewr_aid_contains_false hnd halloca hloads hsub]
      exact Bool.false_ne_true)]
  rw [haidfix]

/-- The user loop of the single-store rewrite when the stored value is not
an instruction: every load is rewritten, no index machinery runs. -/
theorem rssaLoop_spec_global (domB : BId → BId → Bool) (F : Func)
    (aid osId : IId) (aty : Ty) (sv : Val) (storeBB : BId)
    (hnd : F.ids.Nodup)
    (halloca : F.findInstr aid = some (Instr.alloca aty))
    (hstoreF : F.findInstr osId = some (Instr.store sv (Val.vreg aid)))
    (hloads : ∀ u ∈ F.usersOf (Val.vreg aid), u.1 ≠ osId →
      ∃ lty, u.2.2 = Instr.load lty (Val.vreg aid))
    (hsv : ∀ u ∈ F.usersOf (Val.vreg aid), sv ≠ Val.vreg u.1)
    (hsvG : ∀ x : IId, sv ≠ Val.vreg x) :
    ∀ (rem done : List (IId × BId × Instr)) (info1 : AllocaInfo),
      F.usersOf (Val.vreg aid) = done ++ rem →
      rssaLoop domB osId true storeBB rem
          (normForm F (rssaRewrittenIds domB F sv osId storeBB done)
            (multiSubst (rssaRewrittenIds domB F sv osId storeBB done) sv))
          info1 [] none =
        some (normForm F (rssaRewrittenIds domB F sv osId storeBB (done ++ rem))
            (multiSubst (rssaRewrittenIds domB F sv osId storeBB (done ++ rem)) sv),
          { info1 with UsingBlocks := info1.UsingBlocks ++
            rssaSkippedBlocks domB F sv osId storeBB rem }, [], none) := by
  intro rem
  induction rem with
  | nil =>
    intro done info1 _husers
    simp only [rssaSkippedBlocks, List.filter_nil, List.map_nil, List.append_nil]
    rfl
  | cons u rem' ih =>
    intro done info1 husers
    have humem : u ∈ F.usersOf (Val.vreg aid) := by
      rw [husers]
      exact List.mem_append_right _ (List.mem_cons_self u rem')
    have hassoc : done ++ u :: rem' = (done ++ [u]) ++ rem' := by
      rw [List.append_assoc]
      rfl
    have husers' : F.usersOf (Val.vreg aid) = (done ++ [u]) ++ rem' := by
      rw [husers, hassoc]
    simp only [rssaLoop]
    cases hbeq : (u.1 == osId) with
    | true =>
      have huid : u.1 = osId := by simpa using hbeq
      rw [if_pos rfl]
      rw [skipb_cons_not (Or.inl huid), hassoc]
      have hih := ih (done ++ [u]) info1 husers'
      rw [rewr_snoc_store huid] at hih
      exact hih
    | false =>
      have huid : u.1 ≠ osId := by simpa using hbeq
      rw [if_neg Bool.false_ne_true]
      obtain ⟨lty, hul⟩ := hloads u humem huid
      have huD := @rewr_uid_contains_false domB F aid sv osId storeBB hnd _ _ _ husers
      have hsubdone : ∀ w ∈ done, w ∈ F.usersOf (Val.vreg aid) := by
        intro w hw
        rw [husers]
        exact List.mem_append_left _ hw
      have hfind := normForm_findInstr_load hnd halloca hloads hsubdone humem hul huD
      rw [hfind]
      simp only [Option.bind_eq_bind, Option.some_bind]
      have hskip : rssaSkip domB F sv osId storeBB u = false := by
        unfold rssaSkip
        cases hsveq : sv with
        | vreg x => exact absurd hsveq (hsvG x)
        | varg n ty => rfl
        | vconst n ty => rfl
        | vundef ty => rfl
        | vpoison ty => rfl
      have hstep := rssaRewrite_step domB F aid osId aty sv storeBB hnd halloca
        hstoreF hloads hsv (rssaRewrittenIds domB F sv osId storeBB done)
        (rewr_hD hsubdone) u.1 lty ⟨u, humem, rfl, huid⟩ []
      rw [hstep]
      simp only [Option.bind_eq_bind, Option.some_bind]
      rw [skipb_cons_not (Or.inr hskip), hassoc]
      have hih := ih (done ++ [u]) info1 husers'
      rw [rewr_snoc_rw huid hskip] at hih
      have hdel : lbiDelete [] u.1 = ([] : LBI) := rfl
      rw [hdel]
      exact hih

theorem instrs_unique {F : Func} (hnd : F.ids.Nodup) {t s : IId × BId × Instr}
    (ht : t ∈ F.instrs) (hs : s ∈ F.instrs) (hid : t.1 = s.1) : t = s := by
  have h1 := find_eq_of_nodup_ids F.instrs hnd t ht
  have h2 := find_eq_of_nodup_ids F.instrs hnd s hs
  rw [hid] at h1
  rw [h1] at h2
  exact Option.some_inj.mp h2

theorem mem_instrs_of_find {F : Func} {i : IId} {b : BId} {ins : Instr}
    (hf : F.findInstr i = some ins) (hp : F.parentOf i = some b) :
    (i, b, ins) ∈ F.instrs := by
  unfold Func.findInstr at hf
  unfold Func.parentOf at hp
  cases hfind : F.instrs.find? (fun t => t.1 == i) with
  | none => rw [hfind] at hf; cases hf
  | some t =>
    rw [hfind] at hf hp
    simp only [Option.map_some', Option.some_inj] at hf hp
    have hti : t.1 = i := by simpa using List.find?_some hfind
    have hmem : (t.1, t.2.1, t.2.2) ∈ F.instrs := List.mem_of_find?_eq_some hfind
    rw [hti, hp, hf] at hmem
    exact hmem

theorem rewr_osId_contains_false {domB : BId → BId → Bool} {F : Func} {sv : Val}
    {osId : IId} {storeBB : BId} {l : List (IId × BId × Instr)} :
    (rssaRewrittenIds domB F sv osId storeBB l).contains osId = false := by
  by_contra hcon
  simp only [Bool.not_eq_false] at hcon
  obtain ⟨w, _, hwid, hwos, _⟩ := rewr_mem (show osId ∈ _ from by simpa using hcon)
  exact hwos hwid

theorem rewr_x_contains_false {domB : BId → BId → Bool} {F : Func}
    {aid x osId : IId} {storeBB : BId}
    (hsv : ∀ u ∈ F.usersOf (Val.vreg aid), Val.vreg x ≠ Val.vreg u.1)
    {l : List (IId × BId × Instr)} (hsub : ∀ w ∈ l, w ∈ F.usersOf (Val.vreg aid)) :
    (rssaRewrittenIds domB F (Val.vreg x) osId storeBB l).contains x = false := by
  by_contra hcon
  simp only [Bool.not_eq_false] at hcon
  obtain ⟨w, hw, hwid, _, _⟩ := rewr_mem (show x ∈ _ from by simpa using hcon)
  exact hsv w (hsub w hw) (by rw [hwid])

theorem rewr_storeBB_free {domB : BId → BId → Bool} {F : Func} {aid : IId}
    {sv : Val} {osId : IId} {storeBB : BId} (hnd : F.ids.Nodup)
    {done : List (IId × BId × Instr)}
    (hsub : ∀ w ∈ done, w ∈ F.usersOf (Val.vreg aid))
    (hdone : ∀ u ∈ done, u.1 ≠ osId → u.2.1 ≠ storeBB) :
    ∀ p ∈ F.blockInsts storeBB,
      (rssaRewrittenIds domB F sv osId storeBB done).contains p.1 = false := by
  intro p hp
  by_contra hcon
  simp only [Bool.not_eq_false] at hcon
  obtain ⟨w, hw, hwid, hwos, _⟩ := rewr_mem (show p.1 ∈ _ from by simpa using hcon)
  have hpin : (p.1, storeBB, p.2) ∈ F.instrs := mem_blockInsts_mem_instrs hp
  have hwin : w ∈ F.instrs := usersOf_mem_instrs (hsub w hw)
  have heq := instrs_unique hnd hwin hpin (by rw [hwid])
  have hb : w.2.1 = storeBB := congrArg (fun t => t.2.1) heq
  exact hdone w hw hwos hb

theorem isAllocaId_true_of_alloca {F : Func} {a : IId} {ty : Ty}
    (h : F.findInstr a = some (Instr.alloca ty)) : F.isAllocaId a = true := by
  unfold Func.isAllocaId
  rw [h]

theorem normForm_findInstr_store {domB : BId → BId → Bool} {F : Func}
    {aid x osId : IId} {aty : Ty} {storeBB : BId}
    (hnd : F.ids.Nodup)
    (halloca : F.findInstr aid = some (Instr.alloca aty))
    (hstoreF : F.findInstr osId = some (Instr.store (Val.vreg x) (Val.vreg aid)))
    (hloads : ∀ u ∈ F.usersOf (Val.vreg aid), u.1 ≠ osId →
      ∃ lty, u.2.2 = Instr.load lty (Val.vreg aid))
    (hsv : ∀ u ∈ F.usersOf (Val.vreg aid), Val.vreg x ≠ Val.vreg u.1)
    {l : List (IId × BId × Instr)} (hsub : ∀ w ∈ l, w ∈ F.usersOf (Val.vreg aid)) :
    (normForm F (rssaRewrittenIds domB F (Val.vreg x) osId storeBB l)
        (multiSubst (rssaRewrittenIds domB F (Val.vreg x) osId storeBB l)
          (Val.vreg x))).findInstr osId =
      some (Instr.store (Val.vreg x) (Val.vreg aid)) := by
  rw [normForm_findInstr,
    if_neg (by rw [rewr_osId_contains_false]; exact Bool.false_ne_true), hstoreF]
  simp only [Option.map_some', Instr.mapOps]
  have hx : multiSubst (rssaRewrittenIds domB F (Val.vreg x) osId storeBB l)
      (Val.vreg x) (Val.vreg x) = Val.vreg x := by
    simp only [multiSubst]
    rw [if_neg (by rw [rewr_x_contains_false hsv hsub]; exact Bool.false_ne_true)]
  have ha : multiSubst (rssaRewrittenIds domB F (Val.vreg x) osId storeBB l)
      (Val.vreg x) (Val.vreg aid) = Val.vreg aid := by
    simp only [multiSubst]
    rw [if_neg (by
      rw [rewr_aid_contains_false hnd halloca hloads hsub]
      exact Bool.false_ne_true)]
  rw [hx, ha]

theorem scan_lookup_of_user {F : Func} (hbnd : (F.blocks.map (fun b => b.bid)).Nodup)
    {i : IId} {b : BId} {ins : Instr} (hmem : (i, b, ins) ∈ F.instrs)
    (hint : isInterestingInstruction F ins = true) :
    ∃ n, (lbiScanBlock F b).lookup i = some n := by
  have hbi : (i, ins) ∈ F.blockInsts b := mem_instrs_mem_blockInsts hbnd hmem
  exact lbiScanGo_lookup_mem F (F.blockInsts b) 0 i ins hbi hint

theorem gii_hit {F : Func} {lbi : LBI} {i : IId} {ins : Instr} {n : Nat}
    (hf : F.findInstr i = some ins)
    (hint : isInterestingInstruction F ins = true)
    (hl : lbi.lookup i = some n) :
    getInstructionIndex F lbi i = some (n, lbi) := by
  unfold getInstructionIndex
  rw [hf]
  simp only [Option.bind_eq_bind, Option.some_bind, hint, Bool.not_true,
    Bool.false_eq_true, if_false, hl]

theorem gii_miss {F : Func} {lbi : LBI} {i : IId} {ins : Instr} {b : BId} {n : Nat}
    (hf : F.findInstr i = some ins)
    (hint : isInterestingInstruction F ins = true)
    (hl : lbi.lookup i = none)
    (hp : F.parentOf i = some b)
    (hs : (lbiScanBlock F b ++ lbi).lookup i = some n) :
    getInstructionIndex F lbi i = some (n, lbiScanBlock F b ++ lbi) := by
  unfold getInstructionIndex
  rw [hf]
  simp only [Option.bind_eq_bind, Option.some_bind, hint, Bool.not_true,
    Bool.false_eq_true, if_false, hl, hp, hs]

theorem contains_append_false {l1 l2 : List IId} {id : IId}
    (h : (l1 ++ l2).contains id = false) :
    l1.contains id = false ∧ l2.contains id = false := by
  have h2 : id ∉ l1 ++ l2 := by simpa using h
  rw [List.mem_append] at h2
  push_neg at h2
  constructor
  · simpa using h2.1
  · simpa using h2.2

theorem normForm_parentOf_os {domB : BId → BId → Bool} {F : Func} {sv : Val}
    {osId : IId} {storeBB : BId}
    (hstoreB : F.parentOf osId = some storeBB)
    (l : List (IId × BId × Instr)) :
    (normForm F (rssaRewrittenIds domB F sv osId storeBB l)
        (multiSubst (rssaRewrittenIds domB F sv osId storeBB l) sv)).parentOf osId =
      some storeBB := by
  rw [normForm_parentOf F _ _ osId rewr_osId_contains_false]
  exact hstoreB

theorem normForm_interesting_store {domB : BId → BId → Bool} {F : Func}
    {aid : IId} {aty : Ty} {sv : Val} {osId : IId} {storeBB : BId}
    (hnd : F.ids.Nodup)
    (halloca : F.findInstr aid = some (Instr.alloca aty))
    (hloads : ∀ u ∈ F.usersOf (Val.vreg aid), u.1 ≠ osId →
      ∃ lty, u.2.2 = Instr.load lty (Val.vreg aid))
    {l : List (IId × BId × Instr)} (hsub : ∀ w ∈ l, w ∈ F.usersOf (Val.vreg aid))
    (v : Val) :
    isInterestingInstruction
        (normForm F (rssaRewrittenIds domB F sv osId storeBB l)
          (multiSubst (rssaRewrittenIds domB F sv osId storeBB l) sv))
        (Instr.store v (Val.vreg aid)) = true := by
  simp only [isInterestingInstruction]
  rw [isAllocaId_normForm F _ _ aid (rewr_loads hnd hloads hsub)]
  exact isAllocaId_true_of_alloca halloca

theorem normForm_interesting_load {domB : BId → BId → Bool} {F : Func}
    {aid : IId} {aty : Ty} {sv : Val} {osId : IId} {storeBB : BId}
    (hnd : F.ids.Nodup)
    (halloca : F.findInstr aid = some (Instr.alloca aty))
    (hloads : ∀ u ∈ F.usersOf (Val.vreg aid), u.1 ≠ osId →
      ∃ lty, u.2.2 = Instr.load lty (Val.vreg aid))
    {l : List (IId × BId × Instr)} (hsub : ∀ w ∈ l, w ∈ F.usersOf (Val.vreg aid))
    (lty : Ty) :
    isInterestingInstruction
        (normForm F (rssaRewrittenIds domB F sv osId storeBB l)
          (multiSubst (rssaRewrittenIds domB F sv osId storeBB l) sv))
        (Instr.load lty (Val.vreg aid)) = true := by
  simp only [isInterestingInstruction]
  rw [isAllocaId_normForm F _ _ aid (rewr_loads hnd hloads hsub)]
  exact isAllocaId_true_of_alloca halloca

/-- First index query of the store's block: the cache is empty, so the block
is scanned once and the scan of the normal form is the scan of the original
function. -/
theorem gii_os_first {domB : BId → BId → Bool} {F : Func}
    {aid x osId : IId} {aty : Ty} {storeBB : BId} {s0 : Nat}
    (hnd : F.ids.Nodup)
    (halloca : F.findInstr aid = some (Instr.alloca aty))
    (hstoreF : F.findInstr osId = some (Instr.store (Val.vreg x) (Val.vreg aid)))
    (hstoreB : F.parentOf osId = some storeBB)
    (hloads : ∀ u ∈ F.usersOf (Val.vreg aid), u.1 ≠ osId →
      ∃ lty, u.2.2 = Instr.load lty (Val.vreg aid))
    (hsv : ∀ u ∈ F.usersOf (Val.vreg aid), Val.vreg x ≠ Val.vreg u.1)
    (hsvA : F.isAllocaId x = false)
    {done : List (IId × BId × Instr)}
    (hsub : ∀ w ∈ done, w ∈ F.usersOf (Val.vreg aid))
    (hdoneA : ∀ w ∈ done, w.1 ≠ osId → w.2.1 ≠ storeBB)
    (hs0 : (lbiScanBlock F storeBB).lookup osId = some s0) :
    getInstructionIndex
        (normForm F (rssaRewrittenIds domB F (Val.vreg x) osId storeBB done)
          (multiSubst (rssaRewrittenIds domB F (Val.vreg x) osId storeBB done)
            (Val.vreg x))) [] osId =
      some (s0, lbiScanBlock F storeBB) := by
  have hscanNF : lbiScanBlock
      (normForm F (rssaRewrittenIds domB F (Val.vreg x) osId storeBB done)
        (multiSubst (rssaRewrittenIds domB F (Val.vreg x) osId storeBB done)
          (Val.vreg x))) storeBB = lbiScanBlock F storeBB :=
    lbiScanBlock_normForm F _ (Val.vreg x) storeBB
      (rewr_loads hnd hloads hsub)
      (fun a2 he => by cases he; exact hsvA)
      (rewr_storeBB_free hnd hsub hdoneA)
  have h := @gii_miss _ ([] : LBI) _ _ _ _
    (normForm_findInstr_store hnd halloca hstoreF hloads hsv hsub)
    (normForm_interesting_store hnd halloca hloads hsub (Val.vreg x))
    rfl (normForm_parentOf_os hstoreB done)
    (show _ = some s0 from by rw [List.append_nil, hscanNF]; exact hs0)
  rw [List.append_nil, hscanNF] at h
  exact h

/-- The user loop of the single-store rewrite when the stored value is an
instruction (`StoringGlobalVal` false): the lazily initialised store index
and the one scan of the store's block decide every load of that block, block
dominance decides the rest, and the result is the normal form over the
statically decided skip set. -/
theorem rssaLoop_spec_local (domB : BId → BId → Bool) (F : Func)
    (aid osId x : IId) (aty : Ty) (storeBB : BId)
    (hnd : F.ids.Nodup)
    (hbnd : (F.blocks.map (fun b => b.bid)).Nodup)
    (halloca : F.findInstr aid = some (Instr.alloca aty))
    (hstoreF : F.findInstr osId = some (Instr.store (Val.vreg x) (Val.vreg aid)))
    (hstoreB : F.parentOf osId = some storeBB)
    (hloads : ∀ u ∈ F.usersOf (Val.vreg aid), u.1 ≠ osId →
      ∃ lty, u.2.2 = Instr.load lty (Val.vreg aid))
    (hsv : ∀ u ∈ F.usersOf (Val.vreg aid), Val.vreg x ≠ Val.vreg u.1)
    (hsvA : F.isAllocaId x = false) :
    ∀ (rem done : List (IId × BId × Instr)) (info1 : AllocaInfo) (lbi : LBI)
      (si : Option Nat),
      F.usersOf (Val.vreg aid) = done ++ rem →
      rssaInv domB F (Val.vreg x) osId storeBB done lbi si →
      ∃ lbi2 si2,
        rssaLoop domB osId false storeBB rem
            (normForm F (rssaRewrittenIds domB F (Val.vreg x) osId storeBB done)
              (multiSubst (rssaRewrittenIds domB F (Val.vreg x) osId storeBB done)
                (Val.vreg x)))
            info1 lbi si =
          some (normForm F
              (rssaRewrittenIds domB F (Val.vreg x) osId storeBB (done ++ rem))
              (multiSubst
                (rssaRewrittenIds domB F (Val.vreg x) osId storeBB (done ++ rem))
                (Val.vreg x)),
            { info1 with UsingBlocks := info1.UsingBlocks ++
              rssaSkippedBlocks domB F (Val.vreg x) osId storeBB rem },
            lbi2, si2) := by
  intro rem
  induction rem with
  | nil =>
    intro done info1 lbi si _ _
    refine ⟨lbi, si, ?_⟩
    simp only [rssaSkippedBlocks, List.filter_nil, List.map_nil, List.append_nil]
    rfl
  | cons u rem' ih =>
    intro done info1 lbi si husers hinv
    have hinvD : (si = none ∧ lbi = [] ∧
        ∀ w ∈ done, w.1 ≠ osId → w.2.1 ≠ storeBB) ∨
        (∃ s0, si = some s0 ∧ (lbiScanBlock F storeBB).lookup osId = some s0 ∧
          ∀ id, (rssaRewrittenIds domB F (Val.vreg x) osId storeBB done).contains id
              = false →
            lbi.lookup id = (lbiScanBlock F storeBB).lookup id) := hinv
    have humem : u ∈ F.usersOf (Val.vreg aid) := by
      rw [husers]
      exact List.mem_append_right _ (List.mem_cons_self u rem')
    have hassoc : done ++ u :: rem' = (done ++ [u]) ++ rem' := by
      rw [List.append_assoc]
      rfl
    have husers' : F.usersOf (Val.vreg aid) = (done ++ [u]) ++ rem' := by
      rw [husers, hassoc]
    have hsubdone : ∀ w ∈ done, w ∈ F.usersOf (Val.vreg aid) := by
      intro w hw
      rw [husers]
      exact List.mem_append_left _ hw
    simp only [rssaLoop]
    cases hbeq : (u.1 == osId) with
    | true =>
      have huid : u.1 = osId := by simpa using hbeq
      rw [if_pos rfl]
      rw [skipb_cons_not (Or.inl huid), hassoc]
      have hinv1 : rssaInv domB F (Val.vreg x) osId storeBB (done ++ [u]) lbi si := by
        rcases hinvD with ⟨h1, h2, h3⟩ | ⟨s0, h1, h2, h3⟩
        · refine Or.inl ⟨h1, h2, ?_⟩
          intro w hw hwos
          rcases List.mem_append.mp hw with hw | hw
          · exact h3 w hw hwos
          · rcases List.mem_singleton.mp hw with rfl
            exact absurd huid hwos
        · refine Or.inr ⟨s0, h1, h2, ?_⟩
          intro id hid
          rw [rewr_snoc_store huid] at hid
          exact h3 id hid
      obtain ⟨lbi2, si2, hih⟩ := ih (done ++ [u]) info1 lbi si husers' hinv1
      rw [rewr_snoc_store huid] at hih
      exact ⟨lbi2, si2, hih⟩
    | false =>
      have huid : u.1 ≠ osId := by simpa using hbeq
      rw [if_neg Bool.false_ne_true]
      obtain ⟨lty, hul⟩ := hloads u humem huid
      have huD := @rewr_uid_contains_false domB F aid (Val.vreg x) osId storeBB
        hnd _ _ _ husers
      have hfind := normForm_findInstr_load hnd halloca hloads hsubdone humem hul huD
      rw [hfind]
      simp only [Option.bind_eq_bind, Option.some_bind]
      have hpar := normForm_parentOf F
        (rssaRewrittenIds domB F (Val.vreg x) osId storeBB done)
        (multiSubst (rssaRewrittenIds domB F (Val.vreg x) osId storeBB done)
          (Val.vreg x)) u.1 huD
      rw [hpar, (findInstr_of_mem hnd (usersOf_mem_instrs humem)).2]
      simp only [Option.some_bind]
      have hFu : F.findInstr u.1 = some (Instr.load lty (Val.vreg aid)) := by
        have h := (findInstr_of_mem hnd (usersOf_mem_instrs humem)).1
        rw [hul] at h
        exact h
      have hintF : isInterestingInstruction F (Instr.load lty (Val.vreg aid))
          = true := by
        simp only [isInterestingInstruction]
        exact isAllocaId_true_of_alloca halloca
      have hintNF := @normForm_interesting_load domB F aid aty (Val.vreg x) osId
        storeBB hnd halloca hloads _ hsubdone lty
      by_cases hub : u.2.1 = storeBB
      · rw [if_pos (show (u.2.1 == storeBB) = true from by simpa using hub)]
        have hmemU : (u.1, storeBB, Instr.load lty (Val.vreg aid)) ∈ F.instrs := by
          have h0 : (u.1, u.2.1, u.2.2) ∈ F.instrs := usersOf_mem_instrs humem
          rw [hub, hul] at h0
          exact h0
        obtain ⟨li, hli⟩ := scan_lookup_of_user hbnd hmemU hintF
        rcases hinvD with ⟨hsiN, hlbiN, hdoneA⟩ | ⟨s0, hsiS, hs0, hfroz⟩
        · -- first access to the store block's index: scan it once
          subst hsiN
          subst hlbiN
          have hintFstore : isInterestingInstruction F
              (Instr.store (Val.vreg x) (Val.vreg aid)) = true := by
            simp only [isInterestingInstruction]
            exact isAllocaId_true_of_alloca halloca
          obtain ⟨s0, hs0⟩ := scan_lookup_of_user hbnd
            (mem_instrs_of_find hstoreF hstoreB) hintFstore
          have hgii1 := @gii_os_first domB F aid x osId aty storeBB s0 hnd
            halloca hstoreF hstoreB hloads hsv hsvA done hsubdone hdoneA hs0
          have hgii2 := gii_hit hfind hintNF hli
          simp only [hgii1, hgii2, Option.bind_eq_bind, Option.some_bind]
          have hskipEq : rssaSkip domB F (Val.vreg x) osId storeBB u
              = decide (li < s0) := by
            simp only [rssaSkip]
            rw [if_pos (show (u.2.1 == storeBB) = true from by simpa using hub),
              hs0, hli]
          by_cases hlt : li < s0
          · rw [if_pos hlt]
            have hskipT : rssaSkip domB F (Val.vreg x) osId storeBB u = true := by
              rw [hskipEq]
              exact decide_eq_true hlt
            have hinv1 : rssaInv domB F (Val.vreg x) osId storeBB (done ++ [u])
                (lbiScanBlock F storeBB) (some s0) :=
              Or.inr ⟨s0, rfl, hs0, fun id _ => rfl⟩
            obtain ⟨lbi2, si2, hih⟩ := ih (done ++ [u])
              { info1 with UsingBlocks := info1.UsingBlocks ++ [storeBB] }
              (lbiScanBlock F storeBB) (some s0) husers' hinv1
            rw [rewr_snoc_skip hskipT] at hih
            refine ⟨lbi2, si2, ?_⟩
            rw [skipb_cons_skip huid hskipT, hassoc, hub,
              List.append_cons info1.UsingBlocks storeBB
                (rssaSkippedBlocks domB F (Val.vreg x) osId storeBB rem')]
            exact hih
          · rw [if_neg hlt]
            have hskipF : rssaSkip domB F (Val.vreg x) osId storeBB u = false := by
              rw [hskipEq]
              exact decide_eq_false hlt
            have hstep := rssaRewrite_step domB F aid osId aty (Val.vreg x)
              storeBB hnd halloca hstoreF hloads hsv
              (rssaRewrittenIds domB F (Val.vreg x) osId storeBB done)
              (rewr_hD hsubdone) u.1 lty
              ⟨u, humem, rfl, huid⟩ (lbiScanBlock F storeBB)
            rw [hstep]
            simp only [Option.bind_eq_bind, Option.some_bind]
            have hinv1 : rssaInv domB F (Val.vreg x) osId storeBB (done ++ [u])
                (lbiDelete (lbiScanBlock F storeBB) u.1) (some s0) := by
              refine Or.inr ⟨s0, rfl, hs0, ?_⟩
              intro id hid
              rw [rewr_snoc_rw huid hskipF] at hid
              obtain ⟨hid1, hid2⟩ := contains_append_false hid
              have hidu : id ≠ u.1 := by simpa using hid2
              rw [lbiDelete_lookup_ne hidu]
            obtain ⟨lbi2, si2, hih⟩ := ih (done ++ [u]) info1
              (lbiDelete (lbiScanBlock F storeBB) u.1) (some s0) husers' hinv1
            rw [rewr_snoc_rw huid hskipF] at hih
            refine ⟨lbi2, si2, ?_⟩
            rw [skipb_cons_not (Or.inr hskipF), hassoc]
            exact hih
        · -- the store block's indices are already cached
          subst hsiS
          have hlbiU : lbi.lookup u.1 = some li := by
            rw [hfroz u.1 huD]
            exact hli
          have hgii2 := gii_hit hfind hintNF hlbiU
          simp only [hgii2, Option.bind_eq_bind, Option.some_bind]
          have hskipEq : rssaSkip domB F (Val.vreg x) osId storeBB u
              = decide (li < s0) := by
            simp only [rssaSkip]
            rw [if_pos (show (u.2.1 == storeBB) = true from by simpa using hub),
              hs0, hli]
          by_cases hlt : li < s0
          · rw [if_pos hlt]
            have hskipT : rssaSkip domB F (Val.vreg x) osId storeBB u = true := by
              rw [hskipEq]
              exact decide_eq_true hlt
            have hinv1 : rssaInv domB F (Val.vreg x) osId storeBB (done ++ [u])
                lbi (some s0) := by
              refine Or.inr ⟨s0, rfl, hs0, ?_⟩
              intro id hid
              rw [rewr_snoc_skip hskipT] at hid
              exact hfroz id hid
            obtain ⟨lbi2, si2, hih⟩ := ih (done ++ [u])
              { info1 with UsingBlocks := info1.UsingBlocks ++ [storeBB] }
              lbi (some s0) husers' hinv1
            rw [rewr_snoc_skip hskipT] at hih
            refine ⟨lbi2, si2, ?_⟩
            rw [skipb_cons_skip huid hskipT, hassoc, hub,
              List.append_cons info1.UsingBlocks storeBB
                (rssaSkippedBlocks domB F (Val.vreg x) osId storeBB rem')]
            exact hih
          · rw [if_neg hlt]
            have hskipF : rssaSkip domB F (Val.vreg x) osId storeBB u = false := by
              rw [hskipEq]
              exact decide_eq_false hlt
            have hstep := rssaRewrite_step domB F aid osId aty (Val.vreg x)
              storeBB hnd halloca hstoreF hloads hsv
              (rssaRewrittenIds domB F (Val.vreg x) osId storeBB done)
              (rewr_hD hsubdone) u.1 lty
              ⟨u, humem, rfl, huid⟩ lbi
            rw [hstep]
            simp only [Option.bind_eq_bind, Option.some_bind]
            have hinv1 : rssaInv domB F (Val.vreg x) osId storeBB (done ++ [u])
                (lbiDelete lbi u.1) (some s0) := by
              refine Or.inr ⟨s0, rfl, hs0, ?_⟩
              intro id hid
              rw [rewr_snoc_rw huid hskipF] at hid
              obtain ⟨hid1, hid2⟩ := contains_append_false hid
              have hidu : id ≠ u.1 := by simpa using hid2
              rw [lbiDelete_lookup_ne hidu]
              exact hfroz id hid1
            obtain ⟨lbi2, si2, hih⟩ := ih (done ++ [u]) info1 (lbiDelete lbi u.1)
              (some s0) husers' hinv1
            rw [rewr_snoc_rw huid hskipF] at hih
            refine ⟨lbi2, si2, ?_⟩
            rw [skipb_cons_not (Or.inr hskipF), hassoc]
            exact hih
      · rw [if_neg (show ¬((u.2.1 == storeBB) = true) from by simpa using hub)]
        have hskipEq2 : rssaSkip domB F (Val.vreg x) osId storeBB u
            = !(domB storeBB u.2.1) := by
          simp only [rssaSkip]
          rw [if_neg (show ¬((u.2.1 == storeBB) = true) from by simpa using hub)]
        cases hdom : domB storeBB u.2.1 with
        | false =>
          have hskipT : rssaSkip domB F (Val.vreg x) osId storeBB u = true := by
            rw [hskipEq2, hdom]
            rfl
          have hinv1 : rssaInv domB F (Val.vreg x) osId storeBB (done ++ [u])
              lbi si := by
            rcases hinvD with ⟨h1, h2, h3⟩ | ⟨s0, h1, h2, h3⟩
            · refine Or.inl ⟨h1, h2, ?_⟩
              intro w hw hwos
              rcases List.mem_append.mp hw with hw | hw
              · exact h3 w hw hwos
              · rcases List.mem_singleton.mp hw with rfl
                exact hub
            · refine Or.inr ⟨s0, h1, h2, ?_⟩
              intro id hid
              rw [rewr_snoc_skip hskipT] at hid
              exact h3 id hid
          obtain ⟨lbi2, si2, hih⟩ := ih (done ++ [u])
            { info1 with UsingBlocks := info1.UsingBlocks ++ [u.2.1] } lbi si
            husers' hinv1
          rw [rewr_snoc_skip hskipT] at hih
          refine ⟨lbi2, si2, ?_⟩
          rw [skipb_cons_skip huid hskipT, hassoc,
            List.append_cons info1.UsingBlocks u.2.1
              (rssaSkippedBlocks domB F (Val.vreg x) osId storeBB rem')]
          exact hih
        | true =>
          simp only [Bool.not_true, Bool.false_eq_true, if_false]
          have hskipF : rssaSkip domB F (Val.vreg x) osId storeBB u = false := by
            rw [hskipEq2, hdom]
            rfl
          have hstep := rssaRewrite_step domB F aid osId aty (Val.vreg x)
            storeBB hnd halloca hstoreF hloads hsv
              (rssaRewrittenIds domB F (Val.vreg x) osId storeBB done)
              (rewr_hD hsubdone) u.1 lty
            ⟨u, humem, rfl, huid⟩ lbi
          rw [hstep]
          simp only [Option.bind_eq_bind, Option.some_bind]
          have hinv1 : rssaInv domB F (Val.vreg x) osId storeBB (done ++ [u])
              (lbiDelete lbi u.1) si := by
            rcases hinvD with ⟨h1, h2, h3⟩ | ⟨s0, h1, h2, h3⟩
            · refine Or.inl ⟨h1, ?_, ?_⟩
              · rw [h2]
                rfl
              · intro w hw hwos
                rcases List.mem_append.mp hw with hw | hw
                · exact h3 w hw hwos
                · rcases List.mem_singleton.mp hw with rfl
                  exact hub
            · refine Or.inr ⟨s0, h1, h2, ?_⟩
              intro id hid
              rw [rewr_snoc_rw huid hskipF] at hid
              obtain ⟨hid1, hid2⟩ := contains_append_false hid
              have hidu : id ≠ u.1 := by simpa using hid2
              rw [lbiDelete_lookup_ne hidu]
              exact h3 id hid1
          obtain ⟨lbi2, si2, hih⟩ := ih (done ++ [u]) info1 (lbiDelete lbi u.1)
            si husers' hinv1
          rw [rewr_snoc_rw huid hskipF] at hih
          refine ⟨lbi2, si2, ?_⟩
          rw [skipb_cons_not (Or.inr hskipF), hassoc]
          exact hih

theorem normForm_start (F : Func) (domB : BId → BId → Bool) (sv : Val)
    (osId : IId) (storeBB : BId) :
    normForm F (rssaRewrittenIds domB F sv osId storeBB [])
      (multiSubst (rssaRewrittenIds domB F sv osId storeBB []) sv) = F := by
  have h1 : rssaRewrittenIds domB F sv osId storeBB [] = [] := rfl
  rw [h1, multiSubst_nil, normForm_nil]

/-- The full user sweep of `rewriteSingleStoreAlloca`, for any stored
value. -/
theorem rssaLoop_spec_all (domB : BId → BId → Bool) (F : Func)
    (aid osId : IId) (aty : Ty) (sv : Val) (storeBB : BId) (info1 : AllocaInfo)
    (hnd : F.ids.Nodup)
    (hbnd : (F.blocks.map (fun b => b.bid)).Nodup)
    (halloca : F.findInstr aid = some (Instr.alloca aty))
    (hstoreF : F.findInstr osId = some (Instr.store sv (Val.vreg aid)))
    (hstoreB : F.parentOf osId = some storeBB)
    (hloads : ∀ u ∈ F.usersOf (Val.vreg aid), u.1 ≠ osId →
      ∃ lty, u.2.2 = Instr.load lty (Val.vreg aid))
    (hsv : ∀ u ∈ F.usersOf (Val.vreg aid), sv ≠ Val.vreg u.1)
    (hsvA : ∀ a2, sv = Val.vreg a2 → F.isAllocaId a2 = false) :
    ∃ lbi2 si2,
      rssaLoop domB osId
          (match sv with | Val.vreg _ => false | _ => true) storeBB
          (F.usersOf (Val.vreg aid)) F info1 [] none =
        some (normForm F
            (rssaRewrittenIds domB F sv osId storeBB (F.usersOf (Val.vreg aid)))
            (multiSubst
              (rssaRewrittenIds domB F sv osId storeBB (F.usersOf (Val.vreg aid)))
              sv),
          { info1 with UsingBlocks := info1.UsingBlocks ++
            rssaSkippedBlocks domB F sv osId storeBB (F.usersOf (Val.vreg aid)) },
          lbi2, si2) := by
  cases hsveq : sv
  case vreg x =>
    subst hsveq
    have hinv0 : rssaInv domB F (Val.vreg x) osId storeBB [] [] none :=
      Or.inl ⟨rfl, rfl, by intro w hw hwo; cases hw⟩
    obtain ⟨lbi2, si2, hloop⟩ := rssaLoop_spec_local domB F aid osId x aty
      storeBB hnd hbnd halloca hstoreF hstoreB hloads hsv (hsvA x rfl)
      (F.usersOf (Val.vreg aid)) [] info1 [] none (List.nil_append _).symm hinv0
    rw [normForm_start, List.nil_append] at hloop
    exact ⟨lbi2, si2, hloop⟩
  all_goals subst hsveq
  all_goals refine ⟨[], none, ?_⟩
  all_goals
    have hloop := rssaLoop_spec_global domB F aid osId aty _ storeBB hnd halloca
      hstoreF hloads hsv (fun y h => Val.noConfusion h)
      (F.usersOf (Val.vreg aid)) [] info1 (List.nil_append _).symm
  all_goals rw [normForm_start, List.nil_append] at hloop
  all_goals exact hloop

/-- Claim C3: with a single store, the fast path rewrites a load to the
stored value exactly when the store dominates it — unconditionally when the
stored value is not an instruction, by intra-block instruction index inside
the store's block, by block dominance elsewhere, with poison substituted
when the stored value is the load itself — records every skipped load's
block in `UsingBlocks`, and erases the store and the cell (returning full
success) iff no load was skipped. -/
theorem c3_single_store_rewrite (domB : BId → BId → Bool) (F : Func)
    (aid osId : IId) (aty : Ty) (sv : Val) (storeBB : BId) (info : AllocaInfo)
    (hnd : F.ids.Nodup)
    (hbnd : (F.blocks.map (fun b => b.bid)).Nodup)
    (halloca : F.findInstr aid = some (Instr.alloca aty))
    (hos : info.OnlyStore = some osId)
    (hstoreF : F.findInstr osId = some (Instr.store sv (Val.vreg aid)))
    (hstoreB : F.parentOf osId = some storeBB)
    (hloads : ∀ u ∈ F.usersOf (Val.vreg aid), u.1 ≠ osId →
      ∃ lty, u.2.2 = Instr.load lty (Val.vreg aid))
    (hsv : ∀ u ∈ F.usersOf (Val.vreg aid), sv ≠ Val.vreg u.1)
    (hsvA : ∀ a2, sv = Val.vreg a2 → F.isAllocaId a2 = false) :
    (∃ lbi1,
      rewriteSingleStoreAlloca domB F aid info [] =
        some (
          (if (rssaSkippedBlocks domB F sv osId storeBB
              (F.usersOf (Val.vreg aid))).isEmpty then
            normForm F
              (aid :: osId :: rssaRewrittenIds domB F sv osId storeBB
                (F.usersOf (Val.vreg aid)))
              (multiSubst (rssaRewrittenIds domB F sv osId storeBB
                (F.usersOf (Val.vreg aid))) sv)
          else
            normForm F
              (rssaRewrittenIds domB F sv osId storeBB
                (F.usersOf (Val.vreg aid)))
              (multiSubst (rssaRewrittenIds domB F sv osId storeBB
                (F.usersOf (Val.vreg aid))) sv)),
          { info with UsingBlocks := (rssaSkippedBlocks domB F sv osId storeBB
            (F.usersOf (Val.vreg aid))) },
          lbi1,
          (rssaSkippedBlocks domB F sv osId storeBB
            (F.usersOf (Val.vreg aid))).isEmpty)) ∧
    rewriteSingleStoreAlloca (fun _ _ => false) exPoison 1 infoP [] =
      some (exPoisonRes, { infoP with UsingBlocks := [] }, [], true) := by
  constructor
  · obtain ⟨lbi2, si2, hloop⟩ := rssaLoop_spec_all domB F aid osId aty sv
      storeBB ⟨info.DefiningBlocks, [], some osId, info.OnlyBlock,
        info.OnlyUsedInOneBlock⟩ hnd hbnd halloca hstoreF hstoreB
      hloads hsv hsvA
    by_cases hskE : (rssaSkippedBlocks domB F sv osId storeBB
        (F.usersOf (Val.vreg aid))).isEmpty = true
    · refine ⟨lbiDelete lbi2 osId, ?_⟩
      unfold rewriteSingleStoreAlloca
      simp only [hos, hstoreF, hstoreB, Option.bind_eq_bind, Option.some_bind]
      rw [hloop]
      simp only [Option.bind_eq_bind, Option.some_bind, List.nil_append]
      rw [hskE]
      simp only [Bool.not_true, Bool.false_eq_true, if_false, eq_self_iff_true,
        if_true]
      rw [normForm_erase, normForm_erase]
    · refine ⟨lbi2, ?_⟩
      have hskF : (rssaSkippedBlocks domB F sv osId storeBB
          (F.usersOf (Val.vreg aid))).isEmpty = false := by
        cases h : (rssaSkippedBlocks domB F sv osId storeBB
            (F.usersOf (Val.vreg aid))).isEmpty
        · rfl
        · exact absurd h hskE
      unfold rewriteSingleStoreAlloca
      simp only [hos, hstoreF, hstoreB, Option.bind_eq_bind, Option.some_bind]
      rw [hloop]
      simp only [Option.bind_eq_bind, Option.some_bind, List.nil_append]
      rw [hskF]
      simp only [Bool.not_false, Bool.false_eq_true, if_false, eq_self_iff_true,
        if_true]
  · rfl

/-- Witness for C3 at `exSS` (one rewritten load, one skipped load). -/
theorem c3_witness :
    (∃ lbi1,
      rewriteSingleStoreAlloca exSSdom exSS 1 infoSS [] =
        some (
          (if (rssaSkippedBlocks exSSdom exSS (Val.vreg 8) 2 0
              (exSS.usersOf (Val.vreg 1))).isEmpty then
            normForm exSS
              (1 :: 2 :: rssaRewrittenIds exSSdom exSS (Val.vreg 8) 2 0
                (exSS.usersOf (Val.vreg 1)))
              (multiSubst (rssaRewrittenIds exSSdom exSS (Val.vreg 8) 2 0
                (exSS.usersOf (Val.vreg 1))) (Val.vreg 8))
          else
            normForm exSS
              (rssaRewrittenIds exSSdom exSS (Val.vreg 8) 2 0
                (exSS.usersOf (Val.vreg 1)))
              (multiSubst (rssaRewrittenIds exSSdom exSS (Val.vreg 8) 2 0
                (exSS.usersOf (Val.vreg 1))) (Val.vreg 8))),
          { infoSS with UsingBlocks := (rssaSkippedBlocks exSSdom exSS
            (Val.vreg 8) 2 0 (exSS.usersOf (Val.vreg 1))) },
          lbi1,
          (rssaSkippedBlocks exSSdom exSS (Val.vreg 8) 2 0
            (exSS.usersOf (Val.vreg 1))).isEmpty)) ∧
    rewriteSingleStoreAlloca (fun _ _ => false) exPoison 1 infoP [] =
      some (exPoisonRes, { infoP with UsingBlocks := [] }, [], true) :=
  c3_single_store_rewrite exSSdom exSS 1 2 exTy (Val.vreg 8) 0 infoSS
    (by decide) (by decide) (by decide) (by decide) (by decide) (by decide)
    (fun u hu hne => ⟨exTy,
      (show ∀ u ∈ exSS.usersOf (Val.vreg 1), u.1 ≠ 2 →
          u.2.2 = Instr.load exTy (Val.vreg 1) from by decide) u hu hne⟩)
    (by decide)
    (by intro a2 h; cases h; decide)

end SingleStoreKit

section SingleBlockKit

theorem getLast_none_nil {α : Type} :
    ∀ (l : List α), l.getLast? = none → l = [] := by
  intro l
  induction l with
  | nil => intro _; rfl
  | cons a t ih =>
    intro h
    cases t with
    | nil => rw [List.getLast?_singleton] at h; cases h
    | cons b t2 =>
      rw [List.getLast?_cons_cons] at h
      cases ih h

theorem getLast_some_mem {α : Type} :
    ∀ (l : List α) (y : α), l.getLast? = some y → y ∈ l := by
  intro l
  induction l with
  | nil => intro y h; cases h
  | cons a t ih =>
    intro y h
    cases t with
    | nil =>
      rw [List.getLast?_singleton] at h
      exact List.mem_singleton.mpr (Option.some_inj.mp h).symm
    | cons b t2 =>
      rw [List.getLast?_cons_cons] at h
      exact List.mem_cons_of_mem a (ih y h)

theorem getLast_pairwise_le {α : Type} (f : α → Nat) :
    ∀ (l : List α), List.Pairwise (fun a b => f a ≤ f b) l →
      ∀ y, l.getLast? = some y → ∀ x ∈ l, f x ≤ f y := by
  intro l
  induction l with
  | nil => intro _ y hy; cases hy
  | cons a t ih =>
    intro hp y hy x hx
    cases t with
    | nil =>
      rw [List.getLast?_singleton] at hy
      have hay : a = y := Option.some_inj.mp hy
      rcases List.mem_singleton.mp hx with rfl
      rw [← hay]
    | cons b t2 =>
      rw [List.getLast?_cons_cons] at hy
      rcases List.mem_cons.mp hx with rfl | hx2
      · exact (List.pairwise_cons.mp hp).1 y (getLast_some_mem _ y hy)
      · exact ih (List.pairwise_cons.mp hp).2 y hy x hx2

theorem insertByIdx_mem (p : Nat × IId) :
    ∀ (l : List (Nat × IId)) (b : Nat × IId),
      b ∈ insertByIdx p l → b = p ∨ b ∈ l := by
  intro l
  induction l with
  | nil =>
    intro b hb
    exact Or.inl (List.mem_singleton.mp hb)
  | cons q t ih =>
    intro b hb
    simp only [insertByIdx] at hb
    by_cases hlt : p.1 < q.1
    · rw [if_pos hlt] at hb
      rcases List.mem_cons.mp hb with rfl | hb2
      · exact Or.inl rfl
      · exact Or.inr hb2
    · rw [if_neg hlt] at hb
      rcases List.mem_cons.mp hb with rfl | hb2
      · exact Or.inr (List.mem_cons_self _ _)
      · rcases ih b hb2 with h | h
        · exact Or.inl h
        · exact Or.inr (List.mem_cons_of_mem q h)

theorem insertByIdx_pairwise (p : Nat × IId) :
    ∀ (l : List (Nat × IId)), List.Pairwise (fun a b => a.1 ≤ b.1) l →
      List.Pairwise (fun a b => a.1 ≤ b.1) (insertByIdx p l) := by
  intro l
  induction l with
  | nil => intro _; exact List.pairwise_singleton _ _
  | cons q t ih =>
    intro hp
    obtain ⟨hq, ht⟩ := List.pairwise_cons.mp hp
    simp only [insertByIdx]
    by_cases hlt : p.1 < q.1
    · rw [if_pos hlt]
      refine List.Pairwise.cons ?_ hp
      intro b hb
      rcases List.mem_cons.mp hb with rfl | hb2
      · exact Nat.le_of_lt hlt
      · exact Nat.le_trans (Nat.le_of_lt hlt) (hq b hb2)
    · rw [if_neg hlt]
      refine List.Pairwise.cons ?_ (ih ht)
      intro b hb
      rcases insertByIdx_mem p t b hb with rfl | hb2
      · exact Nat.le_of_not_lt hlt
      · exact hq b hb2

theorem sortByIdx_pairwise :
    ∀ (l : List (Nat × IId)),
      List.Pairwise (fun a b => a.1 ≤ b.1) (sortByIdx l) := by
  intro l
  induction l with
  | nil => exact List.Pairwise.nil
  | cons p t ih => exact insertByIdx_pairwise p (sortByIdx t) ih

theorem eraseStoreUsers_empty (aid : IId) :
    ∀ (n : Nat) (F : Func) (lbi : LBI) (F2 : Func) (lbi3 : LBI),
      eraseStoreUsers n F lbi aid = some (F2, lbi3) →
      (F2.usersOf (Val.vreg aid)).isEmpty = true := by
  intro n
  induction n with
  | zero =>
    intro F lbi F2 lbi3 h
    simp only [eraseStoreUsers] at h
    by_cases he : (F.usersOf (Val.vreg aid)).isEmpty = true
    · rw [if_pos he] at h
      have hF : F = F2 := congrArg Prod.fst (Option.some_inj.mp h)
      rw [← hF]
      exact he
    · rw [if_neg he] at h
      cases h
  | succ m ih =>
    intro F lbi F2 lbi3 h
    simp only [eraseStoreUsers] at h
    cases hlast : (F.usersOf (Val.vreg aid)).getLast? with
    | none =>
      rw [hlast] at h
      have hF : F = F2 := congrArg Prod.fst (Option.some_inj.mp h)
      have hnil : F.usersOf (Val.vreg aid) = [] := getLast_none_nil _ hlast
      rw [← hF, hnil]
      rfl
    | some u =>
      cases hins : u.2.2 with
      | store v q =>
        simp only [hlast, hins] at h
        exact ih _ _ _ _ h
      | alloca ty => simp only [hlast, hins] at h; cases h
      | load ty pp => simp only [hlast, hins] at h; cases h
      | phi ty inc => simp only [hlast, hins] at h; cases h
      | other ty ops => simp only [hlast, hins] at h; cases h
      | term ops ss => simp only [hlast, hins] at h; cases h

/-- A load with no store at all: replace its uses with undef and erase it. -/
theorem psba_load_no_store (F : Func) (u : IId × BId × Instr)
    (rest : List (IId × BId × Instr)) (lbi lbi1 : LBI) (lty : Ty) (p : Val)
    (li : Nat)
    (hu : u.2.2 = Instr.load lty p)
    (hfind : F.findInstr u.1 = some (Instr.load lty p))
    (hgii : getInstructionIndex F lbi u.1 = some (li, lbi1)) :
    psbaLoadsLoop [] (u :: rest) F lbi =
      psbaLoadsLoop [] rest
        ((F.rauw (Val.vreg u.1) (Val.vundef lty)).eraseInstr u.1)
        (lbiDelete lbi1 u.1) := by
  simp only [psbaLoadsLoop]
  rw [hu]
  have hbe : (Val.vundef lty == Val.vreg u.1) = false := by simp
  simp only [hfind, hgii, Option.bind_eq_bind, Option.some_bind,
    List.filter_nil, List.isEmpty_nil, eq_self_iff_true, if_true, hbe,
    Bool.false_eq_true, if_false]

/-- A load with stores but none preceding it: the sweep aborts. -/
theorem psba_load_abort (F : Func) (u : IId × BId × Instr)
    (rest : List (IId × BId × Instr)) (stores : List (Nat × IId))
    (lbi lbi1 : LBI) (lty : Ty) (p : Val) (li : Nat)
    (hu : u.2.2 = Instr.load lty p)
    (hfind : F.findInstr u.1 = some (Instr.load lty p))
    (hgii : getInstructionIndex F lbi u.1 = some (li, lbi1))
    (hbefore : (stores.filter (fun r => r.1 < li)).isEmpty = true)
    (hstores : stores.isEmpty = false) :
    psbaLoadsLoop stores (u :: rest) F lbi = some (false, F, lbi1) := by
  simp only [psbaLoadsLoop]
  rw [hu]
  simp only [hfind, hgii, Option.bind_eq_bind, Option.some_bind, hbefore,
    eq_self_iff_true, if_true, hstores, Bool.false_eq_true, if_false]

/-- A load with a preceding store: replace it with the value of the last
store of smaller index (poison if that value is the load itself); with the
store list sorted, that store is the nearest preceding one. -/
theorem psba_load_rewrite (F : Func) (u : IId × BId × Instr)
    (rest : List (IId × BId × Instr)) (stores : List (Nat × IId))
    (lbi lbi1 : LBI) (lty : Ty) (p : Val) (li : Nat) (pr : Nat × IId)
    (sv q : Val)
    (hu : u.2.2 = Instr.load lty p)
    (hfind : F.findInstr u.1 = some (Instr.load lty p))
    (hgii : getInstructionIndex F lbi u.1 = some (li, lbi1))
    (hlast : (stores.filter (fun r => r.1 < li)).getLast? = some pr)
    (hst : F.findInstr pr.2 = some (Instr.store sv q)) :
    (psbaLoadsLoop stores (u :: rest) F lbi =
      psbaLoadsLoop stores rest
        ((F.rauw (Val.vreg u.1)
          (if sv == Val.vreg u.1 then Val.vpoison lty else sv)).eraseInstr u.1)
        (lbiDelete lbi1 u.1)) ∧
    (List.Pairwise (fun a b => a.1 ≤ b.1) stores →
      ∀ r ∈ stores, r.1 < li → r.1 ≤ pr.1) := by
  constructor
  · simp only [psbaLoadsLoop]
    rw [hu]
    have hne : (stores.filter (fun r => r.1 < li)).isEmpty = false := by
      cases hfe : stores.filter (fun r => r.1 < li) with
      | nil => rw [hfe] at hlast; cases hlast
      | cons a t => rfl
    simp only [hfind, hgii, Option.bind_eq_bind, Option.some_bind, hne,
      Bool.false_eq_true, if_false, hlast, hst]
  · intro hpw r hr hlt
    have hpwf : List.Pairwise (fun a b => a.1 ≤ b.1)
        (stores.filter (fun r2 => r2.1 < li)) :=
      List.Pairwise.sublist (List.filter_sublist _) hpw
    have hrf : r ∈ stores.filter (fun r2 => r2.1 < li) :=
      List.mem_filter.mpr ⟨hr, by simpa using hlt⟩
    exact getLast_pairwise_le (fun a => a.1) _ hpwf pr hlast r hrf

/-- An aborted load sweep makes the whole single-block rewrite return
`false` with the state reduced so far. -/
theorem psba_abort_prop (F : Func) (aid : IId) (lbi : LBI)
    (stores0 : List (Nat × IId)) (lbi1 : LBI) (F1 : Func) (lbi2 : LBI)
    (hcol : psbaCollectStores F (F.usersOf (Val.vreg aid)) lbi [] =
      some (stores0, lbi1))
    (hloop : psbaLoadsLoop (sortByIdx stores0) (F.usersOf (Val.vreg aid)) F
      lbi1 = some (false, F1, lbi2)) :
    promoteSingleBlockAlloca F aid lbi = some (F1, lbi2, false) := by
  unfold promoteSingleBlockAlloca
  simp only [hcol, Option.bind_eq_bind, Option.some_bind, hloop,
    Bool.not_false, eq_self_iff_true, if_true]

/-- A successful load sweep: the remaining store users and the cell itself
are erased and the rewrite returns `true`. -/
theorem psba_success (F : Func) (aid : IId) (lbi : LBI)
    (stores0 : List (Nat × IId)) (lbi1 : LBI) (F1 : Func) (lbi2 : LBI)
    (F2 : Func) (lbi3 : LBI)
    (hcol : psbaCollectStores F (F.usersOf (Val.vreg aid)) lbi [] =
      some (stores0, lbi1))
    (hloop : psbaLoadsLoop (sortByIdx stores0) (F.usersOf (Val.vreg aid)) F
      lbi1 = some (true, F1, lbi2))
    (hers : eraseStoreUsers (F1.usersOf (Val.vreg aid)).length F1 lbi2 aid =
      some (F2, lbi3)) :
    promoteSingleBlockAlloca F aid lbi = some (F2.eraseInstr aid, lbi3, true) ∧
    (F2.usersOf (Val.vreg aid)).isEmpty = true ∧
    (F2.eraseInstr aid).findInstr aid = none := by
  refine ⟨?_, eraseStoreUsers_empty aid _ F1 lbi2 F2 lbi3 hers,
    findInstr_eraseInstr_self F2 aid⟩
  unfold promoteSingleBlockAlloca
  simp only [hcol, Option.bind_eq_bind, Option.some_bind, hloop,
    Bool.not_true, Bool.false_eq_true, if_false, hers]

/-- Claim C4: in the single-block rewrite, a load with no store at all has
its uses replaced by an undef marker of its type and is erased; a load not
preceded by any store (while stores exist) makes the procedure return
`false`; any other load is replaced by the value of the nearest preceding
store, with poison substituted when that value is the load itself; and on
success the remaining store users and the cell are erased and `true` is
returned. -/
theorem c4_single_block_rewrite :
    (∀ (F : Func) (u : IId × BId × Instr) (rest : List (IId × BId × Instr))
      (lbi lbi1 : LBI) (lty : Ty) (p : Val) (li : Nat),
      u.2.2 = Instr.load lty p →
      F.findInstr u.1 = some (Instr.load lty p) →
      getInstructionIndex F lbi u.1 = some (li, lbi1) →
      psbaLoadsLoop [] (u :: rest) F lbi =
        psbaLoadsLoop [] rest
          ((F.rauw (Val.vreg u.1) (Val.vundef lty)).eraseInstr u.1)
          (lbiDelete lbi1 u.1)) ∧
    (∀ (F : Func) (u : IId × BId × Instr) (rest : List (IId × BId × Instr))
      (stores : List (Nat × IId)) (lbi lbi1 : LBI) (lty : Ty) (p : Val)
      (li : Nat),
      u.2.2 = Instr.load lty p →
      F.findInstr u.1 = some (Instr.load lty p) →
      getInstructionIndex F lbi u.1 = some (li, lbi1) →
      (stores.filter (fun r => r.1 < li)).isEmpty = true →
      stores.isEmpty = false →
      psbaLoadsLoop stores (u :: rest) F lbi = some (false, F, lbi1)) ∧
    (∀ (F : Func) (u : IId × BId × Instr) (rest : List (IId × BId × Instr))
      (stores : List (Nat × IId)) (lbi lbi1 : LBI) (lty : Ty) (p : Val)
      (li : Nat) (pr : Nat × IId) (sv q : Val),
      u.2.2 = Instr.load lty p →
      F.findInstr u.1 = some (Instr.load lty p) →
      getInstructionIndex F lbi u.1 = some (li, lbi1) →
      (stores.filter (fun r => r.1 < li)).getLast? = some pr →
      F.findInstr pr.2 = some (Instr.store sv q) →
      (psbaLoadsLoop stores (u :: rest) F lbi =
        psbaLoadsLoop stores rest
          ((F.rauw (Val.vreg u.1)
            (if sv == Val.vreg u.1 then Val.vpoison lty else sv)).eraseInstr
            u.1)
          (lbiDelete lbi1 u.1)) ∧
      (List.Pairwise (fun a b => a.1 ≤ b.1) stores →
        ∀ r ∈ stores, r.1 < li → r.1 ≤ pr.1)) ∧
    (∀ (l : List (Nat × IId)),
      List.Pairwise (fun a b => a.1 ≤ b.1) (sortByIdx l)) ∧
    (∀ (F : Func) (aid : IId) (lbi : LBI) (stores0 : List (Nat × IId))
      (lbi1 : LBI) (F1 : Func) (lbi2 : LBI),
      psbaCollectStores F (F.usersOf (Val.vreg aid)) lbi [] =
        some (stores0, lbi1) →
      psbaLoadsLoop (sortByIdx stores0) (F.usersOf (Val.vreg aid)) F lbi1 =
        some (false, F1, lbi2) →
      promoteSingleBlockAlloca F aid lbi = some (F1, lbi2, false)) ∧
    (∀ (F : Func) (aid : IId) (lbi : LBI) (stores0 : List (Nat × IId))
      (lbi1 : LBI) (F1 : Func) (lbi2 : LBI) (F2 : Func) (lbi3 : LBI),
      psbaCollectStores F (F.usersOf (Val.vreg aid)) lbi [] =
        some (stores0, lbi1) →
      psbaLoadsLoop (sortByIdx stores0) (F.usersOf (Val.vreg aid)) F lbi1 =
        some (true, F1, lbi2) →
      eraseStoreUsers (F1.usersOf (Val.vreg aid)).length F1 lbi2 aid =
        some (F2, lbi3) →
      promoteSingleBlockAlloca F aid lbi =
        some (F2.eraseInstr aid, lbi3, true) ∧
      (F2.usersOf (Val.vreg aid)).isEmpty = true ∧
      (F2.eraseInstr aid).findInstr aid = none) :=
  ⟨psba_load_no_store, psba_load_abort, psba_load_rewrite, sortByIdx_pairwise,
    psba_abort_prop, psba_success⟩

/-- Witness for C4: the undef case on `exSB0`, the abort case on `exSB0`
with a phantom store list and on `exAb` end to end, the nearest-store and
poison case on `exPoison`, and the success case on `exSB`. -/
theorem c4_witness :
    (psbaLoadsLoop [] [(2, 0, Instr.load exTy (Val.vreg 1))] exSB0 [] =
      psbaLoadsLoop [] []
        ((exSB0.rauw (Val.vreg 2) (Val.vundef exTy)).eraseInstr 2)
        (lbiDelete [(2, 0)] 2)) ∧
    (psbaLoadsLoop [(5, 9)] [(2, 0, Instr.load exTy (Val.vreg 1))] exSB0 [] =
      some (false, exSB0, [(2, 0)])) ∧
    ((psbaLoadsLoop [(0, 2)] [(3, 0, Instr.load exTy (Val.vreg 1))] exPoison
        [] =
      psbaLoadsLoop [(0, 2)] []
        ((exPoison.rauw (Val.vreg 3)
          (if Val.vreg 3 == Val.vreg 3 then Val.vpoison exTy
           else Val.vreg 3)).eraseInstr 3)
        (lbiDelete [(2, 0), (3, 1)] 3)) ∧
      (List.Pairwise (fun a b => a.1 ≤ b.1) [(0, 2)] →
        ∀ r ∈ [(0, 2)], r.1 < 1 → r.1 ≤ 0)) ∧
    (List.Pairwise (fun a b => a.1 ≤ b.1) (sortByIdx [(2, 4), (0, 2)])) ∧
    (promoteSingleBlockAlloca exAb 1 [] =
      some (exAb, [(2, 0), (3, 1)], false)) ∧
    (promoteSingleBlockAlloca exSB 1 [] =
      some (exSB2.eraseInstr 1, [], true) ∧
     (exSB2.usersOf (Val.vreg 1)).isEmpty = true ∧
     (exSB2.eraseInstr 1).findInstr 1 = none) :=
  ⟨c4_single_block_rewrite.1 exSB0 (2, 0, Instr.load exTy (Val.vreg 1)) []
      [] [(2, 0)] exTy (Val.vreg 1) 0 rfl (by decide) (by decide),
   c4_single_block_rewrite.2.1 exSB0 (2, 0, Instr.load exTy (Val.vreg 1)) []
      [(5, 9)] [] [(2, 0)] exTy (Val.vreg 1) 0 rfl (by decide) (by decide)
      (by decide) (by decide),
   c4_single_block_rewrite.2.2.1 exPoison
      (3, 0, Instr.load exTy (Val.vreg 1)) [] [(0, 2)] []
      [(2, 0), (3, 1)] exTy (Val.vreg 1) 1 (0, 2) (Val.vreg 3) (Val.vreg 1)
      rfl (by decide) (by decide) (by decide) (by decide),
   c4_single_block_rewrite.2.2.2.1 [(2, 4), (0, 2)],
   c4_single_block_rewrite.2.2.2.2.1 exAb 1 [] [(1, 3)]
      [(2, 0), (3, 1)] exAb [(2, 0), (3, 1)] (by decide) (by decide),
   c4_single_block_rewrite.2.2.2.2.2 exSB 1 [] [(0, 2), (2, 4)]
      [(2, 0), (3, 1), (4, 2), (5, 3)]
      ⟨[⟨0, [(1, .alloca exTy), (2, .store (.vconst 5 exTy) (.vreg 1)),
         (4, .store (.vconst 6 exTy) (.vreg 1)),
         (6, .term [.vconst 5 exTy, .vconst 6 exTy] [])]⟩], 10⟩
      [(2, 0), (4, 2)] exSB2 [] (by decide) (by decide) (by decide)⟩

end SingleBlockKit

section SkelKit

theorem mem_instrs_of_block {F : Func} {b : Block} (hb : b ∈ F.blocks)
    {p : IId × Instr} (hp : p ∈ b.insts) : (p.1, b.bid, p.2) ∈ F.instrs := by
  unfold Func.instrs
  rw [List.mem_flatten]
  exact ⟨b.insts.map (fun q => (q.1, b.bid, q.2)), List.mem_map_of_mem _ hb,
    List.mem_map_of_mem _ hp⟩

theorem succList_mapOps (ins : Instr) (σ : Val → Val) :
    (ins.mapOps σ).succList = ins.succList := by
  cases ins <;> rfl

theorem skelStep_refl (F : Func) : skelStep F F :=
  fun hwf => ⟨hwf, ⟨rfl, rfl⟩, Nat.le_refl _, fun _ h => h⟩

theorem skelStep_comp {F G H : Func} (h1 : skelStep F G) (h2 : skelStep G H) :
    skelStep F H := by
  intro hwf
  obtain ⟨hwfG, ⟨hb1, he1⟩, hn1, hk1⟩ := h1 hwf
  obtain ⟨hwfH, ⟨hb2, he2⟩, hn2, hk2⟩ := h2 hwfG
  exact ⟨hwfH, ⟨hb2.trans hb1, he2.trans he1⟩, Nat.le_trans hn1 hn2,
    fun i hi => hk2 i (hk1 i hi)⟩

theorem flatten_map_filter {α : Type} (f : α → List (BId × BId)) (p : α → Bool)
    (l : List α) (h : ∀ x ∈ l, p x = false → f x = []) :
    ((l.filter p).map f).flatten = (l.map f).flatten := by
  induction l with
  | nil => rfl
  | cons a t ih =>
    rw [List.filter_cons]
    by_cases hp : p a = true
    · rw [if_pos hp]
      simp only [List.map_cons, List.flatten_cons]
      rw [ih (fun x hx => h x (List.mem_cons_of_mem a hx))]
    · rw [if_neg hp]
      simp only [List.map_cons, List.flatten_cons]
      rw [ih (fun x hx => h x (List.mem_cons_of_mem a hx))]
      rw [h a (List.mem_cons_self a t) (by simpa using hp), List.nil_append]

theorem edges_eraseInstr {F : Func} {i : IId} (h : nonTermId F i) :
    (F.eraseInstr i).edges = F.edges := by
  unfold Func.edges
  rw [instrs_eraseInstr]
  apply flatten_map_filter
  intro t ht hfalse
  have hti : t.1 = i := by simpa using hfalse
  rw [h t ht hti]
  rfl

theorem edges_rauw (F : Func) (o n : Val) : (F.rauw o n).edges = F.edges := by
  unfold Func.edges
  rw [instrs_rauw, List.map_map]
  congr 1
  apply List.map_congr_left
  intro t _
  simp only [Function.comp]
  rw [succList_mapOps]

theorem edges_setInstr {F : Func} {i : IId} {ins : Instr}
    (h : ∀ t ∈ F.instrs, t.1 = i → t.2.2.succList = ins.succList) :
    (F.setInstr i ins).edges = F.edges := by
  unfold Func.edges
  rw [instrs_setInstr, List.map_map]
  congr 1
  apply List.map_congr_left
  intro t ht
  simp only [Function.comp]
  by_cases hti : (t.1 == i) = true
  · rw [if_pos hti]
    have hs := h t ht (by simpa using hti)
    rw [← hs]
  · rw [if_neg hti]

theorem edges_insertPhiAtHead (F : Func) (b : BId) (pid : IId) (ty : Ty) :
    (insertPhiAtHead F b pid ty).edges = F.edges := by
  unfold Func.edges Func.instrs insertPhiAtHead
  simp only [List.map_map]
  induction F.blocks with
  | nil => rfl
  | cons blk rest ih =>
    simp only [List.map_cons, List.flatten_cons, List.map_append,
      List.flatten_append]
    rw [ih]
    congr 1
    simp only [Function.comp]
    by_cases hb : (blk.bid == b) = true
    · rw [if_pos hb]
      simp only [List.map_cons, List.flatten_cons]
      rfl
    · rw [if_neg hb]

theorem bids_rauw (F : Func) (o n : Val) : (F.rauw o n).bids = F.bids := by
  unfold Func.bids Func.rauw
  rw [List.map_map]
  apply List.map_congr_left
  intro b _
  rfl

theorem bids_eraseInstr (F : Func) (i : IId) : (F.eraseInstr i).bids = F.bids := by
  unfold Func.bids Func.eraseInstr
  rw [List.map_map]
  apply List.map_congr_left
  intro b _
  rfl

theorem bids_setInstr (F : Func) (i : IId) (ins : Instr) :
    (F.setInstr i ins).bids = F.bids := by
  unfold Func.bids Func.setInstr
  rw [List.map_map]
  apply List.map_congr_left
  intro b _
  rfl

theorem bids_insertPhi (F : Func) (b : BId) (pid : IId) (ty : Ty) :
    (insertPhiAtHead F b pid ty).bids = F.bids := by
  unfold Func.bids insertPhiAtHead
  rw [List.map_map]
  apply List.map_congr_left
  intro blk _
  simp only [Function.comp]
  split <;> rfl

theorem ids_rauw (F : Func) (o n : Val) : (F.rauw o n).ids = F.ids := by
  unfold Func.ids
  rw [instrs_rauw, List.map_map]
  apply List.map_congr_left
  intro t _
  rfl

theorem ids_setInstr (F : Func) (i : IId) (ins : Instr) :
    (F.setInstr i ins).ids = F.ids := by
  unfold Func.ids
  rw [instrs_setInstr, List.map_map]
  apply List.map_congr_left
  intro t _
  simp only [Function.comp]
  split <;> rfl

theorem ids_eraseInstr (F : Func) (i : IId) :
    (F.eraseInstr i).ids = F.ids.filter (fun j => j != i) := by
  unfold Func.ids
  rw [instrs_eraseInstr, filter_map_comm]

theorem kind_of_findInstr {F : Func} (hnd : F.ids.Nodup) {i : IId} {ins : Instr}
    (h : F.findInstr i = some ins) :
    ∀ t ∈ F.instrs, t.1 = i → t.2.2 = ins := by
  intro t ht hti
  have hfind := find_eq_of_nodup_ids F.instrs hnd t ht
  rw [hti] at hfind
  unfold Func.findInstr at h
  rw [hfind] at h
  simpa using h

theorem nonTermId_of_findInstr {F : Func} (hnd : F.ids.Nodup) {i : IId}
    {ins : Instr} (h : F.findInstr i = some ins) (hins : ins.succList = []) :
    nonTermId F i := by
  intro t ht hti
  rw [kind_of_findInstr hnd h t ht hti]
  exact hins

theorem nonTermId_of_absent {F : Func} {i : IId} (h : F.findInstr i = none) :
    nonTermId F i := by
  intro t ht hti
  unfold Func.findInstr at h
  rw [Option.map_eq_none', List.find?_eq_none] at h
  exact absurd (show (t.1 == i) = true by simp [hti]) (h t ht)

theorem nonTermId_rauw {F : Func} {o n : Val} {j : IId} (h : nonTermId F j) :
    nonTermId (F.rauw o n) j := by
  intro t ht hti
  obtain ⟨ins₀, hmem, heq⟩ := mem_instrs_rauw ht
  rw [heq, succList_mapOps]
  exact h _ hmem hti

theorem nonTermId_erase {F : Func} {k j : IId} (h : nonTermId F j) :
    nonTermId (F.eraseInstr k) j := by
  intro t ht hti
  exact h t (mem_instrs_eraseInstr ht).1 hti

theorem nonTermId_set {F : Func} {k : IId} {ins : Instr} {j : IId}
    (hins : ins.succList = []) (h : nonTermId F j) :
    nonTermId (F.setInstr k ins) j := by
  intro t ht hti
  rw [instrs_setInstr] at ht
  obtain ⟨t₀, ht₀, heq⟩ := List.mem_map.mp ht
  by_cases hk : (t₀.1 == k) = true
  · rw [if_pos hk] at heq
    rw [← heq]
    exact hins
  · rw [if_neg hk] at heq
    rw [← heq]
    exact h t₀ ht₀ (by rw [heq]; exact hti)

theorem mem_instrs_insertPhi {F : Func} {b : BId} {pid : IId} {ty : Ty}
    {t : IId × BId × Instr} (ht : t ∈ (insertPhiAtHead F b pid ty).instrs) :
    (t.1 = pid ∧ t.2.2 = Instr.phi ty []) ∨ t ∈ F.instrs := by
  unfold Func.instrs insertPhiAtHead at ht
  rw [List.map_map, List.mem_flatten] at ht
  obtain ⟨l, hl, hmem⟩ := ht
  rw [List.mem_map] at hl
  obtain ⟨blk, hblk, rfl⟩ := hl
  simp only [Function.comp] at hmem
  by_cases hb : (blk.bid == b) = true
  · rw [if_pos hb] at hmem
    simp only [List.map_cons] at hmem
    rcases List.mem_cons.mp hmem with heq | hmem2
    · left
      rw [heq]
      exact ⟨rfl, rfl⟩
    · right
      obtain ⟨p, hp, rfl⟩ := List.mem_map.mp hmem2
      exact mem_instrs_of_block hblk hp
  · rw [if_neg hb] at hmem
    right
    obtain ⟨p, hp, rfl⟩ := List.mem_map.mp hmem
    exact mem_instrs_of_block hblk hp

theorem nonTermId_insertPhi {F : Func} {b : BId} {pid : IId} {ty : Ty} {j : IId}
    (h : nonTermId F j) : nonTermId (insertPhiAtHead F b pid ty) j := by
  intro t ht hti
  rcases mem_instrs_insertPhi ht with ⟨_, hphi⟩ | hmem
  · rw [hphi]
    rfl
  · exact h t hmem hti

theorem ids_insertPhi_cases {F : Func} {b : BId} {pid : IId} {ty : Ty} {j : IId}
    (hj : j ∈ (insertPhiAtHead F b pid ty).ids) : j = pid ∨ j ∈ F.ids := by
  unfold Func.ids at hj ⊢
  rw [List.mem_map] at hj
  obtain ⟨t, ht, rfl⟩ := hj
  rcases mem_instrs_insertPhi ht with ⟨hid, _⟩ | hmem
  · exact Or.inl hid
  · exact Or.inr (List.mem_map_of_mem _ hmem)

theorem insertPhi_go (b : BId) (pid : IId) (ty : Ty) :
    ∀ (bs : List Block), (bs.map (fun blk => blk.bid)).Nodup →
      ((bs.map (fun blk =>
          if (blk.bid == b) = true then
            Block.mk blk.bid ((pid, Instr.phi ty []) :: blk.insts)
          else blk)).map (fun blk =>
            blk.insts.map (fun p => (p.1, blk.bid, p.2)))).flatten.map
        (fun t => t.1) =
      ((bs.map (fun blk =>
          blk.insts.map (fun p => (p.1, blk.bid, p.2)))).flatten.map
        (fun t => t.1)) ∨
      (∃ l1 l2,
        ((bs.map (fun blk =>
            blk.insts.map (fun p => (p.1, blk.bid, p.2)))).flatten.map
          (fun t => t.1)) = l1 ++ l2 ∧
        ((bs.map (fun blk =>
            if (blk.bid == b) = true then
              Block.mk blk.bid ((pid, Instr.phi ty []) :: blk.insts)
            else blk)).map (fun blk =>
              blk.insts.map (fun p => (p.1, blk.bid, p.2)))).flatten.map
          (fun t => t.1) = l1 ++ pid :: l2) := by
  intro bs
  induction bs with
  | nil => intro _; exact Or.inl rfl
  | cons blk rest ih =>
    intro hbnd
    rw [List.map_cons, List.nodup_cons] at hbnd
    obtain ⟨hhead, htail⟩ := hbnd
    simp only [List.map_cons, List.flatten_cons, List.map_append]
    by_cases hb : (blk.bid == b) = true
    · rw [if_pos hb]
      have hrest : rest.map (fun blk2 =>
          if (blk2.bid == b) = true then
            Block.mk blk2.bid ((pid, Instr.phi ty []) :: blk2.insts)
          else blk2) = rest.map (fun x => x) := by
        apply List.map_congr_left
        intro blk2 hblk2
        have hne : (blk2.bid == b) = false := by
          have hbeq : blk.bid = b := by simpa using hb
          simp only [beq_eq_false_iff_ne, ne_eq]
          intro he
          apply hhead
          rw [← hbeq] at he
          rw [← he]
          exact List.mem_map_of_mem _ hblk2
        rw [hne]
        simp only [Bool.false_eq_true, if_false]
      rw [hrest, List.map_id']
      refine Or.inr ⟨[], _, rfl, ?_⟩
      simp only [List.map_cons, List.nil_append]
      rfl
    · rw [if_neg hb]
      rcases ih htail with heq | ⟨l1, l2, h1, h2⟩
      · left
        rw [heq]
      · right
        refine ⟨(blk.insts.map (fun p => (p.1, blk.bid, p.2))).map
          (fun t => t.1) ++ l1, l2, ?_, ?_⟩
        · rw [h1, List.append_assoc]
        · rw [h2, List.append_assoc]

theorem ids_insertPhi_decomp {F : Func} {b : BId} {pid : IId} {ty : Ty}
    (hbnd : F.bids.Nodup) :
    (insertPhiAtHead F b pid ty).ids = F.ids ∨
    ∃ l1 l2, F.ids = l1 ++ l2 ∧
      (insertPhiAtHead F b pid ty).ids = l1 ++ pid :: l2 := by
  unfold Func.bids at hbnd
  have h := insertPhi_go b pid ty F.blocks hbnd
  unfold Func.ids Func.instrs insertPhiAtHead
  exact h

theorem wf_insertPhi {F : Func} {b : BId} {ty : Ty} (hwf : wfF F) :
    wfF (insertPhiAtHead F b F.nextId ty) := by
  obtain ⟨hnd, hfr, hbnd⟩ := hwf
  refine ⟨?_, ?_, ?_⟩
  · rcases @ids_insertPhi_decomp F b F.nextId ty hbnd with
      heq | ⟨l1, l2, h1, h2⟩
    · rw [heq]
      exact hnd
    · rw [h2, List.nodup_middle, ← h1, List.nodup_cons]
      refine ⟨?_, hnd⟩
      intro hc
      exact absurd (hfr _ hc) (Nat.lt_irrefl _)
  · intro j hj
    rcases ids_insertPhi_cases hj with rfl | hjm
    · exact Nat.lt_succ_self _
    · exact Nat.lt_succ_of_lt (hfr j hjm)
  · rw [bids_insertPhi]
    exact hbnd

theorem skelStep_rauw (F : Func) (o n : Val) : skelStep F (F.rauw o n) := by
  intro hwf
  obtain ⟨hnd, hfr, hbnd⟩ := hwf
  refine ⟨⟨?_, ?_, ?_⟩, ⟨bids_rauw F o n, edges_rauw F o n⟩, Nat.le_refl _,
    fun i => nonTermId_rauw⟩
  · rw [ids_rauw]
    exact hnd
  · rw [ids_rauw]
    exact hfr
  · rw [bids_rauw]
    exact hbnd

theorem skelStep_erase {F : Func} {i : IId} (h : nonTermId F i) :
    skelStep F (F.eraseInstr i) := by
  intro hwf
  obtain ⟨hnd, hfr, hbnd⟩ := hwf
  refine ⟨⟨?_, ?_, ?_⟩, ⟨bids_eraseInstr F i, edges_eraseInstr h⟩, Nat.le_refl _,
    fun j => nonTermId_erase⟩
  · rw [ids_eraseInstr]
    exact hnd.filter _
  · intro j hj
    rw [ids_eraseInstr] at hj
    exact hfr j (List.mem_of_mem_filter hj)
  · rw [bids_eraseInstr]
    exact hbnd

theorem skelStep_set {F : Func} {i : IId} {ins : Instr}
    (hins : ins.succList = []) (h : nonTermId F i) :
    skelStep F (F.setInstr i ins) := by
  intro hwf
  obtain ⟨hnd, hfr, hbnd⟩ := hwf
  refine ⟨⟨?_, ?_, ?_⟩, ⟨bids_setInstr F i ins,
    edges_setInstr (fun t ht hti => by rw [h t ht hti, hins])⟩, Nat.le_refl _,
    fun j => nonTermId_set hins⟩
  · rw [ids_setInstr]
    exact hnd
  · rw [ids_setInstr]
    exact hfr
  · rw [bids_setInstr]
    exact hbnd

theorem skelStep_insert (F : Func) (b : BId) (ty : Ty) :
    skelStep F (insertPhiAtHead F b F.nextId ty) := by
  intro hwf
  exact ⟨wf_insertPhi hwf, ⟨bids_insertPhi F b F.nextId ty,
    edges_insertPhiAtHead F b F.nextId ty⟩, Nat.le_succ _,
    fun j => nonTermId_insertPhi⟩

theorem bind_eq_some {α β : Type} {o : Option α} {f : α → Option β} {b : β}
    (h : o.bind f = some b) : ∃ a, o = some a ∧ f a = some b := by
  cases o with
  | none => cases h
  | some a => exact ⟨a, rfl, h⟩

theorem skelStep_erase_cond {F : Func} {i : IId}
    (hcond : wfF F → nonTermId F i) : skelStep F (F.eraseInstr i) :=
  fun hwf => skelStep_erase (hcond hwf) hwf

theorem skelStep_erase_chain {F G : Func} {i : IId} (h1 : skelStep F G)
    (hcond : wfF F → nonTermId G i) : skelStep F (G.eraseInstr i) :=
  fun hwf => skelStep_comp h1 (skelStep_erase (hcond hwf)) hwf

theorem skelStep_set_cond {F : Func} {i : IId} {ins : Instr}
    (hins : ins.succList = []) (hcond : wfF F → nonTermId F i) :
    skelStep F (F.setInstr i ins) :=
  fun hwf => skelStep_set hins (hcond hwf) hwf

/-- The replace-and-erase tail of the single-store rewrite keeps the CFG. -/
theorem rssaRewrite_skel {osId uid : IId} {lty : Ty} {F F' : Func}
    {lbi lbi' : LBI}
    (hld : ∃ lty2 p, F.findInstr uid = some (Instr.load lty2 p))
    (h : rssaRewrite osId uid lty F lbi = some (F', lbi')) :
    skelStep F F' := by
  obtain ⟨lty2, p, hfind⟩ := hld
  unfold rssaRewrite at h
  cases hos : F.findInstr osId with
  | none =>
    simp only [hos, Option.bind_eq_bind, Option.none_bind] at h; cases h
  | some ins =>
    cases ins with
    | store sv q =>
      simp only [hos, Option.bind_eq_bind, Option.some_bind] at h
      obtain rfl : F' = (F.rauw (Val.vreg uid)
          (if sv == Val.vreg uid then Val.vpoison lty else sv)).eraseInstr uid :=
        (congrArg Prod.fst (Option.some_inj.mp h)).symm
      intro hwf
      exact skelStep_comp (skelStep_rauw F _ _)
        (skelStep_erase (nonTermId_rauw
          (nonTermId_of_findInstr hwf.1 hfind rfl))) hwf
    | alloca ty2 => simp only [hos, Option.bind_eq_bind, Option.none_bind] at h; cases h
    | load ty2 p2 => simp only [hos, Option.bind_eq_bind, Option.none_bind] at h; cases h
    | phi ty2 inc => simp only [hos, Option.bind_eq_bind, Option.none_bind] at h; cases h
    | other ty2 ops => simp only [hos, Option.bind_eq_bind, Option.none_bind] at h; cases h
    | term ops ss => simp only [hos, Option.bind_eq_bind, Option.none_bind] at h; cases h

/-- The whole user loop of the single-store rewrite keeps the CFG. -/
theorem rssaLoop_skel (domB : BId → BId → Bool) (osId : IId) (sgv : Bool)
    (storeBB : BId) :
    ∀ (us : List (IId × BId × Instr)) (F : Func) (info : AllocaInfo)
      (lbi : LBI) (si : Option Nat) (F' : Func) (info' : AllocaInfo)
      (lbi' : LBI) (si' : Option Nat),
      rssaLoop domB osId sgv storeBB us F info lbi si =
        some (F', info', lbi', si') →
      skelStep F F' := by
  intro us
  induction us with
  | nil =>
    intro F info lbi si F' info' lbi' si' h
    simp only [rssaLoop] at h
    obtain rfl : F = F' := congrArg (fun r => r.1) (Option.some_inj.mp h)
    exact skelStep_refl F
  | cons u rest ih =>
    intro F info lbi si F' info' lbi' si' h
    simp only [rssaLoop] at h
    by_cases hid : (u.1 == osId) = true
    · rw [if_pos hid] at h
      exact ih F info lbi si F' info' lbi' si' h
    · rw [if_neg hid] at h
      cases hfi : F.findInstr u.1 with
      | none => simp only [hfi, Option.bind_eq_bind, Option.none_bind] at h; cases h
      | some ins =>
        cases ins with
        | load lty pp =>
          simp only [hfi, Option.bind_eq_bind, Option.some_bind] at h
          have hld : ∃ l2 p2, F.findInstr u.1 = some (Instr.load l2 p2) :=
            ⟨lty, pp, hfi⟩
          cases sgv with
          | true =>
            rw [if_pos rfl] at h
            cases hrw : rssaRewrite osId u.1 lty F lbi with
            | none =>
              simp only [hrw, Option.bind_eq_bind, Option.none_bind] at h; cases h
            | some pr =>
              obtain ⟨F1, lbi1⟩ := pr
              simp only [hrw, Option.bind_eq_bind, Option.some_bind] at h
              exact skelStep_comp (rssaRewrite_skel hld hrw)
                (ih F1 info lbi1 si F' info' lbi' si' h)
          | false =>
            rw [if_neg Bool.false_ne_true] at h
            cases hpar : F.parentOf u.1 with
            | none =>
              simp only [hpar, Option.bind_eq_bind, Option.none_bind] at h; cases h
            | some lbPar =>
              simp only [hpar, Option.bind_eq_bind, Option.some_bind] at h
              by_cases hin : (lbPar == storeBB) = true
              · rw [if_pos hin] at h
                cases si with
                | some n =>
                  simp only [Option.bind_eq_bind, Option.some_bind] at h
                  cases hg2 : getInstructionIndex F lbi u.1 with
                  | none =>
                    simp only [hg2, Option.bind_eq_bind, Option.none_bind] at h; cases h
                  | some pr2 =>
                    obtain ⟨li, lbi2⟩ := pr2
                    simp only [hg2, Option.bind_eq_bind, Option.some_bind] at h
                    by_cases hgt : n > li
                    · rw [if_pos hgt] at h
                      exact ih F _ lbi2 (some n) F' info' lbi' si' h
                    · rw [if_neg hgt] at h
                      cases hrw : rssaRewrite osId u.1 lty F lbi2 with
                      | none =>
                        simp only [hrw, Option.bind_eq_bind,
                          Option.none_bind] at h; cases h
                      | some pr =>
                        obtain ⟨F1, lbi3⟩ := pr
                        simp only [hrw, Option.bind_eq_bind,
                          Option.some_bind] at h
                        exact skelStep_comp (rssaRewrite_skel hld hrw)
                          (ih F1 info lbi3 (some n) F' info' lbi' si' h)
                | none =>
                  cases hg1 : getInstructionIndex F lbi osId with
                  | none =>
                    simp only [hg1, Option.bind_eq_bind, Option.none_bind] at h; cases h
                  | some pr1 =>
                    obtain ⟨n, lbi1⟩ := pr1
                    simp only [hg1, Option.bind_eq_bind, Option.some_bind] at h
                    cases hg2 : getInstructionIndex F lbi1 u.1 with
                    | none =>
                      simp only [hg2, Option.bind_eq_bind, Option.none_bind] at h; cases h
                    | some pr2 =>
                      obtain ⟨li, lbi2⟩ := pr2
                      simp only [hg2, Option.bind_eq_bind, Option.some_bind] at h
                      by_cases hgt : n > li
                      · rw [if_pos hgt] at h
                        exact ih F _ lbi2 (some n) F' info' lbi' si' h
                      · rw [if_neg hgt] at h
                        cases hrw : rssaRewrite osId u.1 lty F lbi2 with
                        | none =>
                          simp only [hrw, Option.bind_eq_bind,
                            Option.none_bind] at h; cases h
                        | some pr =>
                          obtain ⟨F1, lbi3⟩ := pr
                          simp only [hrw, Option.bind_eq_bind,
                            Option.some_bind] at h
                          exact skelStep_comp (rssaRewrite_skel hld hrw)
                            (ih F1 info lbi3 (some n) F' info' lbi' si' h)
              · rw [if_neg hin] at h
                cases hdom : domB storeBB lbPar with
                | false =>
                  rw [hdom] at h
                  rw [if_pos (show (!false) = true from rfl)] at h
                  exact ih F _ lbi si F' info' lbi' si' h
                | true =>
                  rw [hdom] at h
                  simp only [Bool.not_true, Bool.false_eq_true, if_false] at h
                  cases hrw : rssaRewrite osId u.1 lty F lbi with
                  | none =>
                    simp only [hrw, Option.bind_eq_bind, Option.none_bind] at h; cases h
                  | some pr =>
                    obtain ⟨F1, lbi1⟩ := pr
                    simp only [hrw, Option.bind_eq_bind, Option.some_bind] at h
                    exact skelStep_comp (rssaRewrite_skel hld hrw)
                      (ih F1 info lbi1 si F' info' lbi' si' h)
        | alloca ty2 =>
          simp only [hfi, Option.bind_eq_bind, Option.none_bind] at h; cases h
        | store sv q =>
          simp only [hfi, Option.bind_eq_bind, Option.none_bind] at h; cases h
        | phi ty2 inc =>
          simp only [hfi, Option.bind_eq_bind, Option.none_bind] at h; cases h
        | other ty2 ops =>
          simp only [hfi, Option.bind_eq_bind, Option.none_bind] at h; cases h
        | term ops ss =>
          simp only [hfi, Option.bind_eq_bind, Option.none_bind] at h; cases h

/-- The single-store fast path keeps the CFG. -/
theorem rewriteSingleStoreAlloca_skel {domB : BId → BId → Bool} {F : Func}
    {aid : IId} {info : AllocaInfo} {lbi : LBI}
    {r : Func × AllocaInfo × LBI × Bool}
    (hnt : wfF F → nonTermId F aid)
    (h : rewriteSingleStoreAlloca domB F aid info lbi = some r) :
    skelStep F r.1 := by
  unfold rewriteSingleStoreAlloca at h
  cases hos : info.OnlyStore with
  | none => simp only [hos, Option.bind_eq_bind, Option.none_bind] at h; cases h
  | some osId =>
    simp only [hos, Option.bind_eq_bind, Option.some_bind] at h
    cases hsv : F.findInstr osId with
    | none => simp only [hsv, Option.bind_eq_bind, Option.none_bind] at h; cases h
    | some ins =>
      cases ins with
      | store sv q =>
        simp only [hsv, Option.bind_eq_bind, Option.some_bind] at h
        cases hpar : F.parentOf osId with
        | none => simp only [hpar, Option.bind_eq_bind, Option.none_bind] at h; cases h
        | some storeBB =>
          simp only [hpar, Option.bind_eq_bind, Option.some_bind] at h
          obtain ⟨q4, hloop, h⟩ := bind_eq_some h
          obtain ⟨F1, info2, lbi1, flag⟩ := q4
          simp only [] at h
          have hstep1 : skelStep F F1 :=
            rssaLoop_skel domB osId _ storeBB _ F _ lbi none F1 info2 lbi1
              flag hloop
          · by_cases hub : (!info2.UsingBlocks.isEmpty) = true
            · rw [if_pos hub] at h
              obtain rfl : F1 = r.1 :=
                congrArg (fun z => z.1) (Option.some_inj.mp h)
              exact hstep1
            · rw [if_neg hub] at h
              obtain hr : ((F1.eraseInstr osId).eraseInstr aid) = r.1 :=
                congrArg (fun z => z.1) (Option.some_inj.mp h)
              rw [← hr]
              refine skelStep_erase_chain (skelStep_erase_chain hstep1 ?_) ?_
              · intro hwf
                exact (hstep1 hwf).2.2.2 osId
                  (nonTermId_of_findInstr hwf.1 hsv rfl)
              · intro hwf
                exact nonTermId_erase ((hstep1 hwf).2.2.2 aid (hnt hwf))
      | alloca ty2 =>
        simp only [hsv, Option.bind_eq_bind, Option.none_bind] at h; cases h
      | load ty2 p2 =>
        simp only [hsv, Option.bind_eq_bind, Option.none_bind] at h; cases h
      | phi ty2 inc =>
        simp only [hsv, Option.bind_eq_bind, Option.none_bind] at h; cases h
      | other ty2 ops =>
        simp only [hsv, Option.bind_eq_bind, Option.none_bind] at h; cases h
      | term ops ss =>
        simp only [hsv, Option.bind_eq_bind, Option.none_bind] at h; cases h

/-- The load loop of the single-block rewrite keeps the CFG. -/
theorem psbaLoadsLoop_skel (stores : List (Nat × IId)) :
    ∀ (us : List (IId × BId × Instr)) (F : Func) (lbi : LBI) (ok : Bool)
      (F' : Func) (lbi' : LBI),
      psbaLoadsLoop stores us F lbi = some (ok, F', lbi') →
      skelStep F F' := by
  intro us
  induction us with
  | nil =>
    intro F lbi ok F' lbi' h
    simp only [psbaLoadsLoop] at h
    obtain rfl : F = F' := congrArg (fun r => r.2.1) (Option.some_inj.mp h)
    exact skelStep_refl F
  | cons u rest ih =>
    intro F lbi ok F' lbi' h
    simp only [psbaLoadsLoop] at h
    cases hins : u.2.2 with
    | load lty0 p0 =>
      rw [hins] at h
      simp only [] at h
      cases hfi : F.findInstr u.1 with
      | none => simp only [hfi, Option.bind_eq_bind, Option.none_bind] at h; cases h
      | some ins =>
        cases ins with
        | load lty pp =>
          simp only [hfi, Option.bind_eq_bind, Option.some_bind] at h
          obtain ⟨pr2, _, h⟩ := bind_eq_some h
          obtain ⟨li, lbi1⟩ := pr2
          simp only [] at h
          by_cases hbe : ((stores.filter (fun p => p.1 < li)).isEmpty) = true
          · rw [if_pos hbe] at h
            by_cases hse : (stores.isEmpty) = true
            · rw [if_pos hse] at h
              refine skelStep_comp ?_ (ih _ _ ok F' lbi' h)
              intro hwf
              exact (skelStep_comp (skelStep_rauw F _ _)
                (skelStep_erase (nonTermId_rauw
                  (nonTermId_of_findInstr hwf.1 hfi rfl)))) hwf
            · rw [if_neg hse] at h
              obtain rfl : F = F' :=
                congrArg (fun r => r.2.1) (Option.some_inj.mp h)
              exact skelStep_refl F
          · rw [if_neg hbe] at h
            obtain ⟨pr, _, h⟩ := bind_eq_some h
            cases hfi2 : F.findInstr pr.2 with
            | none =>
              rw [hfi2] at h
              simp only [Option.none_bind] at h; cases h
            | some ins2 =>
              cases ins2 with
              | store sv2 q2 =>
                rw [hfi2] at h
                simp only [] at h
                refine skelStep_comp ?_ (ih _ _ ok F' lbi' h)
                intro hwf
                exact (skelStep_comp (skelStep_rauw F _ _)
                  (skelStep_erase (nonTermId_rauw
                    (nonTermId_of_findInstr hwf.1 hfi rfl)))) hwf
              | alloca ty3 =>
                rw [hfi2] at h
                simp only [Option.none_bind] at h; cases h
              | load ty3 p3 =>
                rw [hfi2] at h
                simp only [Option.none_bind] at h; cases h
              | phi ty3 inc3 =>
                rw [hfi2] at h
                simp only [Option.none_bind] at h; cases h
              | other ty3 ops3 =>
                rw [hfi2] at h
                simp only [Option.none_bind] at h; cases h
              | term ops3 ss3 =>
                rw [hfi2] at h
                simp only [Option.none_bind] at h; cases h
        | alloca ty2 =>
          simp only [hfi, Option.bind_eq_bind, Option.none_bind] at h; cases h
        | store sv q =>
          simp only [hfi, Option.bind_eq_bind, Option.none_bind] at h; cases h
        | phi ty2 inc =>
          simp only [hfi, Option.bind_eq_bind, Option.none_bind] at h; cases h
        | other ty2 ops =>
          simp only [hfi, Option.bind_eq_bind, Option.none_bind] at h; cases h
        | term ops ss =>
          simp only [hfi, Option.bind_eq_bind, Option.none_bind] at h; cases h
    | alloca ty2 =>
      rw [hins] at h
      simp only [] at h
      exact ih F lbi ok F' lbi' h
    | store sv q =>
      rw [hins] at h
      simp only [] at h
      exact ih F lbi ok F' lbi' h
    | phi ty2 inc =>
      rw [hins] at h
      simp only [] at h
      exact ih F lbi ok F' lbi' h
    | other ty2 ops =>
      rw [hins] at h
      simp only [] at h
      exact ih F lbi ok F' lbi' h
    | term ops ss =>
      rw [hins] at h
      simp only [] at h
      exact ih F lbi ok F' lbi' h

/-- The store-erasing loop of the single-block rewrite keeps the CFG. -/
theorem eraseStoreUsers_skel (aid : IId) :
    ∀ (n : Nat) (F : Func) (lbi : LBI) (F2 : Func) (lbi3 : LBI),
      eraseStoreUsers n F lbi aid = some (F2, lbi3) → skelStep F F2 := by
  intro n
  induction n with
  | zero =>
    intro F lbi F2 lbi3 h
    simp only [eraseStoreUsers] at h
    by_cases he : (F.usersOf (Val.vreg aid)).isEmpty = true
    · rw [if_pos he] at h
      obtain rfl : F = F2 := congrArg Prod.fst (Option.some_inj.mp h)
      exact skelStep_refl F
    · rw [if_neg he] at h
      cases h
  | succ m ih =>
    intro F lbi F2 lbi3 h
    simp only [eraseStoreUsers] at h
    cases hlast : (F.usersOf (Val.vreg aid)).getLast? with
    | none =>
      rw [hlast] at h
      simp only [] at h
      obtain rfl : F = F2 := congrArg Prod.fst (Option.some_inj.mp h)
      exact skelStep_refl F
    | some u =>
      cases hins : u.2.2 with
      | store v q =>
        simp only [hlast, hins] at h
        refine skelStep_comp (skelStep_erase_cond ?_) (ih _ _ _ _ h)
        intro hwf t ht hti
        have humem : u ∈ F.instrs :=
          usersOf_mem_instrs (getLast_some_mem _ u hlast)
        have heq : t = u := instrs_unique hwf.1 ht humem hti
        rw [heq, hins]
        rfl
      | alloca ty => simp only [hlast, hins] at h; cases h
      | load ty pp => simp only [hlast, hins] at h; cases h
      | phi ty inc => simp only [hlast, hins] at h; cases h
      | other ty ops => simp only [hlast, hins] at h; cases h
      | term ops ss => simp only [hlast, hins] at h; cases h

/-- The single-block fast path keeps the CFG. -/
theorem promoteSingleBlockAlloca_skel {F : Func} {aid : IId} {lbi : LBI}
    {r : Func × LBI × Bool}
    (hnt : wfF F → nonTermId F aid)
    (h : promoteSingleBlockAlloca F aid lbi = some r) :
    skelStep F r.1 := by
  unfold promoteSingleBlockAlloca at h
  simp only [Option.bind_eq_bind] at h
  obtain ⟨q1, _, h⟩ := bind_eq_some h
  obtain ⟨stores0, lbi1⟩ := q1
  simp only [] at h
  obtain ⟨q2, hloop, h⟩ := bind_eq_some h
  obtain ⟨ok, F1, lbi2⟩ := q2
  simp only [] at h
  have hstep1 : skelStep F F1 :=
    psbaLoadsLoop_skel _ _ F _ ok F1 lbi2 hloop
  by_cases hok : (!ok) = true
  · rw [if_pos hok] at h
    obtain rfl : F1 = r.1 := congrArg (fun z => z.1) (Option.some_inj.mp h)
    exact hstep1
  · rw [if_neg hok] at h
    obtain ⟨q3, hers, h⟩ := bind_eq_some h
    obtain ⟨F2, lbi3⟩ := q3
    simp only [] at h
    have hstep2 : skelStep F1 F2 :=
      eraseStoreUsers_skel aid _ F1 lbi2 F2 lbi3 hers
    obtain hr : F2.eraseInstr aid = r.1 :=
      congrArg (fun z => z.1) (Option.some_inj.mp h)
    rw [← hr]
    refine skelStep_erase_chain (skelStep_comp hstep1 hstep2) ?_
    intro hwf
    have h0 : nonTermId F aid := hnt hwf
    obtain ⟨hwf1, _, _, hk1⟩ := hstep1 hwf
    obtain ⟨_, _, _, hk2⟩ := hstep2 hwf1
    exact hk2 aid (hk1 aid h0)

theorem skelStep_comp_cond {F G H : Func}
    (h1 : skelStep F G) (h2 : wfF F → wfF G → skelStep G H) : skelStep F H := by
  intro hwf
  obtain ⟨hwfG, hc1, hn1, hk1⟩ := h1 hwf
  obtain ⟨hwfH, hc2, hn2, hk2⟩ := h2 hwf hwfG hwfG
  exact ⟨hwfH, ⟨hc2.1.trans hc1.1, hc2.2.trans hc1.2⟩, Nat.le_trans hn1 hn2,
    fun j hj => hk2 j (hk1 j hj)⟩

theorem alloca_of_promotable {F : Func} {aid : IId}
    (h : isAllocaPromotable F aid = true) :
    ∃ ty, F.findInstr aid = some (Instr.alloca ty) := by
  unfold isAllocaPromotable at h
  cases hfi : F.findInstr aid with
  | none => rw [hfi] at h; cases h
  | some ins =>
    cases ins with
    | alloca ty => exact ⟨ty, rfl⟩
    | load ty p => rw [hfi] at h; cases h
    | store v p => rw [hfi] at h; cases h
    | phi ty inc => rw [hfi] at h; cases h
    | other ty ops => rw [hfi] at h; cases h
    | term ops ss => rw [hfi] at h; cases h

theorem mem_swapRemoveAt {l : List Nat} {i : Nat} {x : Nat}
    (hx : x ∈ swapRemoveAt l i) : x ∈ l := by
  unfold swapRemoveAt at hx
  have hx2 : x ∈ l.set i ((l.getLast?).getD 0) := List.dropLast_subset _ hx
  cases hl : l.getLast? with
  | some y =>
    rcases List.mem_or_eq_of_mem_set hx2 with h | he
    · exact h
    · rw [he, hl]
      exact getLast_some_mem l y hl
  | none =>
    have hnil : l = [] := getLast_none_nil l hl
    rw [hnil] at hx2
    cases hx2

/-- Inserting one queued phi keeps the CFG and the alloca list. -/
theorem QueuePhiNode_skel {s : St} {b : BId} {no : Nat} {s' : St} {flag : Bool}
    (h : QueuePhiNode s b no = some (s', flag)) :
    skelStep s.F s'.F ∧ s'.Allocas = s.Allocas := by
  unfold QueuePhiNode at h
  simp only [] at h
  cases hlk : s.NewPhiNodes.lookup (bbNumOf s.BBNumbers b, no) with
  | some pid =>
    rw [hlk] at h
    obtain rfl : s = s' := congrArg Prod.fst (Option.some_inj.mp h)
    exact ⟨skelStep_refl _, rfl⟩
  | none =>
    rw [hlk] at h
    obtain ⟨aid, _, h⟩ := bind_eq_some h
    obtain ⟨ty, _, h⟩ := bind_eq_some h
    have hs : ({ s with
        F := insertPhiAtHead s.F b s.F.nextId ty
        NewPhiNodes := s.NewPhiNodes ++ [((bbNumOf s.BBNumbers b, no), s.F.nextId)]
        PhiToAllocaMap := s.PhiToAllocaMap ++ [(s.F.nextId, no)] } : St) = s' :=
      congrArg Prod.fst (Option.some_inj.mp h)
    rw [← hs]
    exact ⟨skelStep_insert s.F b ty, rfl⟩

theorem foldlM_queue_skel (no : Nat) :
    ∀ (bs : List BId) (s s' : St),
      bs.foldlM (fun st b => (QueuePhiNode st b no).map (fun r => r.1)) s =
        some s' →
      skelStep s.F s'.F ∧ s'.Allocas = s.Allocas := by
  intro bs
  induction bs with
  | nil =>
    intro s s' h
    simp only [List.foldlM_nil] at h
    obtain rfl : s = s' := Option.some_inj.mp h
    exact ⟨skelStep_refl _, rfl⟩
  | cons b rest ih =>
    intro s s' h
    rw [List.foldlM_cons] at h
    obtain ⟨s1, hq, h⟩ := bind_eq_some h
    obtain ⟨pr, hqq, hpr⟩ := Option.map_eq_some'.mp hq
    obtain ⟨s1x, flag⟩ := pr
    obtain rfl : s1x = s1 := hpr
    obtain ⟨hsk, hAl⟩ := QueuePhiNode_skel hqq
    obtain ⟨hsk2, hAl2⟩ := ih s1x s' h
    exact ⟨skelStep_comp hsk hsk2, by rw [hAl2, hAl]⟩

/-- One per-alloca iteration keeps the CFG and shrinks the alloca list. -/
theorem processAllocaStep_skel {domB : BId → BId → Bool}
    {idf : List BId → List BId → List BId} {fuel : Nat} {s : St} {lbi : LBI}
    {i : Nat} {res : StepRes}
    (h : processAllocaStep domB idf fuel s lbi i = some res) :
    skelStep s.F res.st.F ∧ ∀ a ∈ res.st.Allocas, a ∈ s.Allocas := by
  unfold processAllocaStep at h
  obtain ⟨aid, hget, h⟩ := bind_eq_some h
  by_cases hprom : isAllocaPromotable s.F aid = true
  · obtain ⟨aty, hfia⟩ := alloca_of_promotable hprom
    rw [hprom] at h
    simp only [Bool.not_true, Bool.false_eq_true, if_false] at h
    by_cases hue : (s.F.usersOf (Val.vreg aid)).isEmpty = true
    · rw [if_pos hue] at h
      obtain rfl : StepRes.removed { s with
          F := s.F.eraseInstr aid
          Allocas := swapRemoveAt s.Allocas i } lbi = res := Option.some_inj.mp h
      refine ⟨?_, fun a ha => mem_swapRemoveAt ha⟩
      exact skelStep_erase_cond
        (fun hwf => nonTermId_of_findInstr hwf.1 hfia rfl)
    · rw [if_neg hue] at h
      obtain ⟨info, _, h⟩ := bind_eq_some h
      by_cases hdb : (info.DefiningBlocks.length == 1) = true
      · rw [if_pos hdb] at h
        obtain ⟨q1, hq1, h⟩ := bind_eq_some h
        obtain ⟨F1, info1, lbi1, ssDone⟩ := q1
        simp only [] at h
        have hstep1 : skelStep s.F F1 :=
          rewriteSingleStoreAlloca_skel
            (fun hwf => nonTermId_of_findInstr hwf.1 hfia rfl) hq1
        cases ssDone with
        | true =>
          rw [if_pos rfl] at h
          obtain rfl := Option.some_inj.mp h
          exact ⟨hstep1, fun a ha => mem_swapRemoveAt ha⟩
        | false =>
          rw [if_neg Bool.false_ne_true] at h
          by_cases hob : info1.OnlyUsedInOneBlock = true
          · rw [if_pos hob] at h
            obtain ⟨q2, hq2, h⟩ := bind_eq_some h
            obtain ⟨F2, lbi2, sbDone⟩ := q2
            simp only [] at h
            have hstep12 : skelStep s.F F2 := by
              refine skelStep_comp_cond hstep1 (fun hwf hwf1 => ?_)
              exact promoteSingleBlockAlloca_skel
                (fun _ => (hstep1 hwf).2.2.2 aid
                  (nonTermId_of_findInstr hwf.1 hfia rfl)) hq2
            cases sbDone with
            | true =>
              rw [if_pos rfl] at h
              obtain rfl := Option.some_inj.mp h
              exact ⟨hstep12, fun a ha => mem_swapRemoveAt ha⟩
            | false =>
              rw [if_neg Bool.false_ne_true] at h
              obtain ⟨live, _, h⟩ := bind_eq_some h
              obtain ⟨s2, hfold, h⟩ := bind_eq_some h
              obtain ⟨hsk2, hAl2⟩ := foldlM_queue_skel i _ _ s2 hfold
              obtain rfl := Option.some_inj.mp h
              refine ⟨skelStep_comp hstep12 hsk2, ?_⟩
              intro a ha
              simp only [StepRes.st] at ha
              rw [hAl2] at ha
              exact ha
          · rw [if_neg hob] at h
            simp only [Option.bind_eq_bind, Option.some_bind] at h
            rw [if_neg Bool.false_ne_true] at h
            obtain ⟨live, _, h⟩ := bind_eq_some h
            obtain ⟨s2, hfold, h⟩ := bind_eq_some h
            obtain ⟨hsk2, hAl2⟩ := foldlM_queue_skel i _ _ s2 hfold
            obtain rfl := Option.some_inj.mp h
            refine ⟨skelStep_comp hstep1 hsk2, ?_⟩
            intro a ha
            simp only [StepRes.st] at ha
            rw [hAl2] at ha
            exact ha
      · rw [if_neg hdb] at h
        simp only [Option.bind_eq_bind, Option.some_bind] at h
        rw [if_neg Bool.false_ne_true] at h
        by_cases hob : info.OnlyUsedInOneBlock = true
        · rw [if_pos hob] at h
          obtain ⟨q2, hq2, h⟩ := bind_eq_some h
          obtain ⟨F2, lbi2, sbDone⟩ := q2
          simp only [] at h
          have hstep12 : skelStep s.F F2 :=
            promoteSingleBlockAlloca_skel
              (fun hwf => nonTermId_of_findInstr hwf.1 hfia rfl) hq2
          cases sbDone with
          | true =>
            rw [if_pos rfl] at h
            obtain rfl := Option.some_inj.mp h
            exact ⟨hstep12, fun a ha => mem_swapRemoveAt ha⟩
          | false =>
            rw [if_neg Bool.false_ne_true] at h
            obtain ⟨live, _, h⟩ := bind_eq_some h
            obtain ⟨s2, hfold, h⟩ := bind_eq_some h
            obtain ⟨hsk2, hAl2⟩ := foldlM_queue_skel i _ _ s2 hfold
            obtain rfl := Option.some_inj.mp h
            refine ⟨skelStep_comp hstep12 hsk2, ?_⟩
            intro a ha
            simp only [StepRes.st] at ha
            rw [hAl2] at ha
            exact ha
        · rw [if_neg hob] at h
          rw [if_neg Bool.false_ne_true] at h
          obtain ⟨live, _, h⟩ := bind_eq_some h
          obtain ⟨s2, hfold, h⟩ := bind_eq_some h
          obtain ⟨hsk2, hAl2⟩ := foldlM_queue_skel i _ _ s2 hfold
          obtain rfl := Option.some_inj.mp h
          refine ⟨skelStep_refl _ |> skelStep_comp <| hsk2, ?_⟩
          intro a ha
          simp only [StepRes.st] at ha
          rw [hAl2] at ha
          exact ha
  · rw [show isAllocaPromotable s.F aid = false from by
        cases hp : isAllocaPromotable s.F aid
        · rfl
        · exact absurd hp hprom] at h
    simp only [Bool.not_false, if_true] at h
    cases h

/-- The whole per-alloca loop keeps the CFG and shrinks the alloca list. -/
theorem processAllocas_skel (domB : BId → BId → Bool)
    (idf : List BId → List BId → List BId) :
    ∀ (fuel : Nat) (s : St) (lbi : LBI) (i : Nat) (s' : St) (lbi' : LBI),
      processAllocas domB idf fuel s lbi i = some (s', lbi') →
      skelStep s.F s'.F ∧ ∀ a ∈ s'.Allocas, a ∈ s.Allocas := by
  intro fuel
  induction fuel with
  | zero =>
    intro s lbi i s' lbi' h
    simp only [processAllocas] at h
    by_cases hlen : s.Allocas.length ≤ i
    · rw [if_pos hlen] at h
      obtain rfl : s = s' := congrArg Prod.fst (Option.some_inj.mp h)
      exact ⟨skelStep_refl _, fun a ha => ha⟩
    · rw [if_neg hlen] at h
      cases h
  | succ m ih =>
    intro s lbi i s' lbi' h
    simp only [processAllocas] at h
    by_cases hlen : s.Allocas.length ≤ i
    · rw [if_pos hlen] at h
      obtain rfl : s = s' := congrArg Prod.fst (Option.some_inj.mp h)
      exact ⟨skelStep_refl _, fun a ha => ha⟩
    · rw [if_neg hlen] at h
      obtain ⟨res, hstep, h⟩ := bind_eq_some h
      obtain ⟨hsk, hsub⟩ := processAllocaStep_skel hstep
      cases res with
      | removed s1 lbi1 =>
        simp only [] at h
        obtain ⟨hsk2, hsub2⟩ := ih s1 lbi1 i s' lbi' h
        exact ⟨skelStep_comp hsk hsk2, fun a ha => hsub a (hsub2 a ha)⟩
      | kept s1 lbi1 =>
        simp only [] at h
        obtain ⟨hsk2, hsub2⟩ := ih s1 lbi1 (i + 1) s' lbi' h
        exact ⟨skelStep_comp hsk hsk2, fun a ha => hsub a (hsub2 a ha)⟩


/-- Appending incoming entries to the block-head phi run keeps the CFG:
every rewritten id is a phi of the snapshot and therefore no terminator. -/
theorem phiUpdateLoop_skel (ptam : List (IId × Nat)) (numEdges : Nat)
    (predBB : BId) :
    ∀ (l : List (IId × Instr)) (F : Func) (vals : List Val) (n0 : Nat),
      (∀ pid ty inc, (pid, Instr.phi ty inc) ∈ l → wfF F → nonTermId F pid) →
      skelStep F (phiUpdateLoop ptam numEdges predBB l F vals n0).1 := by
  intro l
  induction l with
  | nil =>
    intro F vals n0 hl
    exact skelStep_refl F
  | cons t rest ih =>
    intro F vals n0 hl
    obtain ⟨pid, ins⟩ := t
    cases ins with
    | phi ty inc =>
      simp only [phiUpdateLoop]
      by_cases hlen : (inc.length == n0) = true
      · rw [if_pos hlen]
        have hstep : skelStep F (F.setInstr pid (Instr.phi ty (inc ++
            List.replicate numEdges
              (vals.getD ((ptam.lookup pid).getD 0) (Val.vundef ty), predBB)))) :=
          skelStep_set_cond rfl
            (fun hwf => hl pid ty inc (List.mem_cons_self _ _) hwf)
        refine skelStep_comp_cond hstep (fun hwf _ => ?_)
        refine ih _ _ _ (fun pid2 ty2 inc2 ht2 _ => ?_)
        exact (hstep hwf).2.2.2 pid2
          (hl pid2 ty2 inc2 (List.mem_cons_of_mem _ ht2) hwf)
      · rw [if_neg hlen]
        exact skelStep_refl F
    | alloca ty => exact skelStep_refl F
    | load ty p => exact skelStep_refl F
    | store sv p => exact skelStep_refl F
    | other ty ops => exact skelStep_refl F
    | term ops ss => exact skelStep_refl F

/-- Step 1 of a visit keeps the CFG. -/
theorem renamePhiUpdate_skel {F : Func} {ptam : List (IId × Nat)} {bb : BId}
    {pred : Option BId} {vals : List Val} {r : Func × List Val}
    (h : renamePhiUpdate F ptam bb pred vals = some r) :
    skelStep F r.1 := by
  unfold renamePhiUpdate at h
  cases hbi : F.blockInsts bb with
  | nil =>
    rw [hbi] at h
    obtain rfl := Option.some_inj.mp h
    exact skelStep_refl F
  | cons p0 rest0 =>
    obtain ⟨pid0, ins0⟩ := p0
    rw [hbi] at h
    cases ins0 with
    | phi ty0 inc0 =>
      simp only [] at h
      by_cases hlk : (ptam.lookup pid0).isSome = true
      · rw [if_pos hlk] at h
        cases pred with
        | none => exact Option.noConfusion h
        | some p =>
          simp only [] at h
          by_cases hz : ((F.succsOf p).count bb == 0) = true
          · rw [if_pos hz] at h
            exact Option.noConfusion h
          · rw [if_neg hz] at h
            obtain rfl := Option.some_inj.mp h
            refine phiUpdateLoop_skel ptam ((F.succsOf p).count bb) p
              ((pid0, Instr.phi ty0 inc0) :: rest0) F vals inc0.length ?_
            intro pid2 ty2 inc2 hm hwf
            have hm2 : (pid2, Instr.phi ty2 inc2) ∈ F.blockInsts bb := by
              rw [hbi]
              exact hm
            exact nonTermId_of_findInstr hwf.1
              (findInstr_of_mem hwf.1 (mem_blockInsts_mem_instrs hm2)).1 rfl
      · rw [if_neg hlk] at h
        obtain rfl := Option.some_inj.mp h
        exact skelStep_refl F
    | alloca ty0 =>
      obtain rfl := Option.some_inj.mp h
      exact skelStep_refl F
    | load ty0 p2 =>
      obtain rfl := Option.some_inj.mp h
      exact skelStep_refl F
    | store sv p2 =>
      obtain rfl := Option.some_inj.mp h
      exact skelStep_refl F
    | other ty0 ops =>
      obtain rfl := Option.some_inj.mp h
      exact skelStep_refl F
    | term ops ss =>
      obtain rfl := Option.some_inj.mp h
      exact skelStep_refl F

/-- The body walk of a visit keeps the CFG: it erases only loads and
stores it has just looked up. -/
theorem bodyLoop_skel (alkp : List (IId × Nat)) :
    ∀ (l : List IId) (F : Func) (vals : List Val),
      skelStep F (bodyLoop alkp l F vals).1 := by
  intro l
  induction l with
  | nil =>
    intro F vals
    exact skelStep_refl F
  | cons iid rest ih =>
    intro F vals
    cases hfi : F.findInstr iid with
    | none =>
      simp only [bodyLoop, hfi]
      exact ih F vals
    | some ins =>
      simp only [bodyLoop, hfi]
      by_cases ht : ins.isTerm = true
      · rw [if_pos ht]
        exact skelStep_refl F
      · rw [if_neg ht]
        cases ins with
        | load lty p =>
          cases p with
          | vreg src =>
            simp only []
            by_cases ha : F.isAllocaId src = true
            · rw [if_pos ha]
              cases hlk : alkp.lookup src with
              | none => exact ih F vals
              | some idx =>
                have hstep : skelStep F ((F.rauw (Val.vreg iid)
                    (vals.getD idx (Val.vundef Ty.ptr))).eraseInstr iid) :=
                  skelStep_erase_chain (skelStep_rauw F _ _)
                    (fun hwf => nonTermId_rauw
                      (nonTermId_of_findInstr hwf.1 hfi rfl))
                exact skelStep_comp_cond hstep (fun hwf _ => ih _ _)
            · rw [if_neg ha]
              exact ih F vals
          | varg n ty2 => exact ih F vals
          | vconst n ty2 => exact ih F vals
          | vundef ty2 => exact ih F vals
          | vpoison ty2 => exact ih F vals
        | store sv p =>
          cases p with
          | vreg dst =>
            simp only []
            by_cases ha : F.isAllocaId dst = true
            · rw [if_pos ha]
              cases hlk : alkp.lookup dst with
              | none => exact ih F vals
              | some idx =>
                exact skelStep_comp_cond
                  (skelStep_erase_cond
                    (fun hwf => nonTermId_of_findInstr hwf.1 hfi rfl))
                  (fun hwf _ => ih _ _)
            · rw [if_neg ha]
              exact ih F vals
          | varg n ty2 => exact ih F vals
          | vconst n ty2 => exact ih F vals
          | vundef ty2 => exact ih F vals
          | vpoison ty2 => exact ih F vals
        | alloca ty2 => exact ih F vals
        | phi ty2 inc => exact ih F vals
        | other ty2 ops => exact ih F vals
        | term ops ss => exact ih F vals

/-- One arrival of the renamer at a block keeps the CFG and the alloca
list. -/
theorem renameStep_skel {s : St} {r : RPD} {s' : St} {es : List RPD}
    (h : renameStep s r = some (s', es)) :
    skelStep s.F s'.F ∧ s'.Allocas = s.Allocas := by
  unfold renameStep at h
  obtain ⟨q, hq, h⟩ := bind_eq_some h
  obtain ⟨F1, vals1⟩ := q
  simp only [] at h
  have h1 : skelStep s.F F1 := renamePhiUpdate_skel hq
  by_cases hv : s.Visited.contains r.bb = true
  · rw [if_pos hv] at h
    have hp := Option.some_inj.mp h
    obtain rfl : ({ s with F := F1 } : St) = s' := congrArg Prod.fst hp
    exact ⟨h1, rfl⟩
  · rw [if_neg hv] at h
    cases hbl : bodyLoop s.AllocaLookup ((F1.blockInsts r.bb).map (fun p => p.1))
        F1 vals1 with
    | mk F2 vals2 =>
      rw [hbl] at h
      simp only [] at h
      have h2 : skelStep F1 F2 := by
        have hb := bodyLoop_skel s.AllocaLookup
          ((F1.blockInsts r.bb).map (fun p => p.1)) F1 vals1
        rw [hbl] at hb
        exact hb
      cases hd : dedupKeepFirst (F2.succsOf r.bb) with
      | nil =>
        rw [hd] at h
        have hp := Option.some_inj.mp h
        obtain rfl : ({ s with F := F2, Visited := r.bb :: s.Visited } : St) = s' :=
          congrArg Prod.fst hp
        exact ⟨skelStep_comp h1 h2, rfl⟩
      | cons s1b others =>
        rw [hd] at h
        simp only [] at h
        have hp := Option.some_inj.mp h
        obtain rfl : ({ s with F := F2, Visited := r.bb :: s.Visited } : St) = s' :=
          congrArg Prod.fst hp
        exact ⟨skelStep_comp h1 h2, rfl⟩

/-- The renaming worklist loop keeps the CFG and the alloca list. -/
theorem renameLoop_skel :
    ∀ (fuel : Nat) (s : St) (l : List RPD) (s' : St),
      renameLoop fuel s l = some s' →
      skelStep s.F s'.F ∧ s'.Allocas = s.Allocas := by
  intro fuel
  induction fuel with
  | zero =>
    intro s l s' h
    cases l with
    | nil =>
      simp only [renameLoop] at h
      obtain rfl := Option.some_inj.mp h
      exact ⟨skelStep_refl _, rfl⟩
    | cons r rest =>
      simp only [renameLoop] at h
      cases h
  | succ fuel ih =>
    intro s l s' h
    cases l with
    | nil =>
      simp only [renameLoop] at h
      obtain rfl := Option.some_inj.mp h
      exact ⟨skelStep_refl _, rfl⟩
    | cons r rest =>
      simp only [renameLoop] at h
      obtain ⟨q, hq, h⟩ := bind_eq_some h
      obtain ⟨s1, es⟩ := q
      simp only [] at h
      obtain ⟨hs1, ha1⟩ := renameStep_skel hq
      obtain ⟨hs2, ha2⟩ := ih s1 (es ++ rest) s' h
      refine ⟨skelStep_comp hs1 hs2, ?_⟩
      rw [ha2, ha1]

/-- Erasing the promoted allocas (with poison substituted for unreachable
users) keeps the CFG. -/
theorem eraseAllocasLoop_skel :
    ∀ (l : List IId) (F : Func),
      (∀ a ∈ l, wfF F → nonTermId F a) →
      skelStep F (eraseAllocasLoop l F) := by
  intro l
  induction l with
  | nil =>
    intro F hl
    exact skelStep_refl F
  | cons a rest ih =>
    intro F hl
    simp only [eraseAllocasLoop]
    by_cases hu : (F.usersOf (Val.vreg a)).isEmpty = true
    · rw [if_pos hu]
      have hstep : skelStep F (F.eraseInstr a) :=
        skelStep_erase_cond (fun hwf => hl a (List.mem_cons_self _ _) hwf)
      refine skelStep_comp_cond hstep (fun hwf _ => ?_)
      refine ih _ (fun a2 ha2 _ => ?_)
      exact (hstep hwf).2.2.2 a2 (hl a2 (List.mem_cons_of_mem _ ha2) hwf)
    · rw [if_neg hu]
      have hstep : skelStep F
          ((F.rauw (Val.vreg a) (Val.vpoison Ty.ptr)).eraseInstr a) :=
        skelStep_erase_chain (skelStep_rauw F _ _)
          (fun hwf => nonTermId_rauw (hl a (List.mem_cons_self _ _) hwf))
      refine skelStep_comp_cond hstep (fun hwf _ => ?_)
      refine ih _ (fun a2 ha2 _ => ?_)
      exact (hstep hwf).2.2.2 a2 (hl a2 (List.mem_cons_of_mem _ ha2) hwf)

/-- One sweep of the trivial-phi elimination keeps the CFG: each erased id
is looked up and found to be a phi just before its removal. -/
theorem simplifySweep_skel (domI : IId → IId → Bool) :
    ∀ (l : List ((Nat × Nat) × IId)) (F : Func)
      (kept : List ((Nat × Nat) × IId)) (elim : Bool)
      (r : Func × List ((Nat × Nat) × IId) × Bool),
      simplifySweep domI l F kept elim = some r →
      skelStep F r.1 := by
  intro l
  induction l with
  | nil =>
    intro F kept elim r h
    simp only [simplifySweep] at h
    obtain rfl := Option.some_inj.mp h
    exact skelStep_refl F
  | cons e rest ih =>
    intro F kept elim r h
    obtain ⟨key, pid⟩ := e
    simp only [simplifySweep] at h
    cases hfi : F.findInstr pid with
    | none =>
      simp only [hfi, Option.bind_eq_bind, Option.none_bind] at h
      cases h
    | some ins =>
      cases ins with
      | phi ty inc =>
        simp only [hfi, Option.bind_eq_bind, Option.some_bind] at h
        cases hsp : simplifyPHINode domI pid ty inc with
        | some v =>
          rw [hsp] at h
          have hstep : skelStep F ((F.rauw (Val.vreg pid) v).eraseInstr pid) :=
            skelStep_erase_chain (skelStep_rauw F _ _)
              (fun hwf => nonTermId_rauw
                (nonTermId_of_findInstr hwf.1 hfi rfl))
          exact skelStep_comp_cond hstep (fun hwf _ => ih _ _ _ _ h)
        | none =>
          rw [hsp] at h
          exact ih _ _ _ _ h
      | alloca ty =>
        simp only [hfi, Option.bind_eq_bind, Option.none_bind] at h
        cases h
      | load ty p2 =>
        simp only [hfi, Option.bind_eq_bind, Option.none_bind] at h
        cases h
      | store sv p2 =>
        simp only [hfi, Option.bind_eq_bind, Option.none_bind] at h
        cases h
      | other ty ops =>
        simp only [hfi, Option.bind_eq_bind, Option.none_bind] at h
        cases h
      | term ops ss =>
        simp only [hfi, Option.bind_eq_bind, Option.none_bind] at h
        cases h

/-- The trivial-phi fixpoint keeps the CFG. -/
theorem simplifyLoop_skel (domI : IId → IId → Bool) :
    ∀ (fuel : Nat) (F : Func) (entries : List ((Nat × Nat) × IId))
      (r : Func × List ((Nat × Nat) × IId)),
      simplifyLoop domI fuel F entries = some r → skelStep F r.1 := by
  intro fuel
  induction fuel with
  | zero =>
    intro F entries r h
    simp only [simplifyLoop] at h
    cases h
  | succ fuel ih =>
    intro F entries r h
    simp only [simplifyLoop] at h
    obtain ⟨q, hq, h⟩ := bind_eq_some h
    obtain ⟨F1, entries1, elim⟩ := q
    simp only [] at h
    have h1 : skelStep F F1 :=
      simplifySweep_skel domI entries F [] false (F1, entries1, elim) hq
    cases elim with
    | true =>
      rw [if_pos rfl] at h
      exact skelStep_comp h1 (ih F1 entries1 r h)
    | false =>
      rw [if_neg Bool.false_ne_true] at h
      obtain rfl := Option.some_inj.mp h
      exact h1

/-- Filling one block-head phi run with poison entries keeps the CFG. -/
theorem fillPhiRun_skel (missing : List BId) (nbad : Nat) :
    ∀ (l : List (IId × Instr)) (F : Func),
      (∀ pid ty inc, (pid, Instr.phi ty inc) ∈ l → wfF F → nonTermId F pid) →
      skelStep F (fillPhiRun missing nbad l F) := by
  intro l
  induction l with
  | nil =>
    intro F hl
    exact skelStep_refl F
  | cons t rest ih =>
    intro F hl
    obtain ⟨pid, ins⟩ := t
    cases ins with
    | phi ty inc =>
      simp only [fillPhiRun]
      by_cases hlen : (inc.length == nbad) = true
      · rw [if_pos hlen]
        have hstep : skelStep F (F.setInstr pid (Instr.phi ty
            (inc ++ missing.map (fun p => (Val.vpoison ty, p))))) :=
          skelStep_set_cond rfl
            (fun hwf => hl pid ty inc (List.mem_cons_self _ _) hwf)
        refine skelStep_comp_cond hstep (fun hwf _ => ?_)
        refine ih _ (fun pid2 ty2 inc2 ht2 _ => ?_)
        exact (hstep hwf).2.2.2 pid2
          (hl pid2 ty2 inc2 (List.mem_cons_of_mem _ ht2) hwf)
      · rw [if_neg hlen]
        exact skelStep_refl F
    | alloca ty => exact skelStep_refl F
    | load ty p => exact skelStep_refl F
    | store sv p => exact skelStep_refl F
    | other ty ops => exact skelStep_refl F
    | term ops ss => exact skelStep_refl F

/-- Processing one registry entry of the poison fill keeps the CFG. -/
theorem poisonFillEntry_skel {nums : List (BId × Nat)} {F : Func} {pid : IId}
    {F' : Func} (h : poisonFillEntry nums F pid = some F') :
    skelStep F F' := by
  unfold poisonFillEntry at h
  cases hfi : F.findInstr pid with
  | none =>
    simp only [hfi, Option.bind_eq_bind, Option.none_bind] at h
    cases h
  | some ins =>
    cases ins with
    | phi ty inc =>
      simp only [hfi, Option.bind_eq_bind, Option.some_bind] at h
      obtain ⟨bb, hbb, h⟩ := bind_eq_some h
      cases hbi : F.blockInsts bb with
      | nil =>
        rw [hbi] at h
        obtain rfl := Option.some_inj.mp h
        exact skelStep_refl F
      | cons p0 rest0 =>
        obtain ⟨firstId, ins0⟩ := p0
        rw [hbi] at h
        simp only [] at h
        by_cases hne1 : (firstId != pid) = true
        · rw [if_pos hne1] at h
          obtain rfl := Option.some_inj.mp h
          exact skelStep_refl F
        · rw [if_neg hne1] at h
          by_cases hlen : (inc.length == F.numPreds bb) = true
          · rw [if_pos hlen] at h
            obtain rfl := Option.some_inj.mp h
            exact skelStep_refl F
          · rw [if_neg hlen] at h
            obtain ⟨missing, _, h⟩ := bind_eq_some h
            obtain rfl := Option.some_inj.mp h
            refine fillPhiRun_skel missing inc.length
              ((firstId, ins0) :: rest0) F ?_
            intro pid2 ty2 inc2 hm hwf
            have hm2 : (pid2, Instr.phi ty2 inc2) ∈ F.blockInsts bb := by
              rw [hbi]
              exact hm
            exact nonTermId_of_findInstr hwf.1
              (findInstr_of_mem hwf.1 (mem_blockInsts_mem_instrs hm2)).1 rfl
    | alloca ty =>
      simp only [hfi, Option.bind_eq_bind, Option.none_bind] at h
      cases h
    | load ty p2 =>
      simp only [hfi, Option.bind_eq_bind, Option.none_bind] at h
      cases h
    | store sv p2 =>
      simp only [hfi, Option.bind_eq_bind, Option.none_bind] at h
      cases h
    | other ty ops =>
      simp only [hfi, Option.bind_eq_bind, Option.none_bind] at h
      cases h
    | term ops ss =>
      simp only [hfi, Option.bind_eq_bind, Option.none_bind] at h
      cases h

/-- The poison-fill loop keeps the CFG. -/
theorem poisonFillLoop_skel {nums : List (BId × Nat)} :
    ∀ (l : List ((Nat × Nat) × IId)) (F F' : Func),
      poisonFillLoop nums l F = some F' → skelStep F F' := by
  intro l
  induction l with
  | nil =>
    intro F F' h
    simp only [poisonFillLoop] at h
    obtain rfl := Option.some_inj.mp h
    exact skelStep_refl F
  | cons e rest ih =>
    intro F F' h
    obtain ⟨key, pid⟩ := e
    simp only [poisonFillLoop] at h
    obtain ⟨F1, hq, h⟩ := bind_eq_some h
    exact skelStep_comp (poisonFillEntry_skel hq) (ih F1 F' h)

/-- The whole promoter keeps the CFG, given that the requested cells are
no terminators. -/
theorem runPass_skel {domB : BId → BId → Bool} {domI : IId → IId → Bool}
    {idf : List BId → List BId → List BId} {fuel : Nat} {F0 : Func}
    {allocaList : List IId} {s' : St}
    (hal : ∀ a ∈ allocaList, wfF F0 → nonTermId F0 a)
    (h : runPass domB domI idf fuel F0 allocaList = some s') :
    skelStep F0 s'.F := by
  unfold runPass at h
  simp only [] at h
  obtain ⟨q1, hq1, h⟩ := bind_eq_some h
  obtain ⟨s1, lbi1⟩ := q1
  simp only [] at h
  obtain ⟨hsk1, hsub1⟩ := processAllocas_skel domB idf fuel
    ⟨F0, allocaList, [], [], [], [], []⟩ [] 0 s1 lbi1 hq1
  by_cases he : s1.Allocas.isEmpty = true
  · rw [if_pos he] at h
    obtain rfl := Option.some_inj.mp h
    exact hsk1
  · rw [if_neg he] at h
    obtain ⟨vals, _, h⟩ := bind_eq_some h
    obtain ⟨entryB, _, h⟩ := bind_eq_some h
    obtain ⟨s2, hq2, h⟩ := bind_eq_some h
    obtain ⟨hsk2, hAl2⟩ := renameLoop_skel fuel s1 [⟨entryB, none, vals⟩] s2 hq2
    obtain ⟨q5, hq5, h⟩ := bind_eq_some h
    obtain ⟨F5, entries5⟩ := q5
    simp only [] at h
    obtain ⟨F6, hq6, h⟩ := bind_eq_some h
    obtain rfl := Option.some_inj.mp h
    have hAB : skelStep F0 s2.F := skelStep_comp hsk1 hsk2
    have hC : skelStep F0 (eraseAllocasLoop s2.Allocas s2.F) :=
      skelStep_comp_cond hAB (fun hwf _ =>
        eraseAllocasLoop_skel s2.Allocas s2.F (fun a ha _ =>
          (hAB hwf).2.2.2 a (hal a (hsub1 a (hAl2 ▸ ha)) hwf)))
    exact skelStep_comp (skelStep_comp hC
      (simplifyLoop_skel domI fuel _ _ _ hq5)) (poisonFillLoop_skel _ _ _ hq6)

/-- `PromoteMemToReg` keeps the CFG. -/
theorem PromoteMemToReg_skel {domB : BId → BId → Bool} {domI : IId → IId → Bool}
    {idf : List BId → List BId → List BId} {fuel : Nat} {F : Func}
    {allocas : List IId} {F' : Func}
    (hal : ∀ a ∈ allocas, wfF F → nonTermId F a)
    (h : PromoteMemToReg domB domI idf fuel F allocas = some F') :
    skelStep F F' := by
  unfold PromoteMemToReg at h
  by_cases he : allocas.isEmpty = true
  · rw [if_pos he] at h
    obtain rfl := Option.some_inj.mp h
    exact skelStep_refl F
  · rw [if_neg he] at h
    obtain ⟨s1, hs, hmap⟩ := Option.map_eq_some'.mp h
    obtain rfl : s1.F = F' := hmap
    exact runPass_skel hal hs

/-- The entry-block scan returns promotable allocas, hence no terminators. -/
theorem promotableEntryAllocas_nonterm {F : Func} {a : IId}
    (ha : a ∈ promotableEntryAllocas F) : wfF F → nonTermId F a := by
  intro hwf
  unfold promotableEntryAllocas at ha
  cases hh : F.blocks.head? with
  | none =>
    rw [hh] at ha
    cases ha
  | some b =>
    rw [hh] at ha
    obtain ⟨p, hp, rfl⟩ := List.mem_map.mp ha
    have hp2 := (List.mem_filter.mp hp).2
    obtain ⟨pidX, insX⟩ := p
    cases insX with
    | alloca ty =>
      simp only [] at hp2
      obtain ⟨ty2, hfi⟩ := alloca_of_promotable hp2
      exact nonTermId_of_findInstr hwf.1 hfi rfl
    | load ty p2 =>
      simp only [] at hp2
      exact Bool.noConfusion hp2
    | store sv p2 =>
      simp only [] at hp2
      exact Bool.noConfusion hp2
    | phi ty inc =>
      simp only [] at hp2
      exact Bool.noConfusion hp2
    | other ty ops =>
      simp only [] at hp2
      exact Bool.noConfusion hp2
    | term ops ss =>
      simp only [] at hp2
      exact Bool.noConfusion hp2

/-- The driver loop keeps the CFG. -/
theorem promoteMemoryToRegister_skel (domB : BId → BId → Bool)
    (domI : IId → IId → Bool) (idf : List BId → List BId → List BId) :
    ∀ (fuel : Nat) (F : Func) (r : Func × Bool),
      promoteMemoryToRegister domB domI idf fuel F = some r →
      skelStep F r.1 := by
  intro fuel
  induction fuel with
  | zero =>
    intro F r h
    simp only [promoteMemoryToRegister] at h
    by_cases he : (promotableEntryAllocas F).isEmpty = true
    · rw [if_pos he] at h
      obtain rfl := Option.some_inj.mp h
      exact skelStep_refl F
    · rw [if_neg he] at h
      exact Option.noConfusion h
  | succ fuel ih =>
    intro F r h
    simp only [promoteMemoryToRegister] at h
    by_cases he : (promotableEntryAllocas F).isEmpty = true
    · rw [if_pos he] at h
      obtain rfl := Option.some_inj.mp h
      exact skelStep_refl F
    · rw [if_neg he] at h
      obtain ⟨F1, hF1, h⟩ := bind_eq_some h
      obtain ⟨r0, hr0, h⟩ := bind_eq_some h
      obtain rfl := Option.some_inj.mp h
      have h1 : skelStep F F1 :=
        PromoteMemToReg_skel (fun a ha => promotableEntryAllocas_nonterm ha) hF1
      exact skelStep_comp h1 (ih F1 r0 hr0)


/-- Counterexample to C8 as worded: the pass does not leave terminator
instructions unchanged.  On scenario S1 the return terminator's operand
`%3` (the erased load) is rewritten to the promoted constant, so the
terminator instruction of the entry block differs before and after the
pass, even though its id and (empty) successor list are preserved. -/
theorem c8_counterexample :
    promoteMemoryToRegister (fun _ _ => true) (fun _ _ => true)
      (fun _ _ => []) 5 exS1 = some (exS1res, true) ∧
    exS1.findInstr 4 = some (Instr.term [Val.vreg 3] []) ∧
    exS1res.findInstr 4 = some (Instr.term [Val.vconst 42 exTy] []) ∧
    exS1.findInstr 4 ≠ exS1res.findInstr 4 := by
  refine ⟨by decide, by decide, by decide, by decide⟩

/-- Claim C8 (amended): the pass preserves the control-flow graph
skeleton — the list of basic blocks and the list of CFG edges (one
`(src, dst)` pair per successor slot of each terminator) are unchanged by
promotion, and an id holding a non-terminator instruction never becomes a
terminator; the terminator instructions themselves, however, are not
bitwise unchanged: the pass may rewrite their operands (see the
counterexample). -/
theorem c8_cfg_preserved (domB : BId → BId → Bool) (domI : IId → IId → Bool)
    (idf : List BId → List BId → List BId) (fuel : Nat) (F : Func)
    (r : Func × Bool) (hwf : wfF F)
    (h : promoteMemoryToRegister domB domI idf fuel F = some r) :
    r.1.bids = F.bids ∧ r.1.edges = F.edges ∧
    ∀ i, nonTermId F i → nonTermId r.1 i := by
  obtain ⟨_, hcfg, _, htrans⟩ :=
    promoteMemoryToRegister_skel domB domI idf fuel F r h hwf
  exact ⟨hcfg.1, hcfg.2, htrans⟩

/-- Witness for C8 on scenario S1: its block and edge lists survive the
pass. -/
theorem c8_witness :
    wfF exS1 ∧ exS1res.bids = exS1.bids ∧ exS1res.edges = exS1.edges := by
  have hwf : wfF exS1 := ⟨by decide, by decide, by decide⟩
  have h := c8_cfg_preserved (fun _ _ => true) (fun _ _ => true)
    (fun _ _ => []) 5 exS1 (exS1res, true) hwf (by decide)
  exact ⟨hwf, h.1, h.2.1⟩

end SkelKit

section PhiEdges

theorem find_setInstr_go (i : IId) (ins : Instr) (j : IId) :
    ∀ (l : List (IId × BId × Instr)),
      (l.map (fun t => if t.1 == i then (t.1, t.2.1, ins) else t)).find?
          (fun t => t.1 == j) =
        (l.find? (fun t => t.1 == j)).map
          (fun t => if t.1 == i then (t.1, t.2.1, ins) else t) := by
  intro l
  induction l with
  | nil => rfl
  | cons t rest ih =>
    simp only [List.map_cons]
    by_cases hi : (t.1 == i) = true
    · by_cases hj : (t.1 == j) = true
      · simp only [List.find?_cons, hi, hj, eq_self_iff_true, if_true,
          Option.map_some']
      · rw [Bool.not_eq_true] at hj
        simp only [List.find?_cons, hi, hj, eq_self_iff_true, if_true]
        exact ih
    · rw [Bool.not_eq_true] at hi
      by_cases hj : (t.1 == j) = true
      · simp only [List.find?_cons, hi, hj, Bool.false_eq_true, if_false,
          Option.map_some']
      · rw [Bool.not_eq_true] at hj
        simp only [List.find?_cons, hi, hj, Bool.false_eq_true, if_false]
        exact ih

theorem findInstr_setInstr_self {F : Func} {i : IId} {ins0 : Instr}
    (h : F.findInstr i = some ins0) (ins : Instr) :
    (F.setInstr i ins).findInstr i = some ins := by
  unfold Func.findInstr at h ⊢
  rw [instrs_setInstr, find_setInstr_go]
  cases hf : F.instrs.find? (fun t => t.1 == i) with
  | none =>
    rw [hf] at h
    cases h
  | some t =>
    have ht : (t.1 == i) = true := by simpa using List.find?_some hf
    simp only [Option.map_some']
    rw [if_pos ht]

theorem findInstr_setInstr_other (F : Func) {i j : IId} (ins : Instr)
    (hne : j ≠ i) : (F.setInstr i ins).findInstr j = F.findInstr j := by
  unfold Func.findInstr
  rw [instrs_setInstr, find_setInstr_go]
  cases hf : F.instrs.find? (fun t => t.1 == j) with
  | none => rfl
  | some t =>
    have ht : (t.1 == j) = true := by simpa using List.find?_some hf
    have hti : ¬((t.1 == i) = true) := by
      intro hq
      have h1 : t.1 = j := by simpa using ht
      have h2 : t.1 = i := by simpa using hq
      exact hne (h1.symm.trans h2)
    simp only [Option.map_some']
    rw [if_neg hti]

theorem sublist_flatten_mem {α : Type} {l : List α} {L : List (List α)}
    (h : l ∈ L) : l.Sublist L.flatten := by
  induction L with
  | nil => cases h
  | cons x rest ih =>
    rcases List.mem_cons.mp h with rfl | hm
    · simp only [List.flatten_cons]
      exact List.sublist_append_left l rest.flatten
    · simp only [List.flatten_cons]
      exact (ih hm).trans (List.sublist_append_right _ _)

theorem blockInsts_pids_sub {F : Func} {bb : BId} :
    ((F.blockInsts bb).map (fun p => p.1)).Sublist F.ids := by
  unfold Func.blockInsts
  cases hfind : F.blocks.find? (fun blk => blk.bid == bb) with
  | none => simp
  | some blk =>
    have hmem : blk ∈ F.blocks := List.mem_of_find?_eq_some hfind
    have h1 : blk.insts.map (fun p => (p.1, blk.bid, p.2)) ∈
        F.blocks.map (fun b => b.insts.map (fun p => (p.1, b.bid, p.2))) :=
      List.mem_map_of_mem _ hmem
    have h3 := (sublist_flatten_mem h1).map (fun t : IId × BId × Instr => t.1)
    unfold Func.ids Func.instrs
    simpa [List.map_map, Function.comp] using h3

theorem blockInsts_pids_nodup {F : Func} (hnd : F.ids.Nodup) (bb : BId) :
    ((F.blockInsts bb).map (fun p => p.1)).Nodup :=
  hnd.sublist blockInsts_pids_sub

theorem blockInsts_snapshot {F : Func} (hnd : F.ids.Nodup) (bb : BId) :
    ∀ t ∈ F.blockInsts bb, F.findInstr t.1 = some t.2 :=
  fun t ht => (findInstr_of_mem hnd (mem_blockInsts_mem_instrs ht)).1

/-- Ids outside the processed list are untouched by the phi-update loop. -/
theorem phiUpdateLoop_frame (ptam : List (IId × Nat)) (numEdges : Nat)
    (predBB : BId) :
    ∀ (l : List (IId × Instr)) (F : Func) (vals : List Val) (n0 : Nat)
      (j : IId), (∀ t ∈ l, t.1 ≠ j) →
      (phiUpdateLoop ptam numEdges predBB l F vals n0).1.findInstr j =
        F.findInstr j := by
  intro l
  induction l with
  | nil =>
    intro F vals n0 j hj
    rfl
  | cons t rest ih =>
    intro F vals n0 j hj
    obtain ⟨pid, ins⟩ := t
    cases ins with
    | phi ty inc =>
      simp only [phiUpdateLoop]
      by_cases hlen : (inc.length == n0) = true
      · rw [if_pos hlen]
        rw [ih _ _ _ _ (fun t2 ht2 => hj t2 (List.mem_cons_of_mem _ ht2))]
        exact findInstr_setInstr_other F _
          (fun he => hj (pid, Instr.phi ty inc) (List.mem_cons_self _ _) he.symm)
      · rw [if_neg hlen]
    | alloca ty => rfl
    | load ty p => rfl
    | store sv p => rfl
    | other ty ops => rfl
    | term ops ss => rfl

/-- The head phi of the processed run receives the current incoming value
of its cell, appended exactly `numEdges` times, each entry paired with the
predecessor. -/
theorem phiUpdateLoop_head (ptam : List (IId × Nat)) (numEdges : Nat)
    (predBB : BId) (pid0 : IId) (ty0 : Ty) (inc0 : List (Val × BId))
    (rest : List (IId × Instr)) (F : Func) (vals : List Val) (n0 : Nat)
    (hlen : (inc0.length == n0) = true)
    (hsnap : F.findInstr pid0 = some (Instr.phi ty0 inc0))
    (hrest : ∀ t ∈ rest, t.1 ≠ pid0) :
    (phiUpdateLoop ptam numEdges predBB ((pid0, Instr.phi ty0 inc0) :: rest)
        F vals n0).1.findInstr pid0 =
      some (Instr.phi ty0 (inc0 ++ List.replicate numEdges
        (vals.getD ((ptam.lookup pid0).getD 0) (Val.vundef ty0), predBB))) := by
  simp only [phiUpdateLoop]
  rw [if_pos hlen]
  rw [phiUpdateLoop_frame ptam numEdges predBB rest _ _ _ _ hrest]
  exact findInstr_setInstr_self hsnap _

/-- Every phi of the processed run receives an incoming entry for the
predecessor appended exactly `numEdges` times. -/
theorem phiUpdateLoop_run (ptam : List (IId × Nat)) (numEdges : Nat)
    (predBB : BId) :
    ∀ (l : List (IId × Instr)) (F : Func) (vals : List Val) (n0 : Nat),
      (∀ t ∈ l, F.findInstr t.1 = some t.2) →
      ((l.map (fun t => t.1)).Nodup) →
      ∀ pid ty inc, (pid, Instr.phi ty inc) ∈ phiRun n0 l →
        ∃ v, (phiUpdateLoop ptam numEdges predBB l F vals n0).1.findInstr pid =
          some (Instr.phi ty (inc ++ List.replicate numEdges (v, predBB))) := by
  intro l
  induction l with
  | nil =>
    intro F vals n0 hsnap hnd pid ty inc hm
    cases hm
  | cons t rest ih =>
    intro F vals n0 hsnap hnd pid ty inc hm
    obtain ⟨pid0, ins0⟩ := t
    rw [List.map_cons] at hnd
    obtain ⟨hnotin, hndrest⟩ := List.nodup_cons.mp hnd
    cases ins0 with
    | phi ty0 inc0 =>
      by_cases hlen : (inc0.length == n0) = true
      · have hrun : phiRun n0 ((pid0, Instr.phi ty0 inc0) :: rest) =
            (pid0, Instr.phi ty0 inc0) :: phiRun n0 rest := by
          unfold phiRun
          rw [List.takeWhile_cons]
          simp only []
          rw [if_pos hlen]
        rw [hrun] at hm
        simp only [phiUpdateLoop]
        rw [if_pos hlen]
        rcases List.mem_cons.mp hm with hhead | htail
        · have h1 : pid = pid0 := congrArg Prod.fst hhead
          have h2 : Instr.phi ty inc = Instr.phi ty0 inc0 := congrArg Prod.snd hhead
          subst h1
          injection h2 with hty hinc
          subst hty
          subst hinc
          refine ⟨vals.getD ((ptam.lookup pid).getD 0) (Val.vundef ty), ?_⟩
          rw [phiUpdateLoop_frame ptam numEdges predBB rest _ _ _ _
            (fun t2 ht2 he => hnotin (by
              rw [← he]
              exact List.mem_map.mpr ⟨t2, ht2, rfl⟩))]
          exact findInstr_setInstr_self
            (hsnap (pid, Instr.phi ty inc) (List.mem_cons_self _ _)) _
        · refine ih _ _ _ ?_ hndrest pid ty inc htail
          intro t2 ht2
          rw [findInstr_setInstr_other _ _
            (fun he => hnotin (by
              rw [← he]
              exact List.mem_map.mpr ⟨t2, ht2, rfl⟩))]
          exact hsnap t2 (List.mem_cons_of_mem _ ht2)
      · have hrun : phiRun n0 ((pid0, Instr.phi ty0 inc0) :: rest) = [] := by
          unfold phiRun
          rw [List.takeWhile_cons]
          simp only []
          rw [if_neg hlen]
        rw [hrun] at hm
        cases hm
    | alloca ty0 =>
      have hrun : phiRun n0 ((pid0, Instr.alloca ty0) :: rest) = [] := by
        unfold phiRun
        rw [List.takeWhile_cons]
        simp only []
        rw [if_neg Bool.false_ne_true]
      rw [hrun] at hm
      cases hm
    | load ty0 p2 =>
      have hrun : phiRun n0 ((pid0, Instr.load ty0 p2) :: rest) = [] := by
        unfold phiRun
        rw [List.takeWhile_cons]
        simp only []
        rw [if_neg Bool.false_ne_true]
      rw [hrun] at hm
      cases hm
    | store sv p2 =>
      have hrun : phiRun n0 ((pid0, Instr.store sv p2) :: rest) = [] := by
        unfold phiRun
        rw [List.takeWhile_cons]
        simp only []
        rw [if_neg Bool.false_ne_true]
      rw [hrun] at hm
      cases hm
    | other ty0 ops =>
      have hrun : phiRun n0 ((pid0, Instr.other ty0 ops) :: rest) = [] := by
        unfold phiRun
        rw [List.takeWhile_cons]
        simp only []
        rw [if_neg Bool.false_ne_true]
      rw [hrun] at hm
      cases hm
    | term ops ss =>
      have hrun : phiRun n0 ((pid0, Instr.term ops ss) :: rest) = [] := by
        unfold phiRun
        rw [List.takeWhile_cons]
        simp only []
        rw [if_neg Bool.false_ne_true]
      rw [hrun] at hm
      cases hm

/-- Claim C5: on an arrival of the renaming walk at block `bb` along the
edge from predecessor `p`, each registered phi of the processed block-head
run receives an incoming entry paired with `p` appended exactly
`NumEdges = (succsOf p).count bb` times — the number of successor slots of
the predecessor terminator targeting `bb`, duplicates (switch cases with
one target) included — and the head phi receives exactly the incoming
value of its cell. -/
theorem c5_phi_num_edges (F : Func) (ptam : List (IId × Nat)) (bb p : BId)
    (vals : List Val) (pid0 : IId) (ty0 : Ty) (inc0 : List (Val × BId))
    (rest : List (IId × Instr)) (r : Func × List Val)
    (hnd : F.ids.Nodup)
    (hbi : F.blockInsts bb = (pid0, Instr.phi ty0 inc0) :: rest)
    (hreg : (ptam.lookup pid0).isSome = true)
    (hne : ((F.succsOf p).count bb == 0) = false)
    (h : renamePhiUpdate F ptam bb (some p) vals = some r) :
    (∀ pid ty inc,
      (pid, Instr.phi ty inc) ∈
        phiRun inc0.length ((pid0, Instr.phi ty0 inc0) :: rest) →
      ∃ v, r.1.findInstr pid = some (Instr.phi ty
        (inc ++ List.replicate ((F.succsOf p).count bb) (v, p)))) ∧
    r.1.findInstr pid0 = some (Instr.phi ty0 (inc0 ++
      List.replicate ((F.succsOf p).count bb)
        (vals.getD ((ptam.lookup pid0).getD 0) (Val.vundef ty0), p))) := by
  unfold renamePhiUpdate at h
  rw [hbi] at h
  simp only [] at h
  rw [if_pos hreg] at h
  rw [hne] at h
  simp only [Bool.false_eq_true, if_false] at h
  obtain rfl := Option.some_inj.mp h
  have hnd2 : (((pid0, Instr.phi ty0 inc0) :: rest).map (fun t => t.1)).Nodup := by
    rw [← hbi]
    exact blockInsts_pids_nodup hnd bb
  constructor
  · intro pid ty inc hm
    refine phiUpdateLoop_run ptam _ p ((pid0, Instr.phi ty0 inc0) :: rest)
      F vals inc0.length ?_ hnd2 pid ty inc hm
    intro t ht
    refine blockInsts_snapshot hnd bb t ?_
    rw [hbi]
    exact ht
  · rw [List.map_cons] at hnd2
    obtain ⟨hnotin, _⟩ := List.nodup_cons.mp hnd2
    refine phiUpdateLoop_head ptam _ p pid0 ty0 inc0 rest F vals inc0.length
      (by simp) ?_ (fun t ht he => hnotin (by
        rw [← he]
        exact List.mem_map.mpr ⟨t, ht, rfl⟩))
    refine blockInsts_snapshot hnd bb (pid0, Instr.phi ty0 inc0) ?_
    rw [hbi]
    exact List.mem_cons_self _ _

/-- Witness for C5 on scenario Sw: the duplicate switch edges make the phi
list its incoming entry twice. -/
theorem c5_witness :
    exSw.ids.Nodup ∧
    exSw.blockInsts 1 = (2, Instr.phi exTy []) :: [(3, Instr.term [] [])] ∧
    (exSw.succsOf 0).count 1 = 2 ∧
    renamePhiUpdate exSw [(2, 0)] 1 (some 0) [Val.vconst 7 exTy] =
      some (exSwRes, [Val.vreg 2]) ∧
    exSwRes.findInstr 2 =
      some (Instr.phi exTy [(Val.vconst 7 exTy, 0), (Val.vconst 7 exTy, 0)]) := by
  have hnd : exSw.ids.Nodup := by decide
  have h := c5_phi_num_edges exSw [(2, 0)] 1 0 [Val.vconst 7 exTy] 2 exTy []
    [(3, Instr.term [] [])] (exSwRes, [Val.vreg 2]) hnd (by decide) (by decide)
    (by decide) (by decide)
  refine ⟨hnd, by decide, by decide, by decide, ?_⟩
  exact h.2.trans (by decide)

end PhiEdges

section PhiFill

theorem insertByNum_length (nums : List (BId × Nat)) (b : BId) :
    ∀ l : List BId, (insertByNum nums b l).length = l.length + 1 := by
  intro l
  induction l with
  | nil => rfl
  | cons c rest ih =>
    simp only [insertByNum]
    by_cases hlt : bbNumOf nums b < bbNumOf nums c
    · rw [if_pos hlt]
      rfl
    · rw [if_neg hlt]
      simp only [List.length_cons, ih]

theorem sortByNum_length (nums : List (BId × Nat)) :
    ∀ l : List BId, (sortByNum nums l).length = l.length := by
  intro l
  induction l with
  | nil => rfl
  | cons b rest ih =>
    simp only [sortByNum, insertByNum_length, List.length_cons, ih]

theorem insertByNum_mem (nums : List (BId × Nat)) (b : BId) :
    ∀ (l : List BId) (x : BId), x ∈ insertByNum nums b l → x = b ∨ x ∈ l := by
  intro l
  induction l with
  | nil =>
    intro x hx
    rcases List.mem_cons.mp hx with h | h
    · exact Or.inl h
    · cases h
  | cons c rest ih =>
    intro x hx
    simp only [insertByNum] at hx
    by_cases hlt : bbNumOf nums b < bbNumOf nums c
    · rw [if_pos hlt] at hx
      rcases List.mem_cons.mp hx with h | h
      · exact Or.inl h
      · exact Or.inr h
    · rw [if_neg hlt] at hx
      rcases List.mem_cons.mp hx with h | h
      · exact Or.inr (h ▸ List.mem_cons_self _ _)
      · rcases ih x h with h2 | h2
        · exact Or.inl h2
        · exact Or.inr (List.mem_cons_of_mem _ h2)

theorem sortByNum_mem (nums : List (BId × Nat)) :
    ∀ (l : List BId) (x : BId), x ∈ sortByNum nums l → x ∈ l := by
  intro l
  induction l with
  | nil =>
    intro x hx
    cases hx
  | cons b rest ih =>
    intro x hx
    simp only [sortByNum] at hx
    rcases insertByNum_mem nums b _ x hx with h | h
    · exact h ▸ List.mem_cons_self _ _
    · exact List.mem_cons_of_mem _ (ih x h)

theorem removeOneSorted_length (b : BId) :
    ∀ (l l' : List BId), removeOneSorted b l = some l' →
      l'.length + 1 = l.length := by
  intro l
  induction l with
  | nil =>
    intro l' h
    cases h
  | cons c rest ih =>
    intro l' h
    simp only [removeOneSorted] at h
    by_cases hc : (c == b) = true
    · rw [if_pos hc] at h
      obtain rfl := Option.some_inj.mp h
      rfl
    · rw [if_neg hc] at h
      obtain ⟨r, hr, hmap⟩ := Option.map_eq_some'.mp h
      obtain rfl : c :: r = l' := hmap
      simp only [List.length_cons, ih r hr]

theorem removeOneSorted_sub (b : BId) :
    ∀ (l l' : List BId), removeOneSorted b l = some l' →
      ∀ x ∈ l', x ∈ l := by
  intro l
  induction l with
  | nil =>
    intro l' h
    cases h
  | cons c rest ih =>
    intro l' h x hx
    simp only [removeOneSorted] at h
    by_cases hc : (c == b) = true
    · rw [if_pos hc] at h
      obtain rfl := Option.some_inj.mp h
      exact List.mem_cons_of_mem _ hx
    · rw [if_neg hc] at h
      obtain ⟨r, hr, hmap⟩ := Option.map_eq_some'.mp h
      obtain rfl : c :: r = l' := hmap
      rcases List.mem_cons.mp hx with h2 | h2
      · exact h2 ▸ List.mem_cons_self _ _
      · exact List.mem_cons_of_mem _ (ih r hr x h2)

theorem removeAllIncoming_length :
    ∀ (incs : List BId) (preds missing : List BId),
      removeAllIncoming preds incs = some missing →
      missing.length + incs.length = preds.length := by
  intro incs
  induction incs with
  | nil =>
    intro preds missing h
    simp only [removeAllIncoming] at h
    obtain rfl := Option.some_inj.mp h
    rfl
  | cons b rest ih =>
    intro preds missing h
    simp only [removeAllIncoming] at h
    obtain ⟨preds1, hp1, h⟩ := bind_eq_some h
    have h1 := removeOneSorted_length b preds preds1 hp1
    have h2 := ih preds1 missing h
    simp only [List.length_cons]
    rw [← h1, ← h2]
    omega

theorem removeAllIncoming_sub :
    ∀ (incs : List BId) (preds missing : List BId),
      removeAllIncoming preds incs = some missing →
      ∀ x ∈ missing, x ∈ preds := by
  intro incs
  induction incs with
  | nil =>
    intro preds missing h x hx
    simp only [removeAllIncoming] at h
    obtain rfl := Option.some_inj.mp h
    exact hx
  | cons b rest ih =>
    intro preds missing h x hx
    simp only [removeAllIncoming] at h
    obtain ⟨preds1, hp1, h⟩ := bind_eq_some h
    exact removeOneSorted_sub b preds preds1 hp1 x (ih preds1 missing h x hx)

/-- Ids outside the processed list are untouched by the poison-fill run. -/
theorem fillPhiRun_frame (missing : List BId) (nbad : Nat) :
    ∀ (l : List (IId × Instr)) (F : Func) (j : IId),
      (∀ t ∈ l, t.1 ≠ j) →
      (fillPhiRun missing nbad l F).findInstr j = F.findInstr j := by
  intro l
  induction l with
  | nil =>
    intro F j hj
    rfl
  | cons t rest ih =>
    intro F j hj
    obtain ⟨pid, ins⟩ := t
    cases ins with
    | phi ty inc =>
      simp only [fillPhiRun]
      by_cases hlen : (inc.length == nbad) = true
      · rw [if_pos hlen]
        rw [ih _ _ (fun t2 ht2 => hj t2 (List.mem_cons_of_mem _ ht2))]
        exact findInstr_setInstr_other F _
          (fun he => hj (pid, Instr.phi ty inc) (List.mem_cons_self _ _) he.symm)
      · rw [if_neg hlen]
    | alloca ty => rfl
    | load ty p => rfl
    | store sv p => rfl
    | other ty ops => rfl
    | term ops ss => rfl

/-- The front phi of the run receives one poison entry per missing
predecessor. -/
theorem fillPhiRun_head (missing : List BId) (pid0 : IId) (ty0 : Ty)
    (inc0 : List (Val × BId)) (rest : List (IId × Instr)) (F : Func)
    (nbad : Nat) (hlen : (inc0.length == nbad) = true)
    (hsnap : F.findInstr pid0 = some (Instr.phi ty0 inc0))
    (hrest : ∀ t ∈ rest, t.1 ≠ pid0) :
    (fillPhiRun missing nbad ((pid0, Instr.phi ty0 inc0) :: rest)
        F).findInstr pid0 =
      some (Instr.phi ty0
        (inc0 ++ missing.map (fun p => (Val.vpoison ty0, p)))) := by
  simp only [fillPhiRun]
  rw [if_pos hlen]
  rw [fillPhiRun_frame missing nbad rest _ _ hrest]
  exact findInstr_setInstr_self hsnap _

/-- Claim C6: after the cleanup processes a registered phi that heads its
block, the phi's incoming count equals the number of predecessors of its
block: entries the renamer never produced (unreachable predecessors) are
appended as poison entries, one per missing predecessor. -/
theorem c6_phi_pred_count (nums : List (BId × Nat)) (F : Func) (pid : IId)
    (ty : Ty) (inc : List (Val × BId)) (bb : BId) (rest : List (IId × Instr))
    (F' : Func)
    (hnd : F.ids.Nodup)
    (hfi : F.findInstr pid = some (Instr.phi ty inc))
    (hpar : F.parentOf pid = some bb)
    (hbi : F.blockInsts bb = (pid, Instr.phi ty inc) :: rest)
    (h : poisonFillEntry nums F pid = some F') :
    ∃ missing : List BId,
      F'.findInstr pid = some (Instr.phi ty
        (inc ++ missing.map (fun p => (Val.vpoison ty, p)))) ∧
      inc.length + missing.length = F.numPreds bb ∧
      ∀ mp ∈ missing, mp ∈ F.predsOf bb := by
  unfold poisonFillEntry at h
  rw [hfi] at h
  simp only [Option.bind_eq_bind, Option.some_bind] at h
  obtain ⟨bb2, hbb2, h⟩ := bind_eq_some h
  rw [hpar] at hbb2
  obtain rfl : bb = bb2 := Option.some_inj.mp hbb2
  rw [hbi] at h
  simp only [] at h
  rw [if_neg (by simp : ¬((pid != pid) = true))] at h
  by_cases hlen : (inc.length == F.numPreds bb) = true
  · rw [if_pos hlen] at h
    obtain rfl := Option.some_inj.mp h
    refine ⟨[], ?_, ?_, ?_⟩
    · simpa using hfi
    · simpa using (Nat.beq_eq_true_eq _ _).mp hlen
    · intro mp hmp
      cases hmp
  · rw [if_neg hlen] at h
    obtain ⟨missing, hrem, h⟩ := bind_eq_some h
    obtain rfl := Option.some_inj.mp h
    have hnd2 : (((pid, Instr.phi ty inc) :: rest).map (fun t => t.1)).Nodup := by
      rw [← hbi]
      exact blockInsts_pids_nodup hnd bb
    rw [List.map_cons] at hnd2
    obtain ⟨hnotin, _⟩ := List.nodup_cons.mp hnd2
    refine ⟨missing, ?_, ?_, ?_⟩
    · exact fillPhiRun_head missing pid ty inc rest F inc.length (by simp) hfi
        (fun t ht he => hnotin (by
          rw [← he]
          exact List.mem_map.mpr ⟨t, ht, rfl⟩))
    · have h1 := removeAllIncoming_length (inc.map (fun vb => vb.2)) _ _ hrem
      rw [List.length_map, sortByNum_length] at h1
      unfold Func.numPreds
      omega
    · intro mp hmp
      exact sortByNum_mem nums _ mp
        (removeAllIncoming_sub (inc.map (fun vb => vb.2)) _ _ hrem mp hmp)

/-- Witness for C6 on scenario Unr: the phi reached only from block 0 is
filled with a poison entry for the unreachable predecessor 1, reaching
incoming count 2 = number of predecessors. -/
theorem c6_witness :
    exUnr.ids.Nodup ∧ exUnr.numPreds 2 = 2 ∧
    poisonFillEntry [(0, 0), (1, 1), (2, 2)] exUnr 3 = some exUnrRes ∧
    ∃ missing : List BId,
      exUnrRes.findInstr 3 = some (Instr.phi exTy
        ([(Val.vconst 1 exTy, 0)] ++
          missing.map (fun p => (Val.vpoison exTy, p)))) ∧
      1 + missing.length = exUnr.numPreds 2 := by
  have h := c6_phi_pred_count [(0, 0), (1, 1), (2, 2)] exUnr 3 exTy
    [(Val.vconst 1 exTy, 0)] 2 [(4, Instr.term [] [])] exUnrRes
    (by decide) (by decide) (by decide) (by decide) (by decide)
  obtain ⟨missing, h1, h2, h3⟩ := h
  exact ⟨by decide, by decide, by decide, missing, h1, h2⟩

end PhiFill

section CellGoneKit

theorem users_empty_iff {F : Func} {v : Val} :
    F.usersOf v = [] ↔ ∀ t ∈ F.instrs, v ∉ t.2.2.operands := by
  unfold Func.usersOf
  rw [List.filter_eq_nil]
  constructor
  · intro h t ht hmem
    exact h t ht (by simpa [List.elem_iff] using hmem)
  · intro h t ht hc
    exact h t ht (by simpa [List.elem_iff] using hc)

theorem operand_ne_of_gone {a : IId} {F : Func} {i : IId} {ins : Instr}
    {v : Val} (hu : F.usersOf (Val.vreg a) = [])
    (hfi : F.findInstr i = some ins) (hv : v ∈ ins.operands) :
    v ≠ Val.vreg a := by
  intro he
  subst he
  unfold Func.findInstr at hfi
  obtain ⟨t, hft, hmap⟩ := Option.map_eq_some'.mp hfi
  have htm := List.mem_of_find?_eq_some hft
  have hno := users_empty_iff.mp hu t htm
  rw [hmap] at hno
  exact hno hv

theorem findInstr_none_eraseInstr {a : IId} {F : Func}
    (h : F.findInstr a = none) (i : IId) :
    (F.eraseInstr i).findInstr a = none := by
  unfold Func.findInstr at h ⊢
  rw [instrs_eraseInstr]
  rw [Option.map_eq_none', List.find?_eq_none] at h ⊢
  exact fun t ht => h t (List.mem_of_mem_filter ht)

theorem users_empty_eraseInstr {a : IId} {F : Func}
    (h : F.usersOf (Val.vreg a) = []) (i : IId) :
    (F.eraseInstr i).usersOf (Val.vreg a) = [] := by
  rw [users_empty_iff] at h ⊢
  intro t ht
  rw [instrs_eraseInstr] at ht
  exact h t (List.mem_of_mem_filter ht)

theorem gone_eraseInstr {a : IId} {F : Func} (hg : CellGone a F) (i : IId) :
    CellGone a (F.eraseInstr i) :=
  ⟨findInstr_none_eraseInstr hg.1 i, users_empty_eraseInstr hg.2 i⟩

theorem findInstr_none_rauw {a : IId} {F : Func}
    (h : F.findInstr a = none) (o n : Val) :
    (F.rauw o n).findInstr a = none := by
  unfold Func.findInstr at h ⊢
  rw [instrs_rauw]
  rw [Option.map_eq_none', List.find?_eq_none] at h ⊢
  intro t ht
  obtain ⟨t0, ht0, rfl⟩ := List.mem_map.mp ht
  exact h t0 ht0

theorem gone_rauw {a : IId} {F : Func} (hg : CellGone a F) {o n : Val}
    (hn : n ≠ Val.vreg a) : CellGone a (F.rauw o n) := by
  obtain ⟨h1, h2⟩ := hg
  refine ⟨findInstr_none_rauw h1 o n, ?_⟩
  rw [users_empty_iff] at h2 ⊢
  intro t ht hmem
  rw [instrs_rauw] at ht
  obtain ⟨t0, ht0, rfl⟩ := List.mem_map.mp ht
  simp only [] at hmem
  rw [mapOps_operands] at hmem
  obtain ⟨v0, hv0, hsub⟩ := List.mem_map.mp hmem
  unfold substVal at hsub
  by_cases hvo : v0 = o
  · rw [if_pos hvo] at hsub
    exact hn hsub
  · rw [if_neg hvo] at hsub
    exact (h2 t0 ht0) (hsub ▸ hv0)

theorem gone_setInstr {a : IId} {F : Func} (hg : CellGone a F) {i : IId}
    {ins : Instr} (hins : Val.vreg a ∉ ins.operands) :
    CellGone a (F.setInstr i ins) := by
  obtain ⟨h1, h2⟩ := hg
  constructor
  · unfold Func.findInstr at h1 ⊢
    rw [instrs_setInstr]
    rw [Option.map_eq_none', List.find?_eq_none] at h1 ⊢
    intro t ht
    obtain ⟨t0, ht0, rfl⟩ := List.mem_map.mp ht
    by_cases ht0i : (t0.1 == i) = true
    · rw [if_pos ht0i]
      exact h1 t0 ht0
    · rw [if_neg ht0i]
      exact h1 t0 ht0
  · rw [users_empty_iff] at h2 ⊢
    intro t ht hmem
    rw [instrs_setInstr] at ht
    obtain ⟨t0, ht0, rfl⟩ := List.mem_map.mp ht
    by_cases ht0i : (t0.1 == i) = true
    · rw [if_pos ht0i] at hmem
      exact hins hmem
    · rw [if_neg ht0i] at hmem
      exact h2 t0 ht0 hmem

theorem gone_insertPhi {a : IId} {F : Func} (hg : CellGone a F) {b : BId}
    {pid : IId} {ty : Ty} (hpid : pid ≠ a) :
    CellGone a (insertPhiAtHead F b pid ty) := by
  obtain ⟨h1, h2⟩ := hg
  constructor
  · unfold Func.findInstr at h1 ⊢
    rw [Option.map_eq_none', List.find?_eq_none] at h1 ⊢
    intro t ht
    rcases mem_instrs_insertPhi ht with ⟨hid, _⟩ | hmem
    · simp only [hid]
      simpa using hpid
    · exact h1 t hmem
  · rw [users_empty_iff] at h2 ⊢
    intro t ht hmem
    rcases mem_instrs_insertPhi ht with ⟨_, hins⟩ | hm
    · rw [hins] at hmem
      cases hmem
    · exact h2 t hm hmem

/-- Erasing a cell whose users were already all gone leaves it gone. -/
theorem gone_of_erase {a : IId} {F : Func}
    (hu : F.usersOf (Val.vreg a) = []) :
    CellGone a (F.eraseInstr a) :=
  ⟨findInstr_eraseInstr_self F a, users_empty_eraseInstr hu a⟩

/-- Replacing the cell's remaining uses with poison and erasing it leaves it
gone. -/
theorem gone_establish_rauw (a : IId) (F : Func) :
    CellGone a ((F.rauw (Val.vreg a) (Val.vpoison Ty.ptr)).eraseInstr a) := by
  refine ⟨findInstr_eraseInstr_self _ a, ?_⟩
  rw [users_empty_iff]
  intro t ht
  rw [instrs_eraseInstr] at ht
  exact rauw_clears_operand (by intro h; cases h) (List.mem_of_mem_filter ht)

end CellGoneKit

section FastPathGone

theorem rssaRewrite_gone {a : IId} {osId uid : IId} {lty : Ty} {F F' : Func}
    {lbi lbi' : LBI} (hg : CellGone a F)
    (h : rssaRewrite osId uid lty F lbi = some (F', lbi')) :
    CellGone a F' := by
  unfold rssaRewrite at h
  cases hfi : F.findInstr osId with
  | none => simp only [hfi, Option.bind_eq_bind, Option.none_bind] at h; cases h
  | some ins =>
    cases ins with
    | store sv q =>
      simp only [hfi, Option.bind_eq_bind, Option.some_bind] at h
      have hF : (F.rauw (Val.vreg uid)
          (if sv == Val.vreg uid then Val.vpoison lty else sv)).eraseInstr uid
            = F' :=
        congrArg Prod.fst (Option.some_inj.mp h)
      rw [← hF]
      refine gone_eraseInstr (gone_rauw hg ?_) uid
      by_cases hsv : (sv == Val.vreg uid) = true
      · rw [if_pos hsv]
        intro hq
        cases hq
      · rw [if_neg hsv]
        exact operand_ne_of_gone hg.2 hfi (List.mem_cons_self sv [q])
    | alloca ty2 =>
      simp only [hfi, Option.bind_eq_bind, Option.none_bind] at h; cases h
    | load ty2 p2 =>
      simp only [hfi, Option.bind_eq_bind, Option.none_bind] at h; cases h
    | phi ty2 inc =>
      simp only [hfi, Option.bind_eq_bind, Option.none_bind] at h; cases h
    | other ty2 ops =>
      simp only [hfi, Option.bind_eq_bind, Option.none_bind] at h; cases h
    | term ops ss =>
      simp only [hfi, Option.bind_eq_bind, Option.none_bind] at h; cases h

theorem rssaLoop_gone (a : IId) (domB : BId → BId → Bool) (osId : IId)
    (sgv : Bool) (storeBB : BId) :
    ∀ (us : List (IId × BId × Instr)) (F : Func) (info : AllocaInfo)
      (lbi : LBI) (si : Option Nat) (F' : Func) (info' : AllocaInfo)
      (lbi' : LBI) (si' : Option Nat),
      CellGone a F →
      rssaLoop domB osId sgv storeBB us F info lbi si =
        some (F', info', lbi', si') →
      CellGone a F' := by
  intro us
  induction us with
  | nil =>
    intro F info lbi si F' info' lbi' si' hg h
    simp only [rssaLoop] at h
    obtain rfl : F = F' := congrArg (fun r => r.1) (Option.some_inj.mp h)
    exact hg
  | cons u rest ih =>
    intro F info lbi si F' info' lbi' si' hg h
    simp only [rssaLoop] at h
    by_cases hid : (u.1 == osId) = true
    · rw [if_pos hid] at h
      exact ih F info lbi si F' info' lbi' si' hg h
    · rw [if_neg hid] at h
      cases hfi : F.findInstr u.1 with
      | none => simp only [hfi, Option.bind_eq_bind, Option.none_bind] at h; cases h
      | some ins =>
        cases ins with
        | load lty pp =>
          simp only [hfi, Option.bind_eq_bind, Option.some_bind] at h
          cases sgv with
          | true =>
            rw [if_pos rfl] at h
            cases hrw : rssaRewrite osId u.1 lty F lbi with
            | none =>
              simp only [hrw, Option.bind_eq_bind, Option.none_bind] at h; cases h
            | some pr =>
              obtain ⟨F1, lbi1⟩ := pr
              simp only [hrw, Option.bind_eq_bind, Option.some_bind] at h
              exact ih F1 info lbi1 si F' info' lbi' si'
                (rssaRewrite_gone hg hrw) h
          | false =>
            rw [if_neg Bool.false_ne_true] at h
            cases hpar : F.parentOf u.1 with
            | none =>
              simp only [hpar, Option.bind_eq_bind, Option.none_bind] at h; cases h
            | some lbPar =>
              simp only [hpar, Option.bind_eq_bind, Option.some_bind] at h
              by_cases hin : (lbPar == storeBB) = true
              · rw [if_pos hin] at h
                cases si with
                | some n =>
                  simp only [Option.bind_eq_bind, Option.some_bind] at h
                  cases hg2 : getInstructionIndex F lbi u.1 with
                  | none =>
                    simp only [hg2, Option.bind_eq_bind, Option.none_bind] at h; cases h
                  | some pr2 =>
                    obtain ⟨li, lbi2⟩ := pr2
                    simp only [hg2, Option.bind_eq_bind, Option.some_bind] at h
                    by_cases hgt : n > li
                    · rw [if_pos hgt] at h
                      exact ih F _ lbi2 (some n) F' info' lbi' si' hg h
                    · rw [if_neg hgt] at h
                      cases hrw : rssaRewrite osId u.1 lty F lbi2 with
                      | none =>
                        simp only [hrw, Option.bind_eq_bind,
                          Option.none_bind] at h; cases h
                      | some pr =>
                        obtain ⟨F1, lbi3⟩ := pr
                        simp only [hrw, Option.bind_eq_bind,
                          Option.some_bind] at h
                        exact ih F1 info lbi3 (some n) F' info' lbi' si'
                          (rssaRewrite_gone hg hrw) h
                | none =>
                  cases hg1 : getInstructionIndex F lbi osId with
                  | none =>
                    simp only [hg1, Option.bind_eq_bind, Option.none_bind] at h; cases h
                  | some pr1 =>
                    obtain ⟨n, lbi1⟩ := pr1
                    simp only [hg1, Option.bind_eq_bind, Option.some_bind] at h
                    cases hg2 : getInstructionIndex F lbi1 u.1 with
                    | none =>
                      simp only [hg2, Option.bind_eq_bind, Option.none_bind] at h; cases h
                    | some pr2 =>
                      obtain ⟨li, lbi2⟩ := pr2
                      simp only [hg2, Option.bind_eq_bind, Option.some_bind] at h
                      by_cases hgt : n > li
                      · rw [if_pos hgt] at h
                        exact ih F _ lbi2 (some n) F' info' lbi' si' hg h
                      · rw [if_neg hgt] at h
                        cases hrw : rssaRewrite osId u.1 lty F lbi2 with
                        | none =>
                          simp only [hrw, Option.bind_eq_bind,
                            Option.none_bind] at h; cases h
                        | some pr =>
                          obtain ⟨F1, lbi3⟩ := pr
                          simp only [hrw, Option.bind_eq_bind,
                            Option.some_bind] at h
                          exact ih F1 info lbi3 (some n) F' info' lbi' si'
                            (rssaRewrite_gone hg hrw) h
              · rw [if_neg hin] at h
                cases hdom : domB storeBB lbPar with
                | false =>
                  rw [hdom] at h
                  rw [if_pos (show (!false) = true from rfl)] at h
                  exact ih F _ lbi si F' info' lbi' si' hg h
                | true =>
                  rw [hdom] at h
                  simp only [Bool.not_true, Bool.false_eq_true, if_false] at h
                  cases hrw : rssaRewrite osId u.1 lty F lbi with
                  | none =>
                    simp only [hrw, Option.bind_eq_bind, Option.none_bind] at h; cases h
                  | some pr =>
                    obtain ⟨F1, lbi1⟩ := pr
                    simp only [hrw, Option.bind_eq_bind, Option.some_bind] at h
                    exact ih F1 info lbi1 si F' info' lbi' si'
                      (rssaRewrite_gone hg hrw) h
        | alloca ty2 =>
          simp only [hfi, Option.bind_eq_bind, Option.none_bind] at h; cases h
        | store sv q =>
          simp only [hfi, Option.bind_eq_bind, Option.none_bind] at h; cases h
        | phi ty2 inc =>
          simp only [hfi, Option.bind_eq_bind, Option.none_bind] at h; cases h
        | other ty2 ops =>
          simp only [hfi, Option.bind_eq_bind, Option.none_bind] at h; cases h
        | term ops ss =>
          simp only [hfi, Option.bind_eq_bind, Option.none_bind] at h; cases h

theorem rewriteSingleStoreAlloca_gone {a : IId} {domB : BId → BId → Bool}
    {F : Func} {aid : IId} {info : AllocaInfo} {lbi : LBI}
    {r : Func × AllocaInfo × LBI × Bool} (hg : CellGone a F)
    (h : rewriteSingleStoreAlloca domB F aid info lbi = some r) :
    CellGone a r.1 := by
  unfold rewriteSingleStoreAlloca at h
  cases hos : info.OnlyStore with
  | none => simp only [hos, Option.bind_eq_bind, Option.none_bind] at h; cases h
  | some osId =>
    simp only [hos, Option.bind_eq_bind, Option.some_bind] at h
    cases hsv : F.findInstr osId with
    | none => simp only [hsv, Option.bind_eq_bind, Option.none_bind] at h; cases h
    | some ins =>
      cases ins with
      | store sv q =>
        simp only [hsv, Option.bind_eq_bind, Option.some_bind] at h
        cases hpar : F.parentOf osId with
        | none => simp only [hpar, Option.bind_eq_bind, Option.none_bind] at h; cases h
        | some storeBB =>
          simp only [hpar, Option.bind_eq_bind, Option.some_bind] at h
          obtain ⟨q4, hloop, h⟩ := bind_eq_some h
          obtain ⟨F1, info2, lbi1, flag⟩ := q4
          simp only [] at h
          have hg1 : CellGone a F1 :=
            rssaLoop_gone a domB osId _ storeBB _ F _ lbi none F1 info2 lbi1
              flag hg hloop
          by_cases hub : (!info2.UsingBlocks.isEmpty) = true
          · rw [if_pos hub] at h
            obtain rfl : F1 = r.1 :=
              congrArg (fun z => z.1) (Option.some_inj.mp h)
            exact hg1
          · rw [if_neg hub] at h
            obtain hr : ((F1.eraseInstr osId).eraseInstr aid) = r.1 :=
              congrArg (fun z => z.1) (Option.some_inj.mp h)
            rw [← hr]
            exact gone_eraseInstr (gone_eraseInstr hg1 osId) aid
      | alloca ty2 =>
        simp only [hsv, Option.bind_eq_bind, Option.none_bind] at h; cases h
      | load ty2 p2 =>
        simp only [hsv, Option.bind_eq_bind, Option.none_bind] at h; cases h
      | phi ty2 inc =>
        simp only [hsv, Option.bind_eq_bind, Option.none_bind] at h; cases h
      | other ty2 ops =>
        simp only [hsv, Option.bind_eq_bind, Option.none_bind] at h; cases h
      | term ops ss =>
        simp only [hsv, Option.bind_eq_bind, Option.none_bind] at h; cases h

theorem psbaLoadsLoop_gone {a : IId} (stores : List (Nat × IId)) :
    ∀ (us : List (IId × BId × Instr)) (F : Func) (lbi : LBI) (ok : Bool)
      (F' : Func) (lbi' : LBI),
      CellGone a F →
      psbaLoadsLoop stores us F lbi = some (ok, F', lbi') →
      CellGone a F' := by
  intro us
  induction us with
  | nil =>
    intro F lbi ok F' lbi' hg h
    simp only [psbaLoadsLoop] at h
    obtain rfl : F = F' := congrArg (fun r => r.2.1) (Option.some_inj.mp h)
    exact hg
  | cons u rest ih =>
    intro F lbi ok F' lbi' hg h
    simp only [psbaLoadsLoop] at h
    cases hins : u.2.2 with
    | load lty0 p0 =>
      rw [hins] at h
      simp only [] at h
      cases hfi : F.findInstr u.1 with
      | none => simp only [hfi, Option.bind_eq_bind, Option.none_bind] at h; cases h
      | some ins =>
        cases ins with
        | load lty pp =>
          simp only [hfi, Option.bind_eq_bind, Option.some_bind] at h
          obtain ⟨pr2, _, h⟩ := bind_eq_some h
          obtain ⟨li, lbi1⟩ := pr2
          simp only [] at h
          by_cases hbe : ((stores.filter (fun p => p.1 < li)).isEmpty) = true
          · rw [if_pos hbe] at h
            by_cases hse : (stores.isEmpty) = true
            · rw [if_pos hse] at h
              refine ih _ _ ok F' lbi' ?_ h
              refine gone_eraseInstr (gone_rauw hg ?_) u.1
              by_cases hv : (Val.vundef lty == Val.vreg u.1) = true
              · rw [if_pos hv]
                intro hq
                cases hq
              · rw [if_neg hv]
                intro hq
                cases hq
            · rw [if_neg hse] at h
              obtain rfl : F = F' :=
                congrArg (fun r => r.2.1) (Option.some_inj.mp h)
              exact hg
          · rw [if_neg hbe] at h
            obtain ⟨pr, _, h⟩ := bind_eq_some h
            cases hfi2 : F.findInstr pr.2 with
            | none =>
              rw [hfi2] at h
              simp only [Option.none_bind] at h; cases h
            | some ins2 =>
              cases ins2 with
              | store sv2 q2 =>
                rw [hfi2] at h
                simp only [] at h
                refine ih _ _ ok F' lbi' ?_ h
                refine gone_eraseInstr (gone_rauw hg ?_) u.1
                by_cases hv : (sv2 == Val.vreg u.1) = true
                · rw [if_pos hv]
                  intro hq
                  cases hq
                · rw [if_neg hv]
                  exact operand_ne_of_gone hg.2 hfi2 (List.mem_cons_self sv2 [q2])
              | alloca ty3 =>
                rw [hfi2] at h
                simp only [Option.none_bind] at h; cases h
              | load ty3 p3 =>
                rw [hfi2] at h
                simp only [Option.none_bind] at h; cases h
              | phi ty3 inc3 =>
                rw [hfi2] at h
                simp only [Option.none_bind] at h; cases h
              | other ty3 ops3 =>
                rw [hfi2] at h
                simp only [Option.none_bind] at h; cases h
              | term ops3 ss3 =>
                rw [hfi2] at h
                simp only [Option.none_bind] at h; cases h
        | alloca ty2 =>
          simp only [hfi, Option.bind_eq_bind, Option.none_bind] at h; cases h
        | store sv q =>
          simp only [hfi, Option.bind_eq_bind, Option.none_bind] at h; cases h
        | phi ty2 inc =>
          simp only [hfi, Option.bind_eq_bind, Option.none_bind] at h; cases h
        | other ty2 ops =>
          simp only [hfi, Option.bind_eq_bind, Option.none_bind] at h; cases h
        | term ops ss =>
          simp only [hfi, Option.bind_eq_bind, Option.none_bind] at h; cases h
    | alloca ty2 =>
      rw [hins] at h
      simp only [] at h
      exact ih F lbi ok F' lbi' hg h
    | store sv q =>
      rw [hins] at h
      simp only [] at h
      exact ih F lbi ok F' lbi' hg h
    | phi ty2 inc =>
      rw [hins] at h
      simp only [] at h
      exact ih F lbi ok F' lbi' hg h
    | other ty2 ops =>
      rw [hins] at h
      simp only [] at h
      exact ih F lbi ok F' lbi' hg h
    | term ops ss =>
      rw [hins] at h
      simp only [] at h
      exact ih F lbi ok F' lbi' hg h

theorem eraseStoreUsers_gone {a : IId} (aid : IId) :
    ∀ (n : Nat) (F : Func) (lbi : LBI) (F2 : Func) (lbi3 : LBI),
      CellGone a F →
      eraseStoreUsers n F lbi aid = some (F2, lbi3) → CellGone a F2 := by
  intro n
  induction n with
  | zero =>
    intro F lbi F2 lbi3 hg h
    simp only [eraseStoreUsers] at h
    by_cases he : (F.usersOf (Val.vreg aid)).isEmpty = true
    · rw [if_pos he] at h
      obtain rfl : F = F2 := congrArg Prod.fst (Option.some_inj.mp h)
      exact hg
    · rw [if_neg he] at h
      cases h
  | succ m ih =>
    intro F lbi F2 lbi3 hg h
    simp only [eraseStoreUsers] at h
    cases hlast : (F.usersOf (Val.vreg aid)).getLast? with
    | none =>
      rw [hlast] at h
      simp only [] at h
      obtain rfl : F = F2 := congrArg Prod.fst (Option.some_inj.mp h)
      exact hg
    | some u =>
      cases hins : u.2.2 with
      | store v q =>
        simp only [hlast, hins] at h
        exact ih _ _ _ _ (gone_eraseInstr hg u.1) h
      | alloca ty => simp only [hlast, hins] at h; cases h
      | load ty pp => simp only [hlast, hins] at h; cases h
      | phi ty inc => simp only [hlast, hins] at h; cases h
      | other ty ops => simp only [hlast, hins] at h; cases h
      | term ops ss => simp only [hlast, hins] at h; cases h

theorem promoteSingleBlockAlloca_gone {a : IId} {F : Func} {aid : IId}
    {lbi : LBI} {r : Func × LBI × Bool} (hg : CellGone a F)
    (h : promoteSingleBlockAlloca F aid lbi = some r) :
    CellGone a r.1 := by
  unfold promoteSingleBlockAlloca at h
  simp only [Option.bind_eq_bind] at h
  obtain ⟨q1, _, h⟩ := bind_eq_some h
  obtain ⟨stores0, lbi1⟩ := q1
  simp only [] at h
  obtain ⟨q2, hloop, h⟩ := bind_eq_some h
  obtain ⟨ok, F1, lbi2⟩ := q2
  simp only [] at h
  have hg1 : CellGone a F1 :=
    psbaLoadsLoop_gone _ _ F _ ok F1 lbi2 hg hloop
  by_cases hok : (!ok) = true
  · rw [if_pos hok] at h
    obtain rfl : F1 = r.1 := congrArg (fun z => z.1) (Option.some_inj.mp h)
    exact hg1
  · rw [if_neg hok] at h
    obtain ⟨q3, hers, h⟩ := bind_eq_some h
    obtain ⟨F2, lbi3⟩ := q3
    simp only [] at h
    obtain hr : F2.eraseInstr aid = r.1 :=
      congrArg (fun z => z.1) (Option.some_inj.mp h)
    rw [← hr]
    exact gone_eraseInstr (eraseStoreUsers_gone aid _ F1 lbi2 F2 lbi3 hg1 hers) aid

end FastPathGone

section OwnCellGone

theorem find_erase_go (i j : IId) (hne : j ≠ i) :
    ∀ l : List (IId × BId × Instr),
      (l.filter (fun t => t.1 != i)).find? (fun t => t.1 == j) =
        l.find? (fun t => t.1 == j) := by
  intro l
  induction l with
  | nil => rfl
  | cons t rest ih =>
    by_cases hj : (t.1 == j) = true
    · have h1 : t.1 = j := by simpa using hj
      have hti : (t.1 != i) = true := by
        rw [bne_iff_ne, h1]
        exact hne
      simp only [List.filter_cons, hti, eq_self_iff_true, if_true,
        List.find?_cons, hj]
    · rw [Bool.not_eq_true] at hj
      by_cases hti : (t.1 != i) = true
      · simp only [List.filter_cons, hti, eq_self_iff_true, if_true,
          List.find?_cons, hj]
        exact ih
      · rw [Bool.not_eq_true] at hti
        simp only [List.filter_cons, hti, Bool.false_eq_true, if_false,
          List.find?_cons, hj]
        exact ih

theorem findInstr_eraseInstr_other {F : Func} {i j : IId} (hne : j ≠ i) :
    (F.eraseInstr i).findInstr j = F.findInstr j := by
  unfold Func.findInstr
  rw [instrs_eraseInstr, find_erase_go i j hne]

theorem find_rauw_go (o n : Val) (j : IId) :
    ∀ l : List (IId × BId × Instr),
      ((l.map (fun t => (t.1, t.2.1, t.2.2.mapOps (substVal o n)))).find?
          (fun t => t.1 == j)).map (fun t => t.2.2) =
        (l.find? (fun t => t.1 == j)).map
          (fun t => t.2.2.mapOps (substVal o n)) := by
  intro l
  induction l with
  | nil => rfl
  | cons t rest ih =>
    simp only [List.map_cons, List.find?_cons]
    by_cases hj : (t.1 == j) = true
    · simp only [hj, Option.map_some']
    · rw [Bool.not_eq_true] at hj
      simp only [hj]
      exact ih

theorem findInstr_rauw (F : Func) (o n : Val) (j : IId) :
    (F.rauw o n).findInstr j =
      (F.findInstr j).map (fun ins => ins.mapOps (substVal o n)) := by
  unfold Func.findInstr
  rw [instrs_rauw, find_rauw_go]
  cases F.instrs.find? (fun t => t.1 == j) with
  | none => rfl
  | some t => rfl

theorem load_ne_alloca {F : Func} {uid aid : IId} {lty : Ty} {pp : Val}
    (hfi : F.findInstr uid = some (Instr.load lty pp))
    (haid : F.isAllocaId aid = true) : uid ≠ aid := by
  intro he
  subst he
  unfold Func.isAllocaId at haid
  rw [hfi] at haid
  cases haid

theorem alloca_of_isAllocaId {F : Func} {aid : IId}
    (h : F.isAllocaId aid = true) :
    ∃ aty, F.findInstr aid = some (Instr.alloca aty) := by
  unfold Func.isAllocaId at h
  cases hfa : F.findInstr aid with
  | none =>
    rw [hfa] at h
    cases h
  | some insa =>
    cases insa with
    | alloca aty => exact ⟨aty, rfl⟩
    | load t2 p2 =>
      rw [hfa] at h
      cases h
    | store v2 p2 =>
      rw [hfa] at h
      cases h
    | phi t2 i2 =>
      rw [hfa] at h
      cases h
    | other t2 o2 =>
      rw [hfa] at h
      cases h
    | term o2 s2 =>
      rw [hfa] at h
      cases h

theorem store_val_ne_of_promotable {F : Func} {aid osId : IId} {sv p : Val}
    {bb : BId}
    (hprom : isAllocaPromotable F aid = true)
    (hsv : F.findInstr osId = some (Instr.store sv p))
    (hpar : F.parentOf osId = some bb) :
    sv ≠ Val.vreg aid := by
  intro he
  subst he
  have hmem : (osId, bb, Instr.store (Val.vreg aid) p) ∈ F.instrs :=
    mem_instrs_of_find hsv hpar
  have huser : (osId, bb, Instr.store (Val.vreg aid) p) ∈
      F.usersOf (Val.vreg aid) := by
    unfold Func.usersOf
    rw [List.mem_filter]
    refine ⟨hmem, ?_⟩
    show (Instr.store (Val.vreg aid) p).operands.contains (Val.vreg aid) = true
    simp [Instr.operands]
  unfold isAllocaPromotable at hprom
  cases hfa : F.findInstr aid with
  | none =>
    rw [hfa] at hprom
    cases hprom
  | some insa =>
    cases insa with
    | alloca aty =>
      rw [hfa] at hprom
      have hall := List.all_eq_true.mp hprom _ huser
      simp only [] at hall
      simp at hall
    | load ty2 p2 =>
      rw [hfa] at hprom
      cases hprom
    | store v2 p2 =>
      rw [hfa] at hprom
      cases hprom
    | phi ty2 inc =>
      rw [hfa] at hprom
      cases hprom
    | other ty2 ops =>
      rw [hfa] at hprom
      cases hprom
    | term ops ss =>
      rw [hfa] at hprom
      cases hprom

theorem rssaRewrite_own {osId uid aid : IId} {lty : Ty} {F F' : Func}
    {lbi lbi' : LBI}
    (hstore : ∀ sv p, F.findInstr osId = some (Instr.store sv p) →
      sv ≠ Val.vreg aid)
    (haid : F.isAllocaId aid = true)
    (huid : uid ≠ aid) (huos : uid ≠ osId)
    (h : rssaRewrite osId uid lty F lbi = some (F', lbi')) :
    (∀ sv p, F'.findInstr osId = some (Instr.store sv p) →
      sv ≠ Val.vreg aid) ∧
    F'.isAllocaId aid = true ∧
    (∀ j, (∃ t ∈ F'.instrs, t.1 = j ∧ Val.vreg aid ∈ t.2.2.operands) →
      (∃ t ∈ F.instrs, t.1 = j ∧ Val.vreg aid ∈ t.2.2.operands) ∧ j ≠ uid) := by
  unfold rssaRewrite at h
  cases hfi : F.findInstr osId with
  | none => simp only [hfi, Option.bind_eq_bind, Option.none_bind] at h; cases h
  | some ins =>
    cases ins with
    | store sv0 q0 =>
      simp only [hfi, Option.bind_eq_bind, Option.some_bind] at h
      have hF : (F.rauw (Val.vreg uid)
          (if sv0 == Val.vreg uid then Val.vpoison lty else sv0)).eraseInstr uid
            = F' :=
        congrArg Prod.fst (Option.some_inj.mp h)
      have hsv0 : sv0 ≠ Val.vreg aid := hstore sv0 q0 hfi
      have hrepl : (if sv0 == Val.vreg uid then Val.vpoison lty else sv0) ≠
          Val.vreg aid := by
        by_cases hc : (sv0 == Val.vreg uid) = true
        · rw [if_pos hc]
          intro hq
          cases hq
        · rw [if_neg hc]
          exact hsv0
      have hsubst : ∀ v : Val,
          substVal (Val.vreg uid)
            (if sv0 == Val.vreg uid then Val.vpoison lty else sv0) v =
            Val.vreg aid → v = Val.vreg aid := by
        intro v hv
        unfold substVal at hv
        by_cases hvo : v = Val.vreg uid
        · rw [if_pos hvo] at hv
          exact absurd hv hrepl
        · rw [if_neg hvo] at hv
          exact hv
      subst hF
      refine ⟨?_, ?_, ?_⟩
      · intro sv p hfind
        rw [findInstr_eraseInstr_other (fun he => huos he.symm),
          findInstr_rauw, hfi] at hfind
        simp only [Option.map_some', Instr.mapOps] at hfind
        obtain h2 := Option.some_inj.mp hfind
        injection h2 with h3 h4
        intro he
        exact hsv0 (hsubst sv0 (by rw [h3, he]))
      · obtain ⟨aty, hfa⟩ := alloca_of_isAllocaId haid
        unfold Func.isAllocaId
        rw [findInstr_eraseInstr_other huid.symm, findInstr_rauw, hfa]
        rfl
      · intro j hj
        obtain ⟨t, ht, htj, hta⟩ := hj
        rw [instrs_eraseInstr, instrs_rauw] at ht
        have ht2 := List.mem_of_mem_filter ht
        have htne := List.of_mem_filter ht
        obtain ⟨t0, ht0, rfl⟩ := List.mem_map.mp ht2
        simp only [] at hta htj htne
        rw [mapOps_operands] at hta
        obtain ⟨v0, hv0, hveq⟩ := List.mem_map.mp hta
        refine ⟨⟨t0, ht0, htj, ?_⟩, ?_⟩
        · rw [← hsubst v0 hveq]
          exact hv0
        · rw [← htj]
          simpa using htne
    | alloca ty2 =>
      simp only [hfi, Option.bind_eq_bind, Option.none_bind] at h; cases h
    | load ty2 p2 =>
      simp only [hfi, Option.bind_eq_bind, Option.none_bind] at h; cases h
    | phi ty2 inc =>
      simp only [hfi, Option.bind_eq_bind, Option.none_bind] at h; cases h
    | other ty2 ops =>
      simp only [hfi, Option.bind_eq_bind, Option.none_bind] at h; cases h
    | term ops ss =>
      simp only [hfi, Option.bind_eq_bind, Option.none_bind] at h; cases h

end OwnCellGone

section OwnCellLoop

theorem rssaLoop_mono (domB : BId → BId → Bool) (osId : IId) (sgv : Bool)
    (storeBB : BId) :
    ∀ (us : List (IId × BId × Instr)) (F : Func) (info : AllocaInfo)
      (lbi : LBI) (si : Option Nat) (F' : Func) (info' : AllocaInfo)
      (lbi' : LBI) (si' : Option Nat),
      rssaLoop domB osId sgv storeBB us F info lbi si =
        some (F', info', lbi', si') →
      info.UsingBlocks.length ≤ info'.UsingBlocks.length := by
  intro us
  induction us with
  | nil =>
    intro F info lbi si F' info' lbi' si' h
    simp only [rssaLoop] at h
    obtain rfl : info = info' := congrArg (fun r => r.2.1) (Option.some_inj.mp h)
    exact Nat.le_refl _
  | cons u rest ih =>
    intro F info lbi si F' info' lbi' si' h
    simp only [rssaLoop] at h
    by_cases hid : (u.1 == osId) = true
    · rw [if_pos hid] at h
      exact ih F info lbi si F' info' lbi' si' h
    · rw [if_neg hid] at h
      cases hfi : F.findInstr u.1 with
      | none => simp only [hfi, Option.bind_eq_bind, Option.none_bind] at h; cases h
      | some ins =>
        cases ins with
        | load lty pp =>
          simp only [hfi, Option.bind_eq_bind, Option.some_bind] at h
          cases sgv with
          | true =>
            rw [if_pos rfl] at h
            cases hrw : rssaRewrite osId u.1 lty F lbi with
            | none =>
              simp only [hrw, Option.bind_eq_bind, Option.none_bind] at h; cases h
            | some pr =>
              obtain ⟨F1, lbi1⟩ := pr
              simp only [hrw, Option.bind_eq_bind, Option.some_bind] at h
              exact ih F1 info lbi1 si F' info' lbi' si' h
          | false =>
            rw [if_neg Bool.false_ne_true] at h
            cases hpar : F.parentOf u.1 with
            | none =>
              simp only [hpar, Option.bind_eq_bind, Option.none_bind] at h; cases h
            | some lbPar =>
              simp only [hpar, Option.bind_eq_bind, Option.some_bind] at h
              by_cases hin : (lbPar == storeBB) = true
              · rw [if_pos hin] at h
                cases si with
                | some n =>
                  simp only [Option.bind_eq_bind, Option.some_bind] at h
                  cases hg2 : getInstructionIndex F lbi u.1 with
                  | none =>
                    simp only [hg2, Option.bind_eq_bind, Option.none_bind] at h; cases h
                  | some pr2 =>
                    obtain ⟨li, lbi2⟩ := pr2
                    simp only [hg2, Option.bind_eq_bind, Option.some_bind] at h
                    by_cases hgt : n > li
                    · rw [if_pos hgt] at h
                      have hmono := ih F _ lbi2 (some n) F' info' lbi' si' h
                      simp only [] at hmono
                      rw [List.length_append] at hmono
                      omega
                    · rw [if_neg hgt] at h
                      cases hrw : rssaRewrite osId u.1 lty F lbi2 with
                      | none =>
                        simp only [hrw, Option.bind_eq_bind,
                          Option.none_bind] at h; cases h
                      | some pr =>
                        obtain ⟨F1, lbi3⟩ := pr
                        simp only [hrw, Option.bind_eq_bind,
                          Option.some_bind] at h
                        exact ih F1 info lbi3 (some n) F' info' lbi' si' h
                | none =>
                  cases hg1 : getInstructionIndex F lbi osId with
                  | none =>
                    simp only [hg1, Option.bind_eq_bind, Option.none_bind] at h; cases h
                  | some pr1 =>
                    obtain ⟨n, lbi1⟩ := pr1
                    simp only [hg1, Option.bind_eq_bind, Option.some_bind] at h
                    cases hg2 : getInstructionIndex F lbi1 u.1 with
                    | none =>
                      simp only [hg2, Option.bind_eq_bind, Option.none_bind] at h; cases h
                    | some pr2 =>
                      obtain ⟨li, lbi2⟩ := pr2
                      simp only [hg2, Option.bind_eq_bind, Option.some_bind] at h
                      by_cases hgt : n > li
                      · rw [if_pos hgt] at h
                        have hmono := ih F _ lbi2 (some n) F' info' lbi' si' h
                        simp only [] at hmono
                        rw [List.length_append] at hmono
                        omega
                      · rw [if_neg hgt] at h
                        cases hrw : rssaRewrite osId u.1 lty F lbi2 with
                        | none =>
                          simp only [hrw, Option.bind_eq_bind,
                            Option.none_bind] at h; cases h
                        | some pr =>
                          obtain ⟨F1, lbi3⟩ := pr
                          simp only [hrw, Option.bind_eq_bind,
                            Option.some_bind] at h
                          exact ih F1 info lbi3 (some n) F' info' lbi' si' h
              · rw [if_neg hin] at h
                cases hdom : domB storeBB lbPar with
                | false =>
                  rw [hdom] at h
                  rw [if_pos (show (!false) = true from rfl)] at h
                  have hmono := ih F _ lbi si F' info' lbi' si' h
                  simp only [] at hmono
                  rw [List.length_append] at hmono
                  omega
                | true =>
                  rw [hdom] at h
                  simp only [Bool.not_true, Bool.false_eq_true, if_false] at h
                  cases hrw : rssaRewrite osId u.1 lty F lbi with
                  | none =>
                    simp only [hrw, Option.bind_eq_bind, Option.none_bind] at h; cases h
                  | some pr =>
                    obtain ⟨F1, lbi1⟩ := pr
                    simp only [hrw, Option.bind_eq_bind, Option.some_bind] at h
                    exact ih F1 info lbi1 si F' info' lbi' si' h
        | alloca ty2 =>
          simp only [hfi, Option.bind_eq_bind, Option.none_bind] at h; cases h
        | store sv q =>
          simp only [hfi, Option.bind_eq_bind, Option.none_bind] at h; cases h
        | phi ty2 inc =>
          simp only [hfi, Option.bind_eq_bind, Option.none_bind] at h; cases h
        | other ty2 ops =>
          simp only [hfi, Option.bind_eq_bind, Option.none_bind] at h; cases h
        | term ops ss =>
          simp only [hfi, Option.bind_eq_bind, Option.none_bind] at h; cases h

theorem rssaLoop_own (domB : BId → BId → Bool) (osId aid : IId) (sgv : Bool)
    (storeBB : BId) :
    ∀ (us : List (IId × BId × Instr)) (F : Func) (info : AllocaInfo)
      (lbi : LBI) (si : Option Nat) (F' : Func) (info' : AllocaInfo)
      (lbi' : LBI) (si' : Option Nat),
      (∀ sv p, F.findInstr osId = some (Instr.store sv p) →
        sv ≠ Val.vreg aid) →
      F.isAllocaId aid = true →
      rssaLoop domB osId sgv storeBB us F info lbi si =
        some (F', info', lbi', si') →
      info'.UsingBlocks.length = info.UsingBlocks.length →
      ∀ j, (∃ t ∈ F'.instrs, t.1 = j ∧ Val.vreg aid ∈ t.2.2.operands) →
        (∃ t ∈ F.instrs, t.1 = j ∧ Val.vreg aid ∈ t.2.2.operands) ∧
          (j = osId ∨ j ∉ us.map (fun u => u.1)) := by
  intro us
  induction us with
  | nil =>
    intro F info lbi si F' info' lbi' si' hstore haid h husing j hj
    simp only [rssaLoop] at h
    obtain rfl : F = F' := congrArg (fun r => r.1) (Option.some_inj.mp h)
    exact ⟨hj, Or.inr (by simp)⟩
  | cons u rest ih =>
    intro F info lbi si F' info' lbi' si' hstore haid h husing j hj
    simp only [rssaLoop] at h
    by_cases hid : (u.1 == osId) = true
    · rw [if_pos hid] at h
      obtain ⟨hjF, hd⟩ := ih F info lbi si F' info' lbi' si' hstore haid h
        husing j hj
      refine ⟨hjF, ?_⟩
      rcases hd with he | hn
      · exact Or.inl he
      · by_cases hju : j = u.1
        · exact Or.inl (by rw [hju]; simpa using hid)
        · refine Or.inr ?_
          simp only [List.map_cons, List.mem_cons, not_or]
          exact ⟨hju, hn⟩
    · rw [if_neg hid] at h
      cases hfi : F.findInstr u.1 with
      | none => simp only [hfi, Option.bind_eq_bind, Option.none_bind] at h; cases h
      | some ins =>
        cases ins with
        | load lty pp =>
          have huid : u.1 ≠ aid := load_ne_alloca hfi haid
          have huos : u.1 ≠ osId := by simpa using hid
          simp only [hfi, Option.bind_eq_bind, Option.some_bind] at h
          cases sgv with
          | true =>
            rw [if_pos rfl] at h
            cases hrw : rssaRewrite osId u.1 lty F lbi with
            | none =>
              simp only [hrw, Option.bind_eq_bind, Option.none_bind] at h; cases h
            | some pr =>
              obtain ⟨F1, lbi1⟩ := pr
              simp only [hrw, Option.bind_eq_bind, Option.some_bind] at h
              obtain ⟨hst1, hai1, hsh1⟩ := rssaRewrite_own hstore haid huid huos hrw
              obtain ⟨hjF1, hd⟩ := ih F1 info lbi1 si F' info' lbi' si' hst1 hai1
                h husing j hj
              obtain ⟨hjF, hjne⟩ := hsh1 j hjF1
              refine ⟨hjF, ?_⟩
              rcases hd with he | hn
              · exact Or.inl he
              · refine Or.inr ?_
                simp only [List.map_cons, List.mem_cons, not_or]
                exact ⟨fun he2 => hjne he2, hn⟩
          | false =>
            rw [if_neg Bool.false_ne_true] at h
            cases hpar : F.parentOf u.1 with
            | none =>
              simp only [hpar, Option.bind_eq_bind, Option.none_bind] at h; cases h
            | some lbPar =>
              simp only [hpar, Option.bind_eq_bind, Option.some_bind] at h
              by_cases hin : (lbPar == storeBB) = true
              · rw [if_pos hin] at h
                cases si with
                | some n =>
                  simp only [Option.bind_eq_bind, Option.some_bind] at h
                  cases hg2 : getInstructionIndex F lbi u.1 with
                  | none =>
                    simp only [hg2, Option.bind_eq_bind, Option.none_bind] at h; cases h
                  | some pr2 =>
                    obtain ⟨li, lbi2⟩ := pr2
                    simp only [hg2, Option.bind_eq_bind, Option.some_bind] at h
                    by_cases hgt : n > li
                    · rw [if_pos hgt] at h
                      have hmono := rssaLoop_mono domB osId false storeBB rest F _
                        lbi2 (some n) F' info' lbi' si' h
                      simp only [List.length_append, List.length_cons,
                        List.length_nil] at hmono
                      exact absurd hmono (by omega)
                    · rw [if_neg hgt] at h
                      cases hrw : rssaRewrite osId u.1 lty F lbi2 with
                      | none =>
                        simp only [hrw, Option.bind_eq_bind,
                          Option.none_bind] at h; cases h
                      | some pr =>
                        obtain ⟨F1, lbi3⟩ := pr
                        simp only [hrw, Option.bind_eq_bind,
                          Option.some_bind] at h
                        obtain ⟨hst1, hai1, hsh1⟩ :=
                          rssaRewrite_own hstore haid huid huos hrw
                        obtain ⟨hjF1, hd⟩ := ih F1 info lbi3 (some n) F' info'
                          lbi' si' hst1 hai1 h husing j hj
                        obtain ⟨hjF, hjne⟩ := hsh1 j hjF1
                        refine ⟨hjF, ?_⟩
                        rcases hd with he | hn
                        · exact Or.inl he
                        · refine Or.inr ?_
                          simp only [List.map_cons, List.mem_cons, not_or]
                          exact ⟨fun he2 => hjne he2, hn⟩
                | none =>
                  cases hg1 : getInstructionIndex F lbi osId with
                  | none =>
                    simp only [hg1, Option.bind_eq_bind, Option.none_bind] at h; cases h
                  | some pr1 =>
                    obtain ⟨n, lbi1⟩ := pr1
                    simp only [hg1, Option.bind_eq_bind, Option.some_bind] at h
                    cases hg2 : getInstructionIndex F lbi1 u.1 with
                    | none =>
                      simp only [hg2, Option.bind_eq_bind, Option.none_bind] at h; cases h
                    | some pr2 =>
                      obtain ⟨li, lbi2⟩ := pr2
                      simp only [hg2, Option.bind_eq_bind, Option.some_bind] at h
                      by_cases hgt : n > li
                      · rw [if_pos hgt] at h
                        have hmono := rssaLoop_mono domB osId false storeBB rest F _
                          lbi2 (some n) F' info' lbi' si' h
                        simp only [List.length_append, List.length_cons,
                          List.length_nil] at hmono
                        exact absurd hmono (by omega)
                      · rw [if_neg hgt] at h
                        cases hrw : rssaRewrite osId u.1 lty F lbi2 with
                        | none =>
                          simp only [hrw, Option.bind_eq_bind,
                            Option.none_bind] at h; cases h
                        | some pr =>
                          obtain ⟨F1, lbi3⟩ := pr
                          simp only [hrw, Option.bind_eq_bind,
                            Option.some_bind] at h
                          obtain ⟨hst1, hai1, hsh1⟩ :=
                            rssaRewrite_own hstore haid huid huos hrw
                          obtain ⟨hjF1, hd⟩ := ih F1 info lbi3 (some n) F' info'
                            lbi' si' hst1 hai1 h husing j hj
                          obtain ⟨hjF, hjne⟩ := hsh1 j hjF1
                          refine ⟨hjF, ?_⟩
                          rcases hd with he | hn
                          · exact Or.inl he
                          · refine Or.inr ?_
                            simp only [List.map_cons, List.mem_cons, not_or]
                            exact ⟨fun he2 => hjne he2, hn⟩
              · rw [if_neg hin] at h
                cases hdom : domB storeBB lbPar with
                | false =>
                  rw [hdom] at h
                  rw [if_pos (show (!false) = true from rfl)] at h
                  have hmono := rssaLoop_mono domB osId false storeBB rest F _
                    lbi si F' info' lbi' si' h
                  simp only [List.length_append, List.length_cons,
                    List.length_nil] at hmono
                  exact absurd hmono (by omega)
                | true =>
                  rw [hdom] at h
                  simp only [Bool.not_true, Bool.false_eq_true, if_false] at h
                  cases hrw : rssaRewrite osId u.1 lty F lbi with
                  | none =>
                    simp only [hrw, Option.bind_eq_bind, Option.none_bind] at h; cases h
                  | some pr =>
                    obtain ⟨F1, lbi1⟩ := pr
                    simp only [hrw, Option.bind_eq_bind, Option.some_bind] at h
                    obtain ⟨hst1, hai1, hsh1⟩ :=
                      rssaRewrite_own hstore haid huid huos hrw
                    obtain ⟨hjF1, hd⟩ := ih F1 info lbi1 si F' info' lbi' si'
                      hst1 hai1 h husing j hj
                    obtain ⟨hjF, hjne⟩ := hsh1 j hjF1
                    refine ⟨hjF, ?_⟩
                    rcases hd with he | hn
                    · exact Or.inl he
                    · refine Or.inr ?_
                      simp only [List.map_cons, List.mem_cons, not_or]
                      exact ⟨fun he2 => hjne he2, hn⟩
        | alloca ty2 =>
          simp only [hfi, Option.bind_eq_bind, Option.none_bind] at h; cases h
        | store sv q =>
          simp only [hfi, Option.bind_eq_bind, Option.none_bind] at h; cases h
        | phi ty2 inc =>
          simp only [hfi, Option.bind_eq_bind, Option.none_bind] at h; cases h
        | other ty2 ops =>
          simp only [hfi, Option.bind_eq_bind, Option.none_bind] at h; cases h
        | term ops ss =>
          simp only [hfi, Option.bind_eq_bind, Option.none_bind] at h; cases h

end OwnCellLoop

section FastPathOwn

/-- A fully successful single-store rewrite leaves its cell gone: the store
and the alloca are erased and every load was rewritten. -/
theorem rssa_true_gone {domB : BId → BId → Bool} {F : Func} {aid : IId}
    {info : AllocaInfo} {lbi : LBI} {F2 : Func} {info2 : AllocaInfo}
    {lbi2 : LBI}
    (hprom : isAllocaPromotable F aid = true)
    (h : rewriteSingleStoreAlloca domB F aid info lbi =
      some (F2, info2, lbi2, true)) :
    CellGone aid F2 := by
  unfold rewriteSingleStoreAlloca at h
  cases hos : info.OnlyStore with
  | none => simp only [hos, Option.bind_eq_bind, Option.none_bind] at h; cases h
  | some osId =>
    simp only [hos, Option.bind_eq_bind, Option.some_bind] at h
    cases hsv : F.findInstr osId with
    | none => simp only [hsv, Option.bind_eq_bind, Option.none_bind] at h; cases h
    | some ins =>
      cases ins with
      | store sv0 q0 =>
        simp only [hsv, Option.bind_eq_bind, Option.some_bind] at h
        cases hpar : F.parentOf osId with
        | none => simp only [hpar, Option.bind_eq_bind, Option.none_bind] at h; cases h
        | some storeBB =>
          simp only [hpar, Option.bind_eq_bind, Option.some_bind] at h
          obtain ⟨q4, hloop, h⟩ := bind_eq_some h
          obtain ⟨F1, info2x, lbi1, flag⟩ := q4
          simp only [] at h
          by_cases hub : (!info2x.UsingBlocks.isEmpty) = true
          · rw [if_pos hub] at h
            have hfl := congrArg (fun z : Func × AllocaInfo × LBI × Bool => z.2.2.2)
              (Option.some_inj.mp h)
            simp only [] at hfl
            cases hfl
          · rw [if_neg hub] at h
            obtain hr : ((F1.eraseInstr osId).eraseInstr aid) = F2 :=
              congrArg (fun z => z.1) (Option.some_inj.mp h)
            have hemp : info2x.UsingBlocks = [] := by
              have hub2 : info2x.UsingBlocks.isEmpty = true := by
                revert hub
                cases info2x.UsingBlocks.isEmpty <;> simp
              exact List.isEmpty_iff.mp hub2
            have hstore : ∀ sv p, F.findInstr osId = some (Instr.store sv p) →
                sv ≠ Val.vreg aid := by
              intro sv p hfind
              rw [hsv] at hfind
              obtain heq := Option.some_inj.mp hfind
              injection heq with h1 h2
              rw [← h1]
              exact store_val_ne_of_promotable hprom hsv hpar
            have haid : F.isAllocaId aid = true := by
              obtain ⟨aty, hfa⟩ := alloca_of_promotable hprom
              unfold Func.isAllocaId
              rw [hfa]
            have husers := rssaLoop_own domB osId aid _ storeBB
              (F.usersOf (Val.vreg aid)) F _ lbi none F1 info2x lbi1 flag
              hstore haid hloop (by rw [hemp])
            rw [← hr]
            refine ⟨findInstr_eraseInstr_self _ aid, ?_⟩
            rw [users_empty_iff]
            intro t ht hmem
            rw [instrs_eraseInstr] at ht
            have htne2 := List.of_mem_filter ht
            have ht2 := List.mem_of_mem_filter ht
            rw [instrs_eraseInstr] at ht2
            have htne1 := List.of_mem_filter ht2
            have ht3 := List.mem_of_mem_filter ht2
            obtain ⟨⟨t0, ht0, ht0j, ht0m⟩, hd⟩ :=
              husers t.1 ⟨t, ht3, rfl, hmem⟩
            rcases hd with he | hn
            · rw [he] at htne1
              simp at htne1
            · refine hn ?_
              have htu : t0 ∈ F.usersOf (Val.vreg aid) := by
                unfold Func.usersOf
                rw [List.mem_filter]
                exact ⟨ht0, by simpa [List.elem_iff] using ht0m⟩
              rw [← ht0j]
              exact List.mem_map.mpr ⟨t0, htu, rfl⟩
      | alloca ty2 =>
        simp only [hsv, Option.bind_eq_bind, Option.none_bind] at h; cases h
      | load ty2 p2 =>
        simp only [hsv, Option.bind_eq_bind, Option.none_bind] at h; cases h
      | phi ty2 inc =>
        simp only [hsv, Option.bind_eq_bind, Option.none_bind] at h; cases h
      | other ty2 ops =>
        simp only [hsv, Option.bind_eq_bind, Option.none_bind] at h; cases h
      | term ops ss =>
        simp only [hsv, Option.bind_eq_bind, Option.none_bind] at h; cases h

/-- A successful single-block rewrite leaves its cell gone. -/
theorem psba_true_gone {F : Func} {aid : IId} {lbi : LBI} {F2 : Func}
    {lbi2 : LBI}
    (h : promoteSingleBlockAlloca F aid lbi = some (F2, lbi2, true)) :
    CellGone aid F2 := by
  unfold promoteSingleBlockAlloca at h
  simp only [Option.bind_eq_bind] at h
  obtain ⟨q1, _, h⟩ := bind_eq_some h
  obtain ⟨stores0, lbi1⟩ := q1
  simp only [] at h
  obtain ⟨q2, hloop, h⟩ := bind_eq_some h
  obtain ⟨ok, F1, lbi2a⟩ := q2
  simp only [] at h
  cases ok with
  | false =>
    rw [if_pos (by rfl : (!false) = true)] at h
    have hfl := congrArg (fun z : Func × LBI × Bool => z.2.2)
      (Option.some_inj.mp h)
    simp only [] at hfl
    cases hfl
  | true =>
    rw [if_neg (by simp : ¬((!true) = true))] at h
    obtain ⟨q3, hers, h⟩ := bind_eq_some h
    obtain ⟨F2a, lbi3⟩ := q3
    simp only [] at h
    obtain heq := Option.some_inj.mp h
    obtain rfl : F2a.eraseInstr aid = F2 := congrArg (fun z => z.1) heq
    have hemp : (F2a.usersOf (Val.vreg aid)).isEmpty = true :=
      eraseStoreUsers_empty aid _ F1 lbi2a F2a lbi3 hers
    exact gone_of_erase (List.isEmpty_iff.mp hemp)

end FastPathOwn

section StepGone

theorem mem_ids_of_findInstr {F : Func} {i : IId} {ins : Instr}
    (h : F.findInstr i = some ins) : i ∈ F.ids := by
  unfold Func.findInstr at h
  obtain ⟨t, hft, _⟩ := Option.map_eq_some'.mp h
  have htm := List.mem_of_find?_eq_some hft
  have hti : t.1 = i := by simpa using List.find?_some hft
  rw [← hti]
  unfold Func.ids
  exact List.mem_map.mpr ⟨t, htm, rfl⟩

theorem QueuePhiNode_gone {a : IId} {s : St} {b : BId} {no : Nat} {s' : St}
    {flag : Bool} (hg : CellGone a s.F) (hb : a < s.F.nextId)
    (h : QueuePhiNode s b no = some (s', flag)) :
    CellGone a s'.F ∧ a < s'.F.nextId := by
  unfold QueuePhiNode at h
  simp only [] at h
  cases hlk : s.NewPhiNodes.lookup (bbNumOf s.BBNumbers b, no) with
  | some pid =>
    rw [hlk] at h
    obtain rfl : s = s' := congrArg Prod.fst (Option.some_inj.mp h)
    exact ⟨hg, hb⟩
  | none =>
    rw [hlk] at h
    obtain ⟨aid2, _, h⟩ := bind_eq_some h
    obtain ⟨ty, _, h⟩ := bind_eq_some h
    have hs : ({ s with
        F := insertPhiAtHead s.F b s.F.nextId ty
        NewPhiNodes := s.NewPhiNodes ++ [((bbNumOf s.BBNumbers b, no), s.F.nextId)]
        PhiToAllocaMap := s.PhiToAllocaMap ++ [(s.F.nextId, no)] } : St) = s' :=
      congrArg Prod.fst (Option.some_inj.mp h)
    rw [← hs]
    refine ⟨gone_insertPhi hg (fun he => Nat.lt_irrefl a (he ▸ hb)), ?_⟩
    exact Nat.lt_succ_of_lt hb

theorem foldlM_queue_gone {a : IId} (no : Nat) :
    ∀ (bs : List BId) (s s' : St),
      bs.foldlM (fun st b => (QueuePhiNode st b no).map (fun r => r.1)) s =
        some s' →
      CellGone a s.F → a < s.F.nextId → CellGone a s'.F := by
  intro bs
  induction bs with
  | nil =>
    intro s s' h hg hb
    simp only [List.foldlM_nil] at h
    obtain rfl : s = s' := Option.some_inj.mp h
    exact hg
  | cons b rest ih =>
    intro s s' h hg hb
    rw [List.foldlM_cons] at h
    obtain ⟨s1, hq, h⟩ := bind_eq_some h
    obtain ⟨pr, hqq, hpr⟩ := Option.map_eq_some'.mp hq
    obtain ⟨s1x, flag⟩ := pr
    obtain rfl : s1x = s1 := hpr
    obtain ⟨hg1, hb1⟩ := QueuePhiNode_gone hg hb hqq
    exact ih s1x s' h hg1 hb1

theorem processAllocaStep_gone {domB : BId → BId → Bool}
    {idf : List BId → List BId → List BId} {fuel : Nat} {s : St} {lbi : LBI}
    {i : Nat} {res : StepRes}
    (hwf : wfF s.F)
    (h : processAllocaStep domB idf fuel s lbi i = some res) :
    (∀ a, CellGone a s.F → a < s.F.nextId → CellGone a res.st.F) ∧
    (res.isRemoved = true → ∀ aid2, s.Allocas.get? i = some aid2 →
      CellGone aid2 res.st.F ∧ aid2 < res.st.F.nextId) ∧
    (res.isRemoved = true → res.st.Allocas = swapRemoveAt s.Allocas i) ∧
    (res.isRemoved = false → res.st.Allocas = s.Allocas) := by
  unfold processAllocaStep at h
  obtain ⟨aid, hget, h⟩ := bind_eq_some h
  by_cases hprom : isAllocaPromotable s.F aid = true
  · obtain ⟨aty, hfia⟩ := alloca_of_promotable hprom
    have hbad : aid < s.F.nextId := hwf.2.1 aid (mem_ids_of_findInstr hfia)
    rw [hprom] at h
    simp only [Bool.not_true, Bool.false_eq_true, if_false] at h
    by_cases hue : (s.F.usersOf (Val.vreg aid)).isEmpty = true
    · rw [if_pos hue] at h
      obtain rfl : StepRes.removed { s with
          F := s.F.eraseInstr aid
          Allocas := swapRemoveAt s.Allocas i } lbi = res := Option.some_inj.mp h
      refine ⟨fun a hg hb => gone_eraseInstr hg aid, ?_, fun _ => rfl,
        fun hc => by cases hc⟩
      intro _ aid2 hget2
      rw [hget] at hget2
      obtain rfl : aid = aid2 := Option.some_inj.mp hget2
      exact ⟨gone_of_erase (List.isEmpty_iff.mp hue), hbad⟩
    · rw [if_neg hue] at h
      obtain ⟨info, _, h⟩ := bind_eq_some h
      by_cases hdb : (info.DefiningBlocks.length == 1) = true
      · rw [if_pos hdb] at h
        obtain ⟨q1, hq1, h⟩ := bind_eq_some h
        obtain ⟨F1, info1, lbi1, ssDone⟩ := q1
        simp only [] at h
        have hstep1 : skelStep s.F F1 :=
          rewriteSingleStoreAlloca_skel
            (fun hwf2 => nonTermId_of_findInstr hwf2.1 hfia rfl) hq1
        have hgone1 : ∀ a, CellGone a s.F → CellGone a F1 :=
          fun a hg => rewriteSingleStoreAlloca_gone hg hq1
        have hnx1 : s.F.nextId ≤ F1.nextId := (hstep1 hwf).2.2.1
        cases ssDone with
        | true =>
          rw [if_pos rfl] at h
          obtain rfl := Option.some_inj.mp h
          refine ⟨fun a hg hb => hgone1 a hg, ?_, fun _ => rfl,
            fun hc => by cases hc⟩
          intro _ aid2 hget2
          rw [hget] at hget2
          obtain rfl : aid = aid2 := Option.some_inj.mp hget2
          exact ⟨rssa_true_gone hprom hq1, Nat.lt_of_lt_of_le hbad hnx1⟩
        | false =>
          rw [if_neg Bool.false_ne_true] at h
          by_cases hob : info1.OnlyUsedInOneBlock = true
          · rw [if_pos hob] at h
            obtain ⟨q2, hq2, h⟩ := bind_eq_some h
            obtain ⟨F2, lbi2, sbDone⟩ := q2
            simp only [] at h
            have hstep12 : skelStep s.F F2 := by
              refine skelStep_comp_cond hstep1 (fun hwf2 hwf1 => ?_)
              exact promoteSingleBlockAlloca_skel
                (fun _ => (hstep1 hwf2).2.2.2 aid
                  (nonTermId_of_findInstr hwf2.1 hfia rfl)) hq2
            have hgone12 : ∀ a, CellGone a s.F → CellGone a F2 :=
              fun a hg => promoteSingleBlockAlloca_gone (hgone1 a hg) hq2
            have hnx12 : s.F.nextId ≤ F2.nextId := (hstep12 hwf).2.2.1
            cases sbDone with
            | true =>
              rw [if_pos rfl] at h
              obtain rfl := Option.some_inj.mp h
              refine ⟨fun a hg hb => hgone12 a hg, ?_, fun _ => rfl,
                fun hc => by cases hc⟩
              intro _ aid2 hget2
              rw [hget] at hget2
              obtain rfl : aid = aid2 := Option.some_inj.mp hget2
              exact ⟨psba_true_gone hq2, Nat.lt_of_lt_of_le hbad hnx12⟩
            | false =>
              rw [if_neg Bool.false_ne_true] at h
              obtain ⟨live, _, h⟩ := bind_eq_some h
              obtain ⟨s2, hfold, h⟩ := bind_eq_some h
              obtain rfl := Option.some_inj.mp h
              refine ⟨?_, ?_, ?_, ?_⟩
              · intro a hg hb
                refine foldlM_queue_gone i _ _ s2 hfold (hgone12 a hg)
                  (Nat.lt_of_lt_of_le hb hnx12)
              · intro hc
                cases hc
              · intro hc
                cases hc
              · intro _
                simp only [StepRes.st]
                exact (foldlM_queue_skel i _ _ s2 hfold).2
          · rw [if_neg hob] at h
            simp only [Option.bind_eq_bind, Option.some_bind] at h
            rw [if_neg Bool.false_ne_true] at h
            obtain ⟨live, _, h⟩ := bind_eq_some h
            obtain ⟨s2, hfold, h⟩ := bind_eq_some h
            obtain rfl := Option.some_inj.mp h
            refine ⟨?_, ?_, ?_, ?_⟩
            · intro a hg hb
              refine foldlM_queue_gone i _ _ s2 hfold (hgone1 a hg)
                (Nat.lt_of_lt_of_le hb hnx1)
            · intro hc
              cases hc
            · intro hc
              cases hc
            · intro _
              simp only [StepRes.st]
              exact (foldlM_queue_skel i _ _ s2 hfold).2
      · rw [if_neg hdb] at h
        simp only [Option.bind_eq_bind, Option.some_bind] at h
        rw [if_neg Bool.false_ne_true] at h
        by_cases hob : info.OnlyUsedInOneBlock = true
        · rw [if_pos hob] at h
          obtain ⟨q2, hq2, h⟩ := bind_eq_some h
          obtain ⟨F2, lbi2, sbDone⟩ := q2
          simp only [] at h
          have hstep12 : skelStep s.F F2 :=
            promoteSingleBlockAlloca_skel
              (fun hwf2 => nonTermId_of_findInstr hwf2.1 hfia rfl) hq2
          have hgone12 : ∀ a, CellGone a s.F → CellGone a F2 :=
            fun a hg => promoteSingleBlockAlloca_gone hg hq2
          have hnx12 : s.F.nextId ≤ F2.nextId := (hstep12 hwf).2.2.1
          cases sbDone with
          | true =>
            rw [if_pos rfl] at h
            obtain rfl := Option.some_inj.mp h
            refine ⟨fun a hg hb => hgone12 a hg, ?_, fun _ => rfl,
              fun hc => by cases hc⟩
            intro _ aid2 hget2
            rw [hget] at hget2
            obtain rfl : aid = aid2 := Option.some_inj.mp hget2
            exact ⟨psba_true_gone hq2, Nat.lt_of_lt_of_le hbad hnx12⟩
          | false =>
            rw [if_neg Bool.false_ne_true] at h
            obtain ⟨live, _, h⟩ := bind_eq_some h
            obtain ⟨s2, hfold, h⟩ := bind_eq_some h
            obtain rfl := Option.some_inj.mp h
            refine ⟨?_, ?_, ?_, ?_⟩
            · intro a hg hb
              refine foldlM_queue_gone i _ _ s2 hfold (hgone12 a hg)
                (Nat.lt_of_lt_of_le hb hnx12)
            · intro hc
              cases hc
            · intro hc
              cases hc
            · intro _
              simp only [StepRes.st]
              exact (foldlM_queue_skel i _ _ s2 hfold).2
        · rw [if_neg hob] at h
          rw [if_neg Bool.false_ne_true] at h
          obtain ⟨live, _, h⟩ := bind_eq_some h
          obtain ⟨s2, hfold, h⟩ := bind_eq_some h
          obtain rfl := Option.some_inj.mp h
          refine ⟨?_, ?_, ?_, ?_⟩
          · intro a hg hb
            exact foldlM_queue_gone i _ _ s2 hfold hg hb
          · intro hc
            cases hc
          · intro hc
            cases hc
          · intro _
            simp only [StepRes.st]
            exact (foldlM_queue_skel i _ _ s2 hfold).2
  · rw [show isAllocaPromotable s.F aid = false from by
        cases hp : isAllocaPromotable s.F aid
        · rfl
        · exact absurd hp hprom] at h
    simp only [Bool.not_false, if_true] at h
    cases h

end StepGone

section LoopGone

theorem swapRemoveAt_get_lt {l : List Nat} {i j : Nat} (hji : j < i)
    (hil : i < l.length) :
    (swapRemoveAt l i).get? j = l.get? j := by
  unfold swapRemoveAt
  rw [List.get?_eq_getElem?, List.get?_eq_getElem?, List.dropLast_eq_take]
  rw [List.getElem?_take_of_lt (by rw [List.length_set]; omega)]
  rw [List.getElem?_set_ne (by omega)]

theorem swapRemoveAt_get_shift {l : List Nat} {i j : Nat} {a : Nat}
    (hij : i ≤ j) (hne : j ≠ i) (hj : l.get? j = some a) (hil : i < l.length) :
    ∃ j2, i ≤ j2 ∧ (swapRemoveAt l i).get? j2 = some a := by
  have hjl : j < l.length := by
    by_contra hc
    rw [List.get?_eq_getElem?, List.getElem?_eq_none (by omega)] at hj
    cases hj
  by_cases hlast : j = l.length - 1
  · refine ⟨i, Nat.le_refl i, ?_⟩
    have hga : l.getLast? = some a := by
      rw [List.getLast?_eq_getElem?, ← hlast, ← List.get?_eq_getElem?]
      exact hj
    unfold swapRemoveAt
    rw [hga]
    rw [List.get?_eq_getElem?, List.dropLast_eq_take]
    rw [List.getElem?_take_of_lt (by rw [List.length_set]; omega)]
    exact List.getElem?_set_eq_of_lt a hil
  · refine ⟨j, hij, ?_⟩
    unfold swapRemoveAt
    rw [List.get?_eq_getElem?, List.dropLast_eq_take]
    rw [List.getElem?_take_of_lt (by rw [List.length_set]; omega)]
    rw [List.getElem?_set_ne (by omega : i ≠ j)]
    rw [← List.get?_eq_getElem?]
    exact hj

theorem processAllocas_gone (domB : BId → BId → Bool)
    (idf : List BId → List BId → List BId) :
    ∀ (fuel : Nat) (s : St) (lbi : LBI) (i : Nat) (s' : St) (lbi' : LBI),
      wfF s.F →
      processAllocas domB idf fuel s lbi i = some (s', lbi') →
      (∀ a, CellGone a s.F → a < s.F.nextId → CellGone a s'.F) ∧
      (∀ j aid, i ≤ j → s.Allocas.get? j = some aid →
        CellGone aid s'.F ∨ aid ∈ s'.Allocas) ∧
      (∀ j aid, j < i → s.Allocas.get? j = some aid →
        s'.Allocas.get? j = some aid) := by
  intro fuel
  induction fuel with
  | zero =>
    intro s lbi i s' lbi' hwf h
    simp only [processAllocas] at h
    by_cases hlen : s.Allocas.length ≤ i
    · rw [if_pos hlen] at h
      obtain heq := Option.some_inj.mp h
      obtain rfl : s = s' := congrArg Prod.fst heq
      exact ⟨fun a hg _ => hg,
        fun j aid _ hget => Or.inr (List.get?_mem hget),
        fun j aid _ hget => hget⟩
    · rw [if_neg hlen] at h
      cases h
  | succ fuel ih =>
    intro s lbi i s' lbi' hwf h
    simp only [processAllocas] at h
    by_cases hlen : s.Allocas.length ≤ i
    · rw [if_pos hlen] at h
      obtain heq := Option.some_inj.mp h
      obtain rfl : s = s' := congrArg Prod.fst heq
      exact ⟨fun a hg _ => hg,
        fun j aid _ hget => Or.inr (List.get?_mem hget),
        fun j aid _ hget => hget⟩
    · rw [if_neg hlen] at h
      obtain ⟨res, hstep, h⟩ := bind_eq_some h
      have hi : i < s.Allocas.length := by omega
      obtain ⟨hsk, _⟩ := processAllocaStep_skel hstep
      obtain ⟨hpres, hrem, hremAl, hkeptAl⟩ := processAllocaStep_gone hwf hstep
      have hwf1 : wfF res.st.F := (hsk hwf).1
      have hnx : s.F.nextId ≤ res.st.F.nextId := (hsk hwf).2.2.1
      cases res with
      | removed s1 lbi1 =>
        simp only [] at h
        obtain ⟨h1, h2, h3⟩ := ih s1 lbi1 i s' lbi' hwf1 h
        have hAl1 : s1.Allocas = swapRemoveAt s.Allocas i := hremAl rfl
        refine ⟨?_, ?_, ?_⟩
        · intro a hg hb
          exact h1 a (hpres a hg hb) (Nat.lt_of_lt_of_le hb hnx)
        · intro j aid hij hget
          by_cases hji : j = i
          · subst hji
            obtain ⟨hgone, _⟩ := hrem rfl aid hget
            left
            exact h1 aid hgone
              ((hrem rfl aid hget).2)
          · obtain ⟨aid0, hget0⟩ : ∃ x, s.Allocas.get? i = some x := by
              rw [List.get?_eq_getElem?, List.getElem?_eq_getElem hi]
              exact ⟨_, rfl⟩
            obtain ⟨j2, hj2i, hj2⟩ := swapRemoveAt_get_shift hij hji hget hi
            rw [← hAl1] at hj2
            exact h2 j2 aid hj2i hj2
        · intro j aid hji hget
          refine h3 j aid hji ?_
          rw [hAl1, swapRemoveAt_get_lt hji hi]
          exact hget
      | kept s1 lbi1 =>
        simp only [] at h
        obtain ⟨h1, h2, h3⟩ := ih s1 lbi1 (i + 1) s' lbi' hwf1 h
        have hAl1 : s1.Allocas = s.Allocas := hkeptAl rfl
        refine ⟨?_, ?_, ?_⟩
        · intro a hg hb
          exact h1 a (hpres a hg hb) (Nat.lt_of_lt_of_le hb hnx)
        · intro j aid hij hget
          by_cases hji : j = i
          · subst hji
            have hget1 : s1.Allocas.get? j = some aid := by
              rw [hAl1]
              exact hget
            have := h3 j aid (by omega) hget1
            exact Or.inr (List.get?_mem this)
          · refine h2 j aid (by omega) ?_
            rw [hAl1]
            exact hget
        · intro j aid hji hget
          refine h3 j aid (by omega) ?_
          rw [hAl1]
          exact hget

end LoopGone

section RenameGone

theorem id_ne_of_gone {a : IId} {F : Func} (h1 : F.findInstr a = none)
    {t : IId × BId × Instr} (ht : t ∈ F.instrs) : t.1 ≠ a := by
  intro he
  unfold Func.findInstr at h1
  rw [Option.map_eq_none', List.find?_eq_none] at h1
  exact h1 t ht (by simp [he])

theorem operand_ne_of_gone_mem {a : IId} {F : Func} {v : Val}
    (hu : F.usersOf (Val.vreg a) = []) {t : IId × BId × Instr}
    (ht : t ∈ F.instrs) (hv : v ∈ t.2.2.operands) : v ≠ Val.vreg a :=
  fun he => users_empty_iff.mp hu t ht (he ▸ hv)

theorem getD_ne {a : IId} {vals : List Val} {k : Nat} {d : Val}
    (hv : ∀ v ∈ vals, v ≠ Val.vreg a) (hd : d ≠ Val.vreg a) :
    vals.getD k d ≠ Val.vreg a := by
  rw [List.getD_eq_getElem?_getD]
  cases hk : vals[k]? with
  | none => exact hd
  | some x =>
    have hxm : x ∈ vals := by
      rw [← List.get?_eq_getElem?] at hk
      exact List.get?_mem hk
    exact hv x hxm

theorem phiUpdateLoop_gone {a : IId} (ptam : List (IId × Nat))
    (numEdges : Nat) (predBB : BId) :
    ∀ (l : List (IId × Instr)) (F : Func) (vals : List Val) (n0 : Nat),
      CellGone a F →
      (∀ v ∈ vals, v ≠ Val.vreg a) →
      (∀ pid ty inc, (pid, Instr.phi ty inc) ∈ l →
        pid ≠ a ∧ ∀ vb ∈ inc, vb.1 ≠ Val.vreg a) →
      CellGone a (phiUpdateLoop ptam numEdges predBB l F vals n0).1 ∧
      ∀ v ∈ (phiUpdateLoop ptam numEdges predBB l F vals n0).2,
        v ≠ Val.vreg a := by
  intro l
  induction l with
  | nil =>
    intro F vals n0 hg hv hl
    exact ⟨hg, hv⟩
  | cons t rest ih =>
    intro F vals n0 hg hv hl
    obtain ⟨pid, ins⟩ := t
    cases ins with
    | phi ty inc =>
      simp only [phiUpdateLoop]
      obtain ⟨hpid, hinc⟩ := hl pid ty inc (List.mem_cons_self _ _)
      by_cases hlen : (inc.length == n0) = true
      · rw [if_pos hlen]
        have hvne : vals.getD ((ptam.lookup pid).getD 0) (Val.vundef ty) ≠
            Val.vreg a :=
          getD_ne hv (fun hq => by cases hq)
        have hins : Val.vreg a ∉ (Instr.phi ty (inc ++
            List.replicate numEdges
              (vals.getD ((ptam.lookup pid).getD 0) (Val.vundef ty),
                predBB))).operands := by
          intro hmem
          simp only [Instr.operands] at hmem
          obtain ⟨vb, hvb, hfst⟩ := List.mem_map.mp hmem
          rcases List.mem_append.mp hvb with hlm | hrm
          · exact hinc vb hlm hfst
          · have hvbeq := List.eq_of_mem_replicate hrm
            rw [hvbeq] at hfst
            exact hvne hfst
        refine ih _ _ _ (gone_setInstr hg hins) ?_
          (fun pid2 ty2 inc2 hm => hl pid2 ty2 inc2 (List.mem_cons_of_mem _ hm))
        intro v hvm
        rcases List.mem_or_eq_of_mem_set hvm with hold | hnew
        · exact hv v hold
        · rw [hnew]
          intro hq
          injection hq with hq2
          exact hpid hq2
      · rw [if_neg hlen]
        exact ⟨hg, hv⟩
    | alloca ty => exact ⟨hg, hv⟩
    | load ty p => exact ⟨hg, hv⟩
    | store sv p => exact ⟨hg, hv⟩
    | other ty ops => exact ⟨hg, hv⟩
    | term ops ss => exact ⟨hg, hv⟩

theorem renamePhiUpdate_gone {a : IId} {F : Func} {ptam : List (IId × Nat)}
    {bb : BId} {pred : Option BId} {vals : List Val} {r : Func × List Val}
    (hg : CellGone a F) (hv : ∀ v ∈ vals, v ≠ Val.vreg a)
    (h : renamePhiUpdate F ptam bb pred vals = some r) :
    CellGone a r.1 ∧ ∀ v ∈ r.2, v ≠ Val.vreg a := by
  have hl : ∀ pid ty inc, (pid, Instr.phi ty inc) ∈ F.blockInsts bb →
      pid ≠ a ∧ ∀ vb ∈ inc, vb.1 ≠ Val.vreg a := by
    intro pid ty inc hm
    have hmi := mem_blockInsts_mem_instrs hm
    refine ⟨id_ne_of_gone hg.1 hmi, ?_⟩
    intro vb hvb
    refine operand_ne_of_gone_mem hg.2 hmi ?_
    show vb.1 ∈ (Instr.phi ty inc).operands
    simp only [Instr.operands]
    exact List.mem_map.mpr ⟨vb, hvb, rfl⟩
  unfold renamePhiUpdate at h
  cases hbi : F.blockInsts bb with
  | nil =>
    rw [hbi] at h
    obtain rfl := Option.some_inj.mp h
    exact ⟨hg, hv⟩
  | cons p0 rest0 =>
    obtain ⟨pid0, ins0⟩ := p0
    rw [hbi] at h
    cases ins0 with
    | phi ty0 inc0 =>
      simp only [] at h
      by_cases hlk : (ptam.lookup pid0).isSome = true
      · rw [if_pos hlk] at h
        cases pred with
        | none => exact Option.noConfusion h
        | some p =>
          simp only [] at h
          by_cases hz : ((F.succsOf p).count bb == 0) = true
          · rw [if_pos hz] at h
            exact Option.noConfusion h
          · rw [if_neg hz] at h
            obtain rfl := Option.some_inj.mp h
            refine phiUpdateLoop_gone ptam _ p _ F vals inc0.length hg hv ?_
            intro pid2 ty2 inc2 hm
            refine hl pid2 ty2 inc2 ?_
            rw [hbi]
            exact hm
      · rw [if_neg hlk] at h
        obtain rfl := Option.some_inj.mp h
        exact ⟨hg, hv⟩
    | alloca ty0 =>
      obtain rfl := Option.some_inj.mp h
      exact ⟨hg, hv⟩
    | load ty0 p2 =>
      obtain rfl := Option.some_inj.mp h
      exact ⟨hg, hv⟩
    | store sv p2 =>
      obtain rfl := Option.some_inj.mp h
      exact ⟨hg, hv⟩
    | other ty0 ops =>
      obtain rfl := Option.some_inj.mp h
      exact ⟨hg, hv⟩
    | term ops ss =>
      obtain rfl := Option.some_inj.mp h
      exact ⟨hg, hv⟩

theorem bodyLoop_gone {a : IId} (alkp : List (IId × Nat)) :
    ∀ (l : List IId) (F : Func) (vals : List Val),
      CellGone a F → (∀ v ∈ vals, v ≠ Val.vreg a) →
      CellGone a (bodyLoop alkp l F vals).1 ∧
      ∀ v ∈ (bodyLoop alkp l F vals).2, v ≠ Val.vreg a := by
  intro l
  induction l with
  | nil =>
    intro F vals hg hv
    exact ⟨hg, hv⟩
  | cons iid rest ih =>
    intro F vals hg hv
    cases hfi : F.findInstr iid with
    | none =>
      simp only [bodyLoop, hfi]
      exact ih F vals hg hv
    | some ins =>
      simp only [bodyLoop, hfi]
      by_cases ht : ins.isTerm = true
      · rw [if_pos ht]
        exact ⟨hg, hv⟩
      · rw [if_neg ht]
        cases ins with
        | load lty p =>
          cases p with
          | vreg src =>
            simp only []
            by_cases ha : F.isAllocaId src = true
            · rw [if_pos ha]
              cases hlk : alkp.lookup src with
              | none => exact ih F vals hg hv
              | some idx =>
                refine ih _ _ ?_ hv
                exact gone_eraseInstr
                  (gone_rauw hg (getD_ne hv (fun hq => by cases hq))) iid
            · rw [if_neg ha]
              exact ih F vals hg hv
          | varg n ty2 => exact ih F vals hg hv
          | vconst n ty2 => exact ih F vals hg hv
          | vundef ty2 => exact ih F vals hg hv
          | vpoison ty2 => exact ih F vals hg hv
        | store sv p =>
          cases p with
          | vreg dst =>
            simp only []
            by_cases ha : F.isAllocaId dst = true
            · rw [if_pos ha]
              cases hlk : alkp.lookup dst with
              | none => exact ih F vals hg hv
              | some idx =>
                refine ih _ _ (gone_eraseInstr hg iid) ?_
                intro v hvm
                rcases List.mem_or_eq_of_mem_set hvm with hold | hnew
                · exact hv v hold
                · rw [hnew]
                  exact operand_ne_of_gone hg.2 hfi
                    (List.mem_cons_self sv [Val.vreg dst])
            · rw [if_neg ha]
              exact ih F vals hg hv
          | varg n ty2 => exact ih F vals hg hv
          | vconst n ty2 => exact ih F vals hg hv
          | vundef ty2 => exact ih F vals hg hv
          | vpoison ty2 => exact ih F vals hg hv
        | alloca ty2 => exact ih F vals hg hv
        | phi ty2 inc => exact ih F vals hg hv
        | other ty2 ops => exact ih F vals hg hv
        | term ops ss => exact ih F vals hg hv

theorem renameStep_gone {a : IId} {s : St} {r : RPD} {s' : St}
    {es : List RPD}
    (hg : CellGone a s.F) (hv : ∀ v ∈ r.vals, v ≠ Val.vreg a)
    (h : renameStep s r = some (s', es)) :
    CellGone a s'.F ∧ ∀ e ∈ es, ∀ v ∈ e.vals, v ≠ Val.vreg a := by
  unfold renameStep at h
  obtain ⟨q, hq, h⟩ := bind_eq_some h
  obtain ⟨F1, vals1⟩ := q
  simp only [] at h
  obtain ⟨hg1, hv1⟩ := renamePhiUpdate_gone hg hv hq
  by_cases hvis : s.Visited.contains r.bb = true
  · rw [if_pos hvis] at h
    have hp := Option.some_inj.mp h
    obtain rfl : ({ s with F := F1 } : St) = s' := congrArg Prod.fst hp
    obtain rfl : ([] : List RPD) = es := congrArg Prod.snd hp
    exact ⟨hg1, fun e he => by cases he⟩
  · rw [if_neg hvis] at h
    cases hbl : bodyLoop s.AllocaLookup ((F1.blockInsts r.bb).map (fun p => p.1))
        F1 vals1 with
    | mk F2 vals2 =>
      rw [hbl] at h
      simp only [] at h
      have hb2 := bodyLoop_gone s.AllocaLookup
        ((F1.blockInsts r.bb).map (fun p => p.1)) F1 vals1 hg1 hv1
      rw [hbl] at hb2
      obtain ⟨hg2, hv2⟩ := hb2
      cases hd : dedupKeepFirst (F2.succsOf r.bb) with
      | nil =>
        rw [hd] at h
        have hp := Option.some_inj.mp h
        obtain rfl : ({ s with F := F2, Visited := r.bb :: s.Visited } : St)
            = s' := congrArg Prod.fst hp
        obtain rfl : ([] : List RPD) = es := congrArg Prod.snd hp
        exact ⟨hg2, fun e he => by cases he⟩
      | cons s1b others =>
        rw [hd] at h
        simp only [] at h
        have hp := Option.some_inj.mp h
        obtain rfl : ({ s with F := F2, Visited := r.bb :: s.Visited } : St)
            = s' := congrArg Prod.fst hp
        obtain hes : RPD.mk s1b (some r.bb) vals2 ::
            (others.map (fun so => RPD.mk so (some r.bb) vals2)).reverse = es :=
          congrArg Prod.snd hp
        refine ⟨hg2, ?_⟩
        intro e he
        rw [← hes] at he
        rcases List.mem_cons.mp he with rfl | he2
        · exact hv2
        · rw [List.mem_reverse] at he2
          obtain ⟨so, _, rfl⟩ := List.mem_map.mp he2
          exact hv2

theorem renameLoop_gone {a : IId} :
    ∀ (fuel : Nat) (s : St) (l : List RPD) (s' : St),
      CellGone a s.F →
      (∀ e ∈ l, ∀ v ∈ e.vals, v ≠ Val.vreg a) →
      renameLoop fuel s l = some s' →
      CellGone a s'.F := by
  intro fuel
  induction fuel with
  | zero =>
    intro s l s' hg hl h
    cases l with
    | nil =>
      simp only [renameLoop] at h
      obtain rfl := Option.some_inj.mp h
      exact hg
    | cons r rest =>
      simp only [renameLoop] at h
      cases h
  | succ fuel ih =>
    intro s l s' hg hl h
    cases l with
    | nil =>
      simp only [renameLoop] at h
      obtain rfl := Option.some_inj.mp h
      exact hg
    | cons r rest =>
      simp only [renameLoop] at h
      obtain ⟨q, hq, h⟩ := bind_eq_some h
      obtain ⟨s1, es⟩ := q
      simp only [] at h
      obtain ⟨hg1, hes⟩ := renameStep_gone hg
        (hl r (List.mem_cons_self _ _)) hq
      refine ih s1 (es ++ rest) s' hg1 ?_ h
      intro e he
      rcases List.mem_append.mp he with h1 | h2
      · exact hes e h1
      · exact hl e (List.mem_cons_of_mem _ h2)

theorem mapM_allocatedTy_vundef {F : Func} :
    ∀ (l : List IId) (vals : List Val),
      l.mapM (fun a2 => (F.allocatedTy a2).map (fun ty => Val.vundef ty)) =
        some vals →
      ∀ v ∈ vals, ∃ ty, v = Val.vundef ty := by
  intro l
  induction l with
  | nil =>
    intro vals h v hv
    simp only [List.mapM_nil] at h
    obtain rfl : [] = vals := Option.some_inj.mp h
    cases hv
  | cons x rest ih =>
    intro vals h v hv
    rw [List.mapM_cons] at h
    obtain ⟨v1, hv1, h⟩ := bind_eq_some h
    obtain ⟨vs, hvs, h⟩ := bind_eq_some h
    obtain rfl : v1 :: vs = vals := Option.some_inj.mp h
    rcases List.mem_cons.mp hv with rfl | hv2
    · obtain ⟨ty, _, hmap⟩ := Option.map_eq_some'.mp hv1
      exact ⟨ty, hmap.symm⟩
    · exact ih vs hvs v hv2

end RenameGone

section CleanupGone

theorem eraseAllocasLoop_gone {a : IId} :
    ∀ (l : List IId) (F : Func),
      (CellGone a F ∨ a ∈ l) →
      CellGone a (eraseAllocasLoop l F) := by
  intro l
  induction l with
  | nil =>
    intro F h
    rcases h with hg | hm
    · exact hg
    · cases hm
  | cons b rest ih =>
    intro F h
    simp only [eraseAllocasLoop]
    by_cases hu : (F.usersOf (Val.vreg b)).isEmpty = true
    · rw [if_pos hu]
      refine ih _ ?_
      rcases h with hg | hm
      · exact Or.inl (gone_eraseInstr hg b)
      · rcases List.mem_cons.mp hm with rfl | hm2
        · exact Or.inl (gone_of_erase (List.isEmpty_iff.mp hu))
        · exact Or.inr hm2
    · rw [if_neg hu]
      refine ih _ ?_
      rcases h with hg | hm
      · exact Or.inl (gone_eraseInstr
          (gone_rauw hg (fun hq => by cases hq)) b)
      · rcases List.mem_cons.mp hm with rfl | hm2
        · exact Or.inl (gone_establish_rauw a F)
        · exact Or.inr hm2

theorem simplifyPHILoop_val (pid : IId) :
    ∀ (vl : List Val) (cv : Option Val) (hu : Bool) (cv' : Option Val)
      (hu' : Bool),
      simplifyPHILoop pid vl cv hu = some (cv', hu') →
      ∀ c, cv' = some c → cv = some c ∨ c ∈ vl := by
  intro vl
  induction vl with
  | nil =>
    intro cv hu cv' hu' h c hc
    simp only [simplifyPHILoop] at h
    obtain rfl : cv = cv' := congrArg Prod.fst (Option.some_inj.mp h)
    exact Or.inl hc
  | cons v rest ih =>
    intro cv hu cv' hu' h c hc
    simp only [simplifyPHILoop] at h
    by_cases hs : (v == Val.vreg pid) = true
    · rw [if_pos hs] at h
      rcases ih cv hu cv' hu' h c hc with h1 | h2
      · exact Or.inl h1
      · exact Or.inr (List.mem_cons_of_mem _ h2)
    · rw [if_neg hs] at h
      by_cases hundef : isUndefValue v = true
      · rw [if_pos hundef] at h
        rcases ih cv true cv' hu' h c hc with h1 | h2
        · exact Or.inl h1
        · exact Or.inr (List.mem_cons_of_mem _ h2)
      · rw [if_neg hundef] at h
        cases cv with
        | some c0 =>
          simp only [] at h
          by_cases hvc : (v == c0) = true
          · rw [if_pos hvc] at h
            rcases ih (some c0) hu cv' hu' h c hc with h1 | h2
            · exact Or.inl h1
            · exact Or.inr (List.mem_cons_of_mem _ h2)
          · rw [if_neg hvc] at h
            cases h
        | none =>
          simp only [] at h
          rcases ih (some v) hu cv' hu' h c hc with h1 | h2
          · have hvc : v = c := Option.some_inj.mp h1
            exact Or.inr (hvc ▸ List.mem_cons_self _ _)
          · exact Or.inr (List.mem_cons_of_mem _ h2)

theorem simplifyPHINode_val {domI : IId → IId → Bool} {pid : IId} {ty : Ty}
    {inc : List (Val × BId)} {v : Val}
    (h : simplifyPHINode domI pid ty inc = some v) :
    v = Val.vundef ty ∨ v ∈ inc.map (fun vb => vb.1) := by
  unfold simplifyPHINode at h
  cases hl : simplifyPHILoop pid (inc.map (fun vb => vb.1)) none false with
  | none =>
    rw [hl] at h
    cases h
  | some pr =>
    obtain ⟨cv, hu⟩ := pr
    rw [hl] at h
    cases cv with
    | none =>
      simp only [] at h
      exact Or.inl (Option.some_inj.mp h).symm
    | some c =>
      simp only [] at h
      have hcm : c ∈ inc.map (fun vb => vb.1) := by
        rcases simplifyPHILoop_val pid _ none false (some c) hu hl c rfl with
          h1 | h2
        · cases h1
        · exact h2
      cases hu with
      | false =>
        rw [if_neg Bool.false_ne_true] at h
        obtain rfl : c = v := Option.some_inj.mp h
        exact Or.inr hcm
      | true =>
        rw [if_pos rfl] at h
        by_cases hd : valueDominatesPHI domI c pid = true
        · rw [if_pos hd] at h
          obtain rfl : c = v := Option.some_inj.mp h
          exact Or.inr hcm
        · rw [if_neg hd] at h
          cases h

theorem simplifySweep_gone {a : IId} (domI : IId → IId → Bool) :
    ∀ (l : List ((Nat × Nat) × IId)) (F : Func)
      (kept : List ((Nat × Nat) × IId)) (elim : Bool)
      (r : Func × List ((Nat × Nat) × IId) × Bool),
      CellGone a F →
      simplifySweep domI l F kept elim = some r →
      CellGone a r.1 := by
  intro l
  induction l with
  | nil =>
    intro F kept elim r hg h
    simp only [simplifySweep] at h
    obtain rfl := Option.some_inj.mp h
    exact hg
  | cons e rest ih =>
    intro F kept elim r hg h
    obtain ⟨key, pid⟩ := e
    simp only [simplifySweep] at h
    cases hfi : F.findInstr pid with
    | none =>
      simp only [hfi, Option.bind_eq_bind, Option.none_bind] at h
      cases h
    | some ins =>
      cases ins with
      | phi ty inc =>
        simp only [hfi, Option.bind_eq_bind, Option.some_bind] at h
        cases hsp : simplifyPHINode domI pid ty inc with
        | some v =>
          rw [hsp] at h
          have hvne : v ≠ Val.vreg a := by
            rcases simplifyPHINode_val hsp with rfl | hm
            · intro hq
              cases hq
            · obtain ⟨vb, hvb, rfl⟩ := List.mem_map.mp hm
              refine operand_ne_of_gone hg.2 hfi ?_
              show vb.1 ∈ (Instr.phi ty inc).operands
              simp only [Instr.operands]
              exact List.mem_map.mpr ⟨vb, hvb, rfl⟩
          exact ih _ _ _ _ (gone_eraseInstr (gone_rauw hg hvne) pid) h
        | none =>
          rw [hsp] at h
          exact ih _ _ _ _ hg h
      | alloca ty =>
        simp only [hfi, Option.bind_eq_bind, Option.none_bind] at h
        cases h
      | load ty p2 =>
        simp only [hfi, Option.bind_eq_bind, Option.none_bind] at h
        cases h
      | store sv p2 =>
        simp only [hfi, Option.bind_eq_bind, Option.none_bind] at h
        cases h
      | other ty ops =>
        simp only [hfi, Option.bind_eq_bind, Option.none_bind] at h
        cases h
      | term ops ss =>
        simp only [hfi, Option.bind_eq_bind, Option.none_bind] at h
        cases h

theorem simplifyLoop_gone {a : IId} (domI : IId → IId → Bool) :
    ∀ (fuel : Nat) (F : Func) (entries : List ((Nat × Nat) × IId))
      (r : Func × List ((Nat × Nat) × IId)),
      CellGone a F →
      simplifyLoop domI fuel F entries = some r → CellGone a r.1 := by
  intro fuel
  induction fuel with
  | zero =>
    intro F entries r hg h
    simp only [simplifyLoop] at h
    cases h
  | succ fuel ih =>
    intro F entries r hg h
    simp only [simplifyLoop] at h
    obtain ⟨q, hq, h⟩ := bind_eq_some h
    obtain ⟨F1, entries1, elim⟩ := q
    simp only [] at h
    have hg1 : CellGone a F1 :=
      simplifySweep_gone domI entries F [] false (F1, entries1, elim) hg hq
    cases elim with
    | true =>
      rw [if_pos rfl] at h
      exact ih F1 entries1 r hg1 h
    | false =>
      rw [if_neg Bool.false_ne_true] at h
      obtain rfl := Option.some_inj.mp h
      exact hg1

theorem fillPhiRun_gone {a : IId} (missing : List BId) (nbad : Nat) :
    ∀ (l : List (IId × Instr)) (F : Func),
      CellGone a F →
      (∀ pid ty inc, (pid, Instr.phi ty inc) ∈ l →
        ∀ vb ∈ inc, vb.1 ≠ Val.vreg a) →
      CellGone a (fillPhiRun missing nbad l F) := by
  intro l
  induction l with
  | nil =>
    intro F hg hl
    exact hg
  | cons t rest ih =>
    intro F hg hl
    obtain ⟨pid, ins⟩ := t
    cases ins with
    | phi ty inc =>
      simp only [fillPhiRun]
      by_cases hlen : (inc.length == nbad) = true
      · rw [if_pos hlen]
        have hins : Val.vreg a ∉ (Instr.phi ty (inc ++
            missing.map (fun p => (Val.vpoison ty, p)))).operands := by
          intro hmem
          simp only [Instr.operands] at hmem
          obtain ⟨vb, hvb, hfst⟩ := List.mem_map.mp hmem
          rcases List.mem_append.mp hvb with hlm | hrm
          · exact hl pid ty inc (List.mem_cons_self _ _) vb hlm hfst
          · obtain ⟨p2, _, rfl⟩ := List.mem_map.mp hrm
            cases hfst
        exact ih _ (gone_setInstr hg hins)
          (fun pid2 ty2 inc2 hm => hl pid2 ty2 inc2 (List.mem_cons_of_mem _ hm))
      · rw [if_neg hlen]
        exact hg
    | alloca ty => exact hg
    | load ty p => exact hg
    | store sv p => exact hg
    | other ty ops => exact hg
    | term ops ss => exact hg

theorem poisonFillEntry_gone {a : IId} {nums : List (BId × Nat)} {F : Func}
    {pid : IId} {F' : Func} (hg : CellGone a F)
    (h : poisonFillEntry nums F pid = some F') :
    CellGone a F' := by
  unfold poisonFillEntry at h
  cases hfi : F.findInstr pid with
  | none =>
    simp only [hfi, Option.bind_eq_bind, Option.none_bind] at h
    cases h
  | some ins =>
    cases ins with
    | phi ty inc =>
      simp only [hfi, Option.bind_eq_bind, Option.some_bind] at h
      obtain ⟨bb, hbb, h⟩ := bind_eq_some h
      cases hbi : F.blockInsts bb with
      | nil =>
        rw [hbi] at h
        obtain rfl := Option.some_inj.mp h
        exact hg
      | cons p0 rest0 =>
        obtain ⟨firstId, ins0⟩ := p0
        rw [hbi] at h
        simp only [] at h
        by_cases hne1 : (firstId != pid) = true
        · rw [if_pos hne1] at h
          obtain rfl := Option.some_inj.mp h
          exact hg
        · rw [if_neg hne1] at h
          by_cases hlen : (inc.length == F.numPreds bb) = true
          · rw [if_pos hlen] at h
            obtain rfl := Option.some_inj.mp h
            exact hg
          · rw [if_neg hlen] at h
            obtain ⟨missing, _, h⟩ := bind_eq_some h
            obtain rfl := Option.some_inj.mp h
            refine fillPhiRun_gone missing inc.length _ F hg ?_
            intro pid2 ty2 inc2 hm vb hvb
            have hm2 : (pid2, Instr.phi ty2 inc2) ∈ F.blockInsts bb := by
              rw [hbi]
              exact hm
            refine operand_ne_of_gone_mem hg.2 (mem_blockInsts_mem_instrs hm2) ?_
            show vb.1 ∈ (Instr.phi ty2 inc2).operands
            simp only [Instr.operands]
            exact List.mem_map.mpr ⟨vb, hvb, rfl⟩
    | alloca ty =>
      simp only [hfi, Option.bind_eq_bind, Option.none_bind] at h
      cases h
    | load ty p2 =>
      simp only [hfi, Option.bind_eq_bind, Option.none_bind] at h
      cases h
    | store sv p2 =>
      simp only [hfi, Option.bind_eq_bind, Option.none_bind] at h
      cases h
    | other ty ops =>
      simp only [hfi, Option.bind_eq_bind, Option.none_bind] at h
      cases h
    | term ops ss =>
      simp only [hfi, Option.bind_eq_bind, Option.none_bind] at h
      cases h

theorem poisonFillLoop_gone {a : IId} {nums : List (BId × Nat)} :
    ∀ (l : List ((Nat × Nat) × IId)) (F F' : Func),
      CellGone a F →
      poisonFillLoop nums l F = some F' → CellGone a F' := by
  intro l
  induction l with
  | nil =>
    intro F F' hg h
    simp only [poisonFillLoop] at h
    obtain rfl := Option.some_inj.mp h
    exact hg
  | cons e rest ih =>
    intro F F' hg h
    obtain ⟨key, pid⟩ := e
    simp only [poisonFillLoop] at h
    obtain ⟨F1, hq, h⟩ := bind_eq_some h
    exact ih F1 F' (poisonFillEntry_gone hg hq) h

end CleanupGone

section MainGone

theorem runPass_gone {domB : BId → BId → Bool} {domI : IId → IId → Bool}
    {idf : List BId → List BId → List BId} {fuel : Nat} {F0 : Func}
    {allocaList : List IId} {s' : St}
    (hwf : wfF F0)
    (h : runPass domB domI idf fuel F0 allocaList = some s') :
    ∀ a ∈ allocaList, CellGone a s'.F := by
  unfold runPass at h
  simp only [] at h
  obtain ⟨q1, hq1, h⟩ := bind_eq_some h
  obtain ⟨s1, lbi1⟩ := q1
  simp only [] at h
  obtain ⟨hpa1, hpa2, hpa3⟩ := processAllocas_gone domB idf fuel
    ⟨F0, allocaList, [], [], [], [], []⟩ [] 0 s1 lbi1 hwf hq1
  intro a ha
  obtain ⟨j, hj⟩ := List.mem_iff_get?.mp ha
  have hcase := hpa2 j a (Nat.zero_le j) hj
  by_cases he : s1.Allocas.isEmpty = true
  · rw [if_pos he] at h
    obtain rfl := Option.some_inj.mp h
    rcases hcase with hg | hm
    · exact hg
    · rw [List.isEmpty_iff.mp he] at hm
      cases hm
  · rw [if_neg he] at h
    obtain ⟨vals, hvals, h⟩ := bind_eq_some h
    obtain ⟨entryB, _, h⟩ := bind_eq_some h
    obtain ⟨s2, hq2, h⟩ := bind_eq_some h
    obtain ⟨hsk2, hAl2⟩ := renameLoop_skel fuel s1 [⟨entryB, none, vals⟩] s2 hq2
    obtain ⟨q5, hq5, h⟩ := bind_eq_some h
    obtain ⟨F5, entries5⟩ := q5
    simp only [] at h
    obtain ⟨F6, hq6, h⟩ := bind_eq_some h
    obtain rfl := Option.some_inj.mp h
    have hvne : ∀ e ∈ ([⟨entryB, none, vals⟩] : List RPD),
        ∀ v ∈ e.vals, v ≠ Val.vreg a := by
      intro e hem v hv heq
      rcases List.mem_cons.mp hem with rfl | hem2
      · obtain ⟨ty, rfl⟩ := mapM_allocatedTy_vundef s1.Allocas vals hvals v hv
        cases heq
      · cases hem2
    have hgone4 : CellGone a (eraseAllocasLoop s2.Allocas s2.F) := by
      rcases hcase with hg | hm
      · exact eraseAllocasLoop_gone s2.Allocas s2.F
          (Or.inl (renameLoop_gone fuel s1 _ s2 hg hvne hq2))
      · exact eraseAllocasLoop_gone s2.Allocas s2.F
          (Or.inr (by rw [hAl2]; exact hm))
    exact poisonFillLoop_gone entries5 F5 F6
      (simplifyLoop_gone domI fuel _ _ _ hgone4 hq5) hq6

/-- Claim C1: whenever `PromoteMemToReg` completes on a well-formed function,
every cell of the promotion set is erased from the function (its id resolves
to no instruction) and no load from it and no store to it remains — no
remaining instruction is a load whose pointer is the cell or a store whose
pointer is the cell — regardless of which path (single-store fast path,
single-block fast path, or general SSA construction) handled the cell. -/
theorem c1_promoted_cells_gone (domB : BId → BId → Bool)
    (domI : IId → IId → Bool) (idf : List BId → List BId → List BId)
    (fuel : Nat) (F F' : Func) (allocas : List IId)
    (hwf : wfF F)
    (h : PromoteMemToReg domB domI idf fuel F allocas = some F') :
    ∀ a ∈ allocas,
      F'.findInstr a = none ∧
      (∀ t ∈ F'.instrs, ∀ lty, t.2.2 ≠ Instr.load lty (Val.vreg a)) ∧
      (∀ t ∈ F'.instrs, ∀ sv, t.2.2 ≠ Instr.store sv (Val.vreg a)) := by
  unfold PromoteMemToReg at h
  by_cases he : allocas.isEmpty = true
  · intro a ha
    rw [List.isEmpty_iff.mp he] at ha
    cases ha
  · rw [if_neg he] at h
    obtain ⟨s1, hs, hmap⟩ := Option.map_eq_some'.mp h
    obtain rfl : s1.F = F' := hmap
    intro a ha
    obtain ⟨h1, h2⟩ := runPass_gone hwf hs a ha
    refine ⟨h1, ?_, ?_⟩
    · intro t ht lty heq
      refine users_empty_iff.mp h2 t ht ?_
      rw [heq]
      simp [Instr.operands]
    · intro t ht sv heq
      refine users_empty_iff.mp h2 t ht ?_
      rw [heq]
      exact List.mem_cons_of_mem sv (List.mem_cons_self _ _)

/-- Witness for C1 on scenario S1: the cell 1 is promoted, erased, and the
result holds neither a load from it nor a store to it. -/
theorem c1_witness :
    wfF exS1 ∧
    PromoteMemToReg (fun _ _ => true) (fun _ _ => true) (fun _ _ => []) 5
      exS1 [1] = some exS1res ∧
    exS1res.findInstr 1 = none ∧
    Instr.term [Val.vconst 42 exTy] [] ≠ Instr.load exTy (Val.vreg 1) ∧
    Instr.term [Val.vconst 42 exTy] [] ≠
      Instr.store (Val.vconst 42 exTy) (Val.vreg 1) := by
  have hwf : wfF exS1 := ⟨by decide, by decide, by decide⟩
  have hrun : PromoteMemToReg (fun _ _ => true) (fun _ _ => true)
      (fun _ _ => []) 5 exS1 [1] = some exS1res := by decide
  have h := c1_promoted_cells_gone (fun _ _ => true) (fun _ _ => true)
    (fun _ _ => []) 5 exS1 exS1res [1] hwf hrun 1 (by decide)
  exact ⟨hwf, hrun, h.1,
    h.2.1 (4, 0, Instr.term [Val.vconst 42 exTy] []) (by decide) exTy,
    h.2.2 (4, 0, Instr.term [Val.vconst 42 exTy] [])
      (by decide) (Val.vconst 42 exTy)⟩

end MainGone

section SimplifyPHI

theorem simplifyPHILoop_allSkip (pid : IId) :
    ∀ (l : List Val) (cv : Option Val) (hu : Bool),
      (∀ v ∈ l, v = Val.vreg pid ∨ isUndefValue v = true) →
      simplifyPHILoop pid l cv hu =
        some (cv, hu || l.any (fun v => v != Val.vreg pid && isUndefValue v)) := by
  intro l
  induction l with
  | nil => intro cv hu _; simp [simplifyPHILoop]
  | cons v rest ih =>
    intro cv hu hall
    rcases hall v (List.mem_cons_self v rest) with hv | hv
    · subst hv
      simp only [simplifyPHILoop, beq_self_eq_true, if_true]
      rw [ih cv hu (fun w hw => hall w (List.mem_cons_of_mem _ hw))]
      simp
    · by_cases hself : v = Val.vreg pid
      · subst hself
        simp only [simplifyPHILoop, beq_self_eq_true, if_true]
        rw [ih cv hu (fun w hw => hall w (List.mem_cons_of_mem _ hw))]
        simp
      · simp only [simplifyPHILoop, beq_iff_eq, if_neg hself, hv, if_true]
        rw [ih cv true (fun w hw => hall w (List.mem_cons_of_mem _ hw))]
        simp [List.any_cons, hself, hv]

theorem simplifyPHILoop_single (pid : IId) (V : Val) (hVs : V ≠ Val.vreg pid)
    (hVu : isUndefValue V = false) :
    ∀ (l : List Val) (cv : Option Val) (hu : Bool),
      (∀ w ∈ l, w = Val.vreg pid ∨ isUndefValue w = true ∨ w = V) →
      (cv = none ∨ cv = some V) →
      ∃ cv', simplifyPHILoop pid l cv hu =
          some (cv', hu || l.any (fun v => v != Val.vreg pid && isUndefValue v)) ∧
        (cv' = none ∨ cv' = some V) ∧
        (V ∈ l → cv' = some V) ∧ (cv = some V → cv' = some V) := by
  intro l
  induction l with
  | nil =>
    intro cv hu _ hcv
    exact ⟨cv, by simp [simplifyPHILoop], hcv, by simp, fun h => h⟩
  | cons w rest ih =>
    intro cv hu hall hcv
    by_cases hself : w = Val.vreg pid
    · subst hself
      simp only [simplifyPHILoop, beq_self_eq_true, if_true]
      obtain ⟨cv', h1, h2, h3, h4⟩ :=
        ih cv hu (fun x hx => hall x (List.mem_cons_of_mem _ hx)) hcv
      refine ⟨cv', by rw [h1]; simp, h2, ?_, h4⟩
      intro hVin
      rcases List.mem_cons.mp hVin with hVeq | hVin'
      · exact absurd hVeq hVs
      · exact h3 hVin'
    · by_cases hundef : isUndefValue w = true
      · simp only [simplifyPHILoop, beq_iff_eq, if_neg hself, hundef, if_true]
        obtain ⟨cv', h1, h2, h3, h4⟩ :=
          ih cv true (fun x hx => hall x (List.mem_cons_of_mem _ hx)) hcv
        refine ⟨cv', by rw [h1]; simp [List.any_cons, hself, hundef], h2, ?_, h4⟩
        intro hVin
        rcases List.mem_cons.mp hVin with hVeq | hVin'
        · rw [hVeq, hundef] at hVu; exact absurd hVu (by simp)
        · exact h3 hVin'
      · have hwV : w = V := by
          rcases hall w (List.mem_cons_self w rest) with h | h | h
          · exact absurd h hself
          · exact absurd h hundef
          · exact h
        subst hwV
        rcases hcv with hcv | hcv
        · subst hcv
          simp only [simplifyPHILoop, beq_iff_eq, if_neg hself, hundef,
            Bool.false_eq_true, if_false]
          obtain ⟨cv', h1, h2, h3, h4⟩ :=
            ih (some w) hu (fun x hx => hall x (List.mem_cons_of_mem _ hx))
              (Or.inr rfl)
          refine ⟨cv', by rw [h1]; simp [List.any_cons, hself, hundef], h2,
            fun _ => h4 rfl, fun h => by cases h⟩
        · subst hcv
          simp only [simplifyPHILoop, beq_iff_eq, if_neg hself, hundef,
            Bool.false_eq_true, if_false, beq_self_eq_true, if_true]
          obtain ⟨cv', h1, h2, h3, h4⟩ :=
            ih (some w) hu (fun x hx => hall x (List.mem_cons_of_mem _ hx))
              (Or.inr rfl)
          refine ⟨cv', by rw [h1]; simp [List.any_cons, hself, hundef], h2,
            fun _ => h4 rfl, fun _ => h4 rfl⟩

theorem simplifyPHILoop_conflict (pid : IId) (V : Val) (hVs : V ≠ Val.vreg pid)
    (hVu : isUndefValue V = false) :
    ∀ (l : List Val) (hu : Bool),
      (∃ w ∈ l, w ≠ Val.vreg pid ∧ isUndefValue w = false ∧ w ≠ V) →
      simplifyPHILoop pid l (some V) hu = none := by
  intro l
  induction l with
  | nil => intro hu h; obtain ⟨w, hw, _⟩ := h; cases hw
  | cons x rest ih =>
    intro hu hex
    obtain ⟨w, hwmem, hw1, hw2, hw3⟩ := hex
    by_cases hself : x = Val.vreg pid
    · subst hself
      simp only [simplifyPHILoop, beq_self_eq_true, if_true]
      apply ih
      rcases List.mem_cons.mp hwmem with h | h
      · exact absurd h hw1
      · exact ⟨w, h, hw1, hw2, hw3⟩
    · by_cases hundef : isUndefValue x = true
      · simp only [simplifyPHILoop, beq_iff_eq, if_neg hself, hundef, if_true]
        apply ih
        rcases List.mem_cons.mp hwmem with h | h
        · subst h; rw [hundef] at hw2; exact absurd hw2 (by simp)
        · exact ⟨w, h, hw1, hw2, hw3⟩
      · by_cases hxV : x = V
        · subst hxV
          simp only [simplifyPHILoop, beq_iff_eq, if_neg hself, hundef,
            Bool.false_eq_true, if_false, beq_self_eq_true, if_true]
          apply ih
          rcases List.mem_cons.mp hwmem with h | h
          · exact absurd h hw3
          · exact ⟨w, h, hw1, hw2, hw3⟩
        · simp only [simplifyPHILoop, beq_iff_eq, if_neg hself, hundef,
            Bool.false_eq_true, if_false]
          rw [if_neg hxV]

theorem simplifyPHILoop_conflict_none (pid : IId) :
    ∀ (l : List Val) (hu : Bool),
      (∃ v ∈ l, ∃ w ∈ l, v ≠ Val.vreg pid ∧ w ≠ Val.vreg pid ∧
        isUndefValue v = false ∧ isUndefValue w = false ∧ v ≠ w) →
      simplifyPHILoop pid l none hu = none := by
  intro l
  induction l with
  | nil => intro hu h; obtain ⟨v, hv, _⟩ := h; cases hv
  | cons x rest ih =>
    intro hu hex
    obtain ⟨v, hvmem, w, hwmem, hv1, hw1, hv2, hw2, hvw⟩ := hex
    by_cases hself : x = Val.vreg pid
    · subst hself
      simp only [simplifyPHILoop, beq_self_eq_true, if_true]
      apply ih
      have hv' : v ∈ rest := by
        rcases List.mem_cons.mp hvmem with h | h
        · exact absurd h hv1
        · exact h
      have hw' : w ∈ rest := by
        rcases List.mem_cons.mp hwmem with h | h
        · exact absurd h hw1
        · exact h
      exact ⟨v, hv', w, hw', hv1, hw1, hv2, hw2, hvw⟩
    · by_cases hundef : isUndefValue x = true
      · simp only [simplifyPHILoop, beq_iff_eq, if_neg hself, hundef, if_true]
        apply ih
        have hv' : v ∈ rest := by
          rcases List.mem_cons.mp hvmem with h | h
          · subst h; rw [hundef] at hv2; exact absurd hv2 (by simp)
          · exact h
        have hw' : w ∈ rest := by
          rcases List.mem_cons.mp hwmem with h | h
          · subst h; rw [hundef] at hw2; exact absurd hw2 (by simp)
          · exact h
        exact ⟨v, hv', w, hw', hv1, hw1, hv2, hw2, hvw⟩
      · simp only [simplifyPHILoop, beq_iff_eq, if_neg hself, hundef,
          Bool.false_eq_true, if_false]
        have hxu : isUndefValue x = false := by simpa using hundef
        have hwit : ∃ u ∈ rest, u ≠ Val.vreg pid ∧ isUndefValue u = false ∧ u ≠ x := by
          by_cases hvx : v = x
          · subst hvx
            have hw' : w ∈ rest := by
              rcases List.mem_cons.mp hwmem with h | h
              · exact absurd h.symm hvw
              · exact h
            exact ⟨w, hw', hw1, hw2, fun he => hvw he.symm⟩
          · have hv' : v ∈ rest := by
              rcases List.mem_cons.mp hvmem with h | h
              · exact absurd h hvx
              · exact h
            exact ⟨v, hv', hv1, hv2, hvx⟩
        exact simplifyPHILoop_conflict pid x hself hxu rest hu hwit

theorem simplifyPHILoop_result_mem (pid : IId) :
    ∀ (l : List Val) (cv : Option Val) (hu : Bool) (r : Option Val × Bool),
      simplifyPHILoop pid l cv hu = some r →
      ∀ c, r.1 = some c →
        cv = some c ∨ (c ∈ l ∧ c ≠ Val.vreg pid ∧ isUndefValue c = false) := by
  intro l
  induction l with
  | nil =>
    intro cv hu r hr c hc
    simp only [simplifyPHILoop, Option.some_inj] at hr
    subst hr
    exact Or.inl hc
  | cons x rest ih =>
    intro cv hu r hr c hc
    by_cases hself : x = Val.vreg pid
    · subst hself
      simp only [simplifyPHILoop, beq_self_eq_true, if_true] at hr
      rcases ih cv hu r hr c hc with h | ⟨h1, h2, h3⟩
      · exact Or.inl h
      · exact Or.inr ⟨List.mem_cons_of_mem _ h1, h2, h3⟩
    · by_cases hundef : isUndefValue x = true
      · simp only [simplifyPHILoop, beq_iff_eq, if_neg hself, hundef, if_true] at hr
        rcases ih cv true r hr c hc with h | ⟨h1, h2, h3⟩
        · exact Or.inl h
        · exact Or.inr ⟨List.mem_cons_of_mem _ h1, h2, h3⟩
      · cases cv with
        | some cval =>
          by_cases hxc : x = cval
          · subst hxc
            simp only [simplifyPHILoop, beq_iff_eq, if_neg hself, hundef,
              Bool.false_eq_true, if_false, beq_self_eq_true, if_true] at hr
            rcases ih (some x) hu r hr c hc with h | ⟨h1, h2, h3⟩
            · exact Or.inl h
            · exact Or.inr ⟨List.mem_cons_of_mem _ h1, h2, h3⟩
          · simp only [simplifyPHILoop, beq_iff_eq, if_neg hself, hundef,
              Bool.false_eq_true, if_false, if_neg hxc] at hr
            cases hr
        | none =>
          simp only [simplifyPHILoop, beq_iff_eq, if_neg hself, hundef,
            Bool.false_eq_true, if_false] at hr
          rcases ih (some x) hu r hr c hc with h | ⟨h1, h2, h3⟩
          · have hcx : x = c := by injection h
            subst hcx
            exact Or.inr ⟨List.mem_cons_self x rest, hself, by simpa using hundef⟩
          · exact Or.inr ⟨List.mem_cons_of_mem _ h1, h2, h3⟩

theorem any_filter_eq (p q : Val → Bool) (l : List Val) :
    (l.filter p).any q = l.any (fun v => p v && q v) := by
  induction l with
  | nil => rfl
  | cons x rest ih =>
    by_cases hx : p x = true
    · simp [List.filter_cons, hx, ih]
    · simp [List.filter_cons, hx, ih]

/-- Claim C7: trivial-phi simplification, iterated over the registered phis,
replaces a phi `P` as follows: incoming operands equal to `P` itself are
ignored; if all remaining operands are undef, `P` is replaced with undef and
erased; if all remaining non-undef operands equal a single value `V`, `P` is
replaced with `V` when there are no undef operands, and when undef operands
are present only when `V` dominates `P`; in every other case `P` is left
unchanged (and stays in the registry). -/
theorem c7_trivial_phi_simplification (domI : IId → IId → Bool) (pid : IId)
    (ty : Ty) (inc : List (Val × BId)) :
    (phiNonUndef pid inc = [] →
      simplifyPHINode domI pid ty inc = some (Val.vundef ty)) ∧
    (∀ V ∈ phiNonUndef pid inc, (∀ w ∈ phiNonUndef pid inc, w = V) →
      simplifyPHINode domI pid ty inc =
        (if (phiNonSelf pid inc).any isUndefValue = true then
          (if valueDominatesPHI domI V pid = true then some V else none)
        else some V)) ∧
    ((∃ v ∈ phiNonUndef pid inc, ∃ w ∈ phiNonUndef pid inc, v ≠ w) →
      simplifyPHINode domI pid ty inc = none) ∧
    (∀ v, simplifyPHINode domI pid ty inc = some v →
      v ≠ Val.vreg pid ∧
      ∀ F : Func,
        ((F.rauw (Val.vreg pid) v).eraseInstr pid).findInstr pid = none ∧
        ∀ t ∈ ((F.rauw (Val.vreg pid) v).eraseInstr pid).instrs,
          Val.vreg pid ∉ t.2.2.operands) ∧
    (∀ (F : Func) key rest kept elim,
      F.findInstr pid = some (.phi ty inc) →
      (∀ v, simplifyPHINode domI pid ty inc = some v →
        simplifySweep domI ((key, pid) :: rest) F kept elim =
          simplifySweep domI rest ((F.rauw (Val.vreg pid) v).eraseInstr pid) kept true) ∧
      (simplifyPHINode domI pid ty inc = none →
        simplifySweep domI ((key, pid) :: rest) F kept elim =
          simplifySweep domI rest F (kept ++ [(key, pid)]) elim)) := by
  refine ⟨?_, ?_, ?_, ?_, ?_⟩
  · -- all remaining operands undef (or none remain): fold to undef
    intro hne
    have hall : ∀ v ∈ inc.map (fun vb => vb.1),
        v = Val.vreg pid ∨ isUndefValue v = true := by
      intro v hv
      by_cases hs : v = Val.vreg pid
      · exact Or.inl hs
      · by_cases hun : isUndefValue v = true
        · exact Or.inr hun
        · exfalso
          have hmem : v ∈ phiNonUndef pid inc := by
            unfold phiNonUndef phiNonSelf
            exact List.mem_filter.mpr ⟨List.mem_filter.mpr ⟨hv, by simpa using hs⟩,
              by simpa using hun⟩
          rw [hne] at hmem
          cases hmem
    unfold simplifyPHINode
    rw [simplifyPHILoop_allSkip pid _ none false hall]
  · -- a single common non-undef value V
    intro V hV hallV
    have hVfacts := List.mem_filter.mp hV
    have hVns := List.mem_filter.mp hVfacts.1
    have hVself : V ≠ Val.vreg pid := by simpa using hVns.2
    have hVundef : isUndefValue V = false := by simpa using hVfacts.2
    have hall : ∀ w ∈ inc.map (fun vb => vb.1),
        w = Val.vreg pid ∨ isUndefValue w = true ∨ w = V := by
      intro w hw
      by_cases hs : w = Val.vreg pid
      · exact Or.inl hs
      · by_cases hun : isUndefValue w = true
        · exact Or.inr (Or.inl hun)
        · refine Or.inr (Or.inr (hallV w ?_))
          unfold phiNonUndef phiNonSelf
          exact List.mem_filter.mpr ⟨List.mem_filter.mpr ⟨hw, by simpa using hs⟩,
            by simpa using hun⟩
    obtain ⟨cv', h1, _h2, h3, _⟩ :=
      simplifyPHILoop_single pid V hVself hVundef (inc.map (fun vb => vb.1))
        none false hall (Or.inl rfl)
    have hcv' : cv' = some V := h3 hVns.1
    subst hcv'
    have hany : (inc.map (fun vb => vb.1)).any
        (fun v => v != Val.vreg pid && isUndefValue v) =
        (phiNonSelf pid inc).any isUndefValue := by
      unfold phiNonSelf
      rw [any_filter_eq]
    unfold simplifyPHINode
    rw [h1]
    simp only [Bool.false_or, hany]
  · -- two distinct non-undef values: left alone
    intro hex
    obtain ⟨v, hv, w, hw, hvw⟩ := hex
    have hvf := List.mem_filter.mp hv
    have hvns := List.mem_filter.mp hvf.1
    have hwf := List.mem_filter.mp hw
    have hwns := List.mem_filter.mp hwf.1
    unfold simplifyPHINode
    rw [simplifyPHILoop_conflict_none pid _ false
      ⟨v, hvns.1, w, hwns.1, by simpa using hvns.2, by simpa using hwns.2,
        by simpa using hvf.2, by simpa using hwf.2, hvw⟩]
  · -- a successful fold never yields the phi itself; replacement plus
    -- erasure leaves no trace of the phi
    intro v hv
    have hne : v ≠ Val.vreg pid := by
      unfold simplifyPHINode at hv
      cases hloop : simplifyPHILoop pid (inc.map (fun vb => vb.1)) none false with
      | none => rw [hloop] at hv; cases hv
      | some r =>
        rw [hloop] at hv
        obtain ⟨cv, hu⟩ := r
        cases cv with
        | none =>
          have : Val.vundef ty = v := by
            simpa using hv
          rw [← this]
          intro h
          cases h
        | some c =>
          have hc := simplifyPHILoop_result_mem pid (inc.map (fun vb => vb.1))
            none false (some c, hu) hloop c rfl
          rcases hc with h | ⟨_, hcne, _⟩
          · cases h
          · have hvc : v = c := by
              by_cases hhu : hu = true
              · subst hhu
                by_cases hdom : valueDominatesPHI domI c pid = true
                · simp [hdom] at hv
                  exact hv.symm
                · simp [hdom] at hv
              · have hfu : hu = false := Bool.eq_false_iff.mpr hhu
                subst hfu
                simp at hv
                exact hv.symm
            rw [hvc]
            exact hcne
    refine ⟨hne, fun F => ⟨findInstr_eraseInstr_self _ _, ?_⟩⟩
    intro t ht
    exact rauw_clears_operand (fun he => hne he.symm) (mem_instrs_eraseInstr ht).1
  · -- effect on one sweep step of the registry loop
    intro F key rest kept elim hfind
    constructor
    · intro v hv
      simp only [simplifySweep, hfind, Option.bind_eq_bind, Option.some_bind]
      rw [hv]
    · intro hnone
      simp only [simplifySweep, hfind, Option.bind_eq_bind, Option.some_bind]
      rw [hnone]

/-- Witness for C7: a phi over a constant and an undef folds to the
constant when the constant dominates the phi. -/
theorem c7_witness :
    (Val.vconst 1 (Ty.base 32)) ∈ phiNonUndef 5
      [(Val.vconst 1 (Ty.base 32), 0), (Val.vundef (Ty.base 32), 1)] ∧
    simplifyPHINode (fun _ _ => true) 5 (Ty.base 32)
        [(Val.vconst 1 (Ty.base 32), 0), (Val.vundef (Ty.base 32), 1)] =
      some (Val.vconst 1 (Ty.base 32)) := by
  refine ⟨by decide, ?_⟩
  have h := (c7_trivial_phi_simplification (fun _ _ => true) 5 (Ty.base 32)
      [(Val.vconst 1 (Ty.base 32), 0), (Val.vundef (Ty.base 32), 1)]).2.1
  rw [h (Val.vconst 1 (Ty.base 32)) (by decide) (by decide)]
  decide

end SimplifyPHI

/-- Claim C2: the promotability filter returns true for a stack cell iff
every user of the cell is either a load whose produced type equals the
cell's allocated type, or a store whose value operand has the allocated type
and is not the cell itself; any other user makes the filter return false. -/
theorem c2_promotability_filter (F : Func) (aid : IId) (aty : Ty)
    (h : F.findInstr aid = some (.alloca aty)) :
    isAllocaPromotable F aid = true ↔
      ∀ u ∈ F.usersOf (Val.vreg aid),
        (∃ p, u.2.2 = Instr.load aty p) ∨
        (∃ v p, u.2.2 = Instr.store v p ∧ v ≠ Val.vreg aid ∧ F.valTy v = some aty) := by
  unfold isAllocaPromotable
  rw [h, List.all_eq_true]
  constructor
  · intro H u hu
    have hc := H u hu
    cases hins : u.2.2 with
    | load lty p =>
      rw [hins] at hc
      simp only [beq_iff_eq] at hc
      exact Or.inl ⟨p, by rw [hc]⟩
    | store v p =>
      rw [hins] at hc
      simp only [Bool.and_eq_true, Bool.not_eq_true', beq_eq_false_iff_ne, ne_eq,
        beq_iff_eq] at hc
      exact Or.inr ⟨v, p, rfl, hc.1, hc.2⟩
    | alloca ty => rw [hins] at hc; exact absurd hc (by simp)
    | phi ty inc => rw [hins] at hc; exact absurd hc (by simp)
    | other ty ops => rw [hins] at hc; exact absurd hc (by simp)
    | term ops ss => rw [hins] at hc; exact absurd hc (by simp)
  · intro H u hu
    rcases H u hu with ⟨p, hins⟩ | ⟨v, p, hins, hne, hty⟩
    · rw [hins]; simp
    · rw [hins]
      simp only [Bool.and_eq_true, Bool.not_eq_true', beq_eq_false_iff_ne, ne_eq,
        beq_iff_eq]
      exact ⟨hne, hty⟩

/-- Witness for C2 on a concrete cell with one load user and one store
user. -/
theorem c2_witness :
    (Func.mk [Block.mk 0 [(1, .alloca (Ty.base 32)),
        (2, .store (.vconst 42 (Ty.base 32)) (.vreg 1)),
        (3, .load (Ty.base 32) (.vreg 1)), (4, .term [.vreg 3] [])]] 10).findInstr 1 =
      some (.alloca (Ty.base 32)) ∧
    (isAllocaPromotable (Func.mk [Block.mk 0 [(1, .alloca (Ty.base 32)),
        (2, .store (.vconst 42 (Ty.base 32)) (.vreg 1)),
        (3, .load (Ty.base 32) (.vreg 1)), (4, .term [.vreg 3] [])]] 10) 1 = true ↔
      ∀ u ∈ (Func.mk [Block.mk 0 [(1, .alloca (Ty.base 32)),
          (2, .store (.vconst 42 (Ty.base 32)) (.vreg 1)),
          (3, .load (Ty.base 32) (.vreg 1)), (4, .term [.vreg 3] [])]] 10).usersOf
            (Val.vreg 1),
        (∃ p, u.2.2 = Instr.load (Ty.base 32) p) ∨
        (∃ v p, u.2.2 = Instr.store v p ∧ v ≠ Val.vreg 1 ∧
          (Func.mk [Block.mk 0 [(1, .alloca (Ty.base 32)),
            (2, .store (.vconst 42 (Ty.base 32)) (.vreg 1)),
            (3, .load (Ty.base 32) (.vreg 1)), (4, .term [.vreg 3] [])]] 10).valTy v =
              some (Ty.base 32))) :=
  ⟨rfl, c2_promotability_filter _ 1 (Ty.base 32) rfl⟩

section Driver

theorem pmtr_result_scan_empty (domB : BId → BId → Bool) (domI : IId → IId → Bool)
    (idf : List BId → List BId → List BId) :
    ∀ (fuel : Nat) (F F' : Func) (ch : Bool),
      promoteMemoryToRegister domB domI idf fuel F = some (F', ch) →
      promotableEntryAllocas F' = [] := by
  intro fuel
  induction fuel with
  | zero =>
    intro F F' ch h
    unfold promoteMemoryToRegister at h
    by_cases hs : (promotableEntryAllocas F).isEmpty = true
    · rw [if_pos hs] at h
      have hFF : F = F' := by
        have := Option.some_inj.mp h
        exact congrArg Prod.fst this
      rw [← hFF]
      exact List.isEmpty_iff.mp hs
    · rw [if_neg hs] at h
      cases h
  | succ fuel ih =>
    intro F F' ch h
    unfold promoteMemoryToRegister at h
    by_cases hs : (promotableEntryAllocas F).isEmpty = true
    · rw [if_pos hs] at h
      have hFF : F = F' := by
        have := Option.some_inj.mp h
        exact congrArg Prod.fst this
      rw [← hFF]
      exact List.isEmpty_iff.mp hs
    · rw [if_neg hs] at h
      simp only [Option.bind_eq_bind] at h
      cases h1 : PromoteMemToReg domB domI idf (fuel + 1) F (promotableEntryAllocas F) with
      | none => rw [h1] at h; cases h
      | some F1 =>
        rw [h1] at h
        simp only [Option.some_bind] at h
        cases h2 : promoteMemoryToRegister domB domI idf fuel F1 with
        | none => rw [h2] at h; cases h
        | some r =>
          rw [h2] at h
          simp only [Option.some_bind, Option.some_inj] at h
          have hF' : r.1 = F' := congrArg Prod.fst h
          rw [← hF']
          exact ih F1 r.1 r.2 (by rw [h2])

/-- Claim C9: the pass is idempotent — whenever a run of
`promoteMemoryToRegister` completes, a second run on its result finds no
promotable allocas in the entry block, changes nothing (the function is
returned bitwise identical) and returns false. -/
theorem c9_idempotent (domB : BId → BId → Bool) (domI : IId → IId → Bool)
    (idf : List BId → List BId → List BId) (fuel : Nat) (F F' : Func) (ch : Bool)
    (h : promoteMemoryToRegister domB domI idf fuel F = some (F', ch)) :
    promotableEntryAllocas F' = [] ∧
    ∀ fuel', promoteMemoryToRegister domB domI idf fuel' F' = some (F', false) := by
  have hscan := pmtr_result_scan_empty domB domI idf fuel F F' ch h
  refine ⟨hscan, fun fuel' => ?_⟩
  unfold promoteMemoryToRegister
  rw [if_pos (by rw [hscan]; rfl)]

/-- Witness for C9 on scenario S1. -/
theorem c9_witness :
    promoteMemoryToRegister (fun _ _ => true) (fun _ _ => true) (fun _ _ => []) 5 exS1 =
      some (exS1res, true) ∧
    promotableEntryAllocas exS1res = [] ∧
    promoteMemoryToRegister (fun _ _ => true) (fun _ _ => true) (fun _ _ => []) 1 exS1res =
      some (exS1res, false) := by
  have h : promoteMemoryToRegister (fun _ _ => true) (fun _ _ => true)
      (fun _ _ => []) 5 exS1 = some (exS1res, true) := by decide
  have h2 := c9_idempotent (fun _ _ => true) (fun _ _ => true) (fun _ _ => [])
    5 exS1 exS1res true h
  exact ⟨h, h2.1, h2.2 1⟩

end Driver

section DeadCell

theorem find_filter_ne (i j : IId) (hij : j ≠ i) (l : List (IId × BId × Instr)) :
    (l.filter (fun t => t.1 != i)).find? (fun t => t.1 == j) =
      l.find? (fun t => t.1 == j) := by
  induction l with
  | nil => rfl
  | cons t rest ih =>
    by_cases ht : t.1 = i
    · have h2 : (t.1 == j) = false := by
        simp only [beq_eq_false_iff_ne, ne_eq, ht]
        exact fun he => hij he.symm
      have h3 : (i == j) = false := by
        simp only [beq_eq_false_iff_ne, ne_eq]
        exact fun he => hij he.symm
      simp [List.filter_cons, ht, List.find?_cons, h2, h3, ih]
    · by_cases htj : t.1 = j
      · simp [List.filter_cons, ht, List.find?_cons, htj, hij]
      · simp [List.filter_cons, ht, List.find?_cons, htj, ih]


/-- Claim C10: a cell in the promotion set with no users at all is erased
from the function immediately, the iteration performs no other mutation:
the registries (`NewPhiNodes`, `PhiToAllocaMap`, `AllocaLookup`) are
untouched, no phi is inserted, and every instruction other than the cell is
left exactly as it was. -/
theorem c10_dead_cell_erased (domB : BId → BId → Bool)
    (idf : List BId → List BId → List BId) (fuel : Nat) (s : St) (lbi : LBI)
    (i : Nat) (aid : IId)
    (hget : s.Allocas.get? i = some aid)
    (hprom : isAllocaPromotable s.F aid = true)
    (husers : s.F.usersOf (Val.vreg aid) = []) :
    processAllocaStep domB idf fuel s lbi i =
      some (.removed { s with
                       F := s.F.eraseInstr aid
                       Allocas := swapRemoveAt s.Allocas i } lbi) ∧
    (s.F.eraseInstr aid).findInstr aid = none ∧
    (∀ j, j ≠ aid → (s.F.eraseInstr aid).findInstr j = s.F.findInstr j) ∧
    (∀ t ∈ (s.F.eraseInstr aid).instrs, t ∈ s.F.instrs) := by
  refine ⟨?_, findInstr_eraseInstr_self _ _,
    fun j hj => findInstr_eraseInstr_other hj,
    fun t ht => (mem_instrs_eraseInstr ht).1⟩
  unfold processAllocaStep
  rw [hget]
  simp [hprom, husers]

/-- Witness for C10: the userless cell 5 of `exDead` is erased and nothing
else moves. -/
theorem c10_witness :
    (⟨exDead, [5, 1], [], [], [], [], []⟩ : St).Allocas.get? 0 = some 5 ∧
    isAllocaPromotable exDead 5 = true ∧
    exDead.usersOf (Val.vreg 5) = [] ∧
    processAllocaStep (fun _ _ => true) (fun _ _ => []) 3
        ⟨exDead, [5, 1], [], [], [], [], []⟩ [] 0 =
      some (.removed { (⟨exDead, [5, 1], [], [], [], [], []⟩ : St) with
                       F := exDead.eraseInstr 5
                       Allocas := swapRemoveAt [5, 1] 0 } []) := by
  refine ⟨by decide, by decide, by decide, ?_⟩
  exact (c10_dead_cell_erased (fun _ _ => true) (fun _ _ => []) 3
    ⟨exDead, [5, 1], [], [], [], [], []⟩ [] 0 5 (by decide) (by decide)
    (by decide)).1

end DeadCell

end M2R
